import Mathlib

/-!
Verification of the invertible URL router (`typescript-invertible-router`).

This file is a shallow embedding, in Lean 4, of the library's current
iteration: the parser engine of `src/parser.ts` (the `ParserBase` /
`doParse` / `doPrint` / `buildTrie` iteration, with `parseAll` and the
prefix trie) together with the adapter module it imports (`CustomAdapter`,
`NamedAdapter`, `DefaultAdapter`, `DimapAdapter`).  JavaScript objects are
modelled as association lists with `Object.assign` semantics (an existing
key keeps its position, a new key is appended); JavaScript's
`decodeURIComponent` / `encodeURIComponent` builtins are modelled by
explicit percent-coding functions over UTF-8 byte sequences, with
`URIError` modelled as `Option`/`Except` failure.
-/

namespace Router

/-- `Object.assign`-style single-key update for association lists: if the
key is present its value is replaced in place, otherwise the pair is
appended at the end (JavaScript property-insertion order). -/
def assocSet {α β : Type} [BEq α] : List (α × β) → α → β → List (α × β)
  | [], k, v => [(k, v)]
  | (k', v') :: t, k, v =>
    if k' == k then (k', v) :: t else (k', v') :: assocSet t k v

/-- `Object.assign(target, src)`: fold every field of `src` into `target`. -/
def assocAssign {α β : Type} [BEq α] (target src : List (α × β)) : List (α × β) :=
  src.foldl (fun acc kv => assocSet acc kv.1 kv.2) target

theorem assocSet_lookup_self {α β : Type} [BEq α] [LawfulBEq α]
    (l : List (α × β)) (k : α) (v : β) : (assocSet l k v).lookup k = some v := by
  induction l with
  | nil => simp [assocSet, List.lookup]
  | cons h t ih =>
    obtain ⟨k', v'⟩ := h
    by_cases hk : k' = k
    · subst hk
      simp [assocSet, List.lookup]
    · have h1 : (k' == k) = false := beq_eq_false_iff_ne.mpr hk
      have h2 : (k == k') = false := beq_eq_false_iff_ne.mpr (Ne.symm hk)
      simp [assocSet, List.lookup, h1, h2, ih]

theorem assocSet_lookup_other {α β : Type} [BEq α] [LawfulBEq α]
    (l : List (α × β)) (k k' : α) (v : β) (h : k' ≠ k) :
    (assocSet l k v).lookup k' = l.lookup k' := by
  have hb : (k' == k) = false := beq_eq_false_iff_ne.mpr h
  induction l with
  | nil => simp [assocSet, List.lookup, hb]
  | cons hd t ih =>
    obtain ⟨k₀, v₀⟩ := hd
    by_cases hk : k₀ = k
    · subst hk
      simp [assocSet, List.lookup, hb]
    · have h1 : (k₀ == k) = false := beq_eq_false_iff_ne.mpr hk
      by_cases hk' : k' = k₀
      · subst hk'
        simp [assocSet, List.lookup, h1]
      · have h2 : (k' == k₀) = false := beq_eq_false_iff_ne.mpr hk'
        simp [assocSet, List.lookup, h1, h2, ih]

/-! ## Percent-coding (models `encodeURIComponent` / `decodeURIComponent`)

`prettyUriEncode` in the source is `encodeURIComponent` post-processed to
keep `:` and `,` intact.  `encodeURIComponent` leaves ASCII alphanumerics
and `- _ . ! ~ * ' ( )` unescaped and escapes every other character as the
`%XX` escapes of its UTF-8 bytes (uppercase hex).  `decodeURIComponent`
decodes `%XX` escapes, insisting that consecutive escaped bytes form valid
UTF-8 (otherwise it throws `URIError`, modelled here by `none`). -/

/-- The sixteen uppercase hex digit characters. -/
def hexDigitsL : List Char :=
  ['0', '1', '2', '3', '4', '5', '6', '7', '8', '9', 'A', 'B', 'C', 'D', 'E', 'F']

/-- Uppercase hex digit of a nibble. -/
def hexChar (n : Nat) : Char := hexDigitsL.getD n '0'

/-- Value of a hex digit character (either case), `none` otherwise. -/
def hexVal (c : Char) : Option Nat :=
  if 48 ≤ c.toNat ∧ c.toNat ≤ 57 then some (c.toNat - 48)
  else if 65 ≤ c.toNat ∧ c.toNat ≤ 70 then some (c.toNat - 55)
  else if 97 ≤ c.toNat ∧ c.toNat ≤ 102 then some (c.toNat - 87)
  else none

/-- UTF-8 bytes of a Unicode scalar value (as a `Char`). -/
def utf8Bytes (c : Char) : List Nat :=
  let n := c.toNat
  if n < 0x80 then [n]
  else if n < 0x800 then [0xC0 + n / 64, 0x80 + n % 64]
  else if n < 0x10000 then [0xE0 + n / 4096, 0x80 + n / 64 % 64, 0x80 + n % 64]
  else [0xF0 + n / 0x40000, 0x80 + n / 4096 % 64, 0x80 + n / 64 % 64, 0x80 + n % 64]

/-- Characters `encodeURIComponent` leaves intact, plus `:` and `,` which
`prettyUriEncode` additionally keeps. -/
def keepChar (c : Char) : Bool :=
  c.isAlphanum || c ∈ ['-', '_', '.', '!', '~', '*', '\'', '(', ')', ':', ',']

/-- The three characters of one `%XX` escape. -/
def byteEsc (b : Nat) : List Char := ['%', hexChar (b / 16), hexChar (b % 16)]

/-- Percent-encode one character. -/
def encChar (c : Char) : List Char :=
  if keepChar c then [c] else (utf8Bytes c).flatMap byteEsc

/-- Percent-encode a character list. -/
def encL (l : List Char) : List Char := l.flatMap encChar

/-- Models `prettyUriEncode` (`encodeURIComponent` keeping `:` and `,`). -/
def prettyUriEncode (s : String) : String := (encL s.toList).asString

/-- Read one `%XX` escape from the front of the character list. -/
def readByte : List Char → Option (Nat × List Char)
  | '%' :: h :: l :: rest =>
    match hexVal h, hexVal l with
    | some a, some b => some (a * 16 + b, rest)
    | _, _ => none
  | _ => none

/-- Is `b` a UTF-8 continuation byte? -/
def isCont (b : Nat) : Bool := 0x80 ≤ b && b < 0xC0

/-- Decode one UTF-8 sequence of `%XX` escapes from the front of the list
(which must start with `%`), rejecting malformed, overlong, surrogate and
out-of-range sequences exactly as ECMAScript's `Decode` operation does. -/
def decodeSeq (l : List Char) : Option (Char × List Char) :=
  match readByte l with
  | none => none
  | some (b0, r0) =>
    if b0 < 0x80 then some (Char.ofNat b0, r0)
    else if b0 < 0xC0 then none
    else if b0 < 0xE0 then
      match readByte r0 with
      | none => none
      | some (b1, r1) =>
        if isCont b1 then
          let v := (b0 - 0xC0) * 64 + (b1 - 0x80)
          if 0x80 ≤ v then some (Char.ofNat v, r1) else none
        else none
    else if b0 < 0xF0 then
      match readByte r0 with
      | none => none
      | some (b1, r1) =>
        match readByte r1 with
        | none => none
        | some (b2, r2) =>
          if isCont b1 && isCont b2 then
            let v := (b0 - 0xE0) * 4096 + (b1 - 0x80) * 64 + (b2 - 0x80)
            if 0x800 ≤ v ∧ ¬(0xD800 ≤ v ∧ v < 0xE000) then some (Char.ofNat v, r2)
            else none
          else none
    else if b0 < 0xF8 then
      match readByte r0 with
      | none => none
      | some (b1, r1) =>
        match readByte r1 with
        | none => none
        | some (b2, r2) =>
          match readByte r2 with
          | none => none
          | some (b3, r3) =>
            if isCont b1 && isCont b2 && isCont b3 then
              let v := (b0 - 0xF0) * 0x40000 + (b1 - 0x80) * 4096 +
                       (b2 - 0x80) * 64 + (b3 - 0x80)
              if 0x10000 ≤ v ∧ v < 0x110000 then some (Char.ofNat v, r3)
              else none
            else none
      else none

theorem readByte_length {l : List Char} {b : Nat} {r : List Char}
    (h : readByte l = some (b, r)) : r.length + 3 = l.length := by
  unfold readByte at h
  split at h
  · split at h
    · simp only [Option.some.injEq, Prod.mk.injEq] at h
      obtain ⟨-, rfl⟩ := h
      simp
    · simp at h
  · simp at h

theorem decodeSeq_length {l : List Char} {c : Char} {r : List Char}
    (h : decodeSeq l = some (c, r)) : r.length < l.length := by
  unfold decodeSeq at h
  cases h0 : readByte l with
  | none => rw [h0] at h; simp at h
  | some br =>
    obtain ⟨b0, r0⟩ := br
    rw [h0] at h
    simp only at h
    have hl0 := readByte_length h0
    split at h
    · simp only [Option.some.injEq, Prod.mk.injEq] at h
      obtain ⟨-, rfl⟩ := h
      omega
    · split at h
      · simp at h
      · split at h
        · cases h1 : readByte r0 with
          | none => rw [h1] at h; simp at h
          | some br1 =>
            obtain ⟨b1, r1⟩ := br1
            rw [h1] at h
            have hl1 := readByte_length h1
            simp only at h
            split at h
            · split at h
              · simp only [Option.some.injEq, Prod.mk.injEq] at h
                obtain ⟨-, rfl⟩ := h
                omega
              · simp at h
            · simp at h
        · split at h
          · cases h1 : readByte r0 with
            | none => rw [h1] at h; simp at h
            | some br1 =>
              obtain ⟨b1, r1⟩ := br1
              rw [h1] at h
              have hl1 := readByte_length h1
              simp only at h
              cases h2 : readByte r1 with
              | none => rw [h2] at h; simp at h
              | some br2 =>
                obtain ⟨b2, r2⟩ := br2
                rw [h2] at h
                have hl2 := readByte_length h2
                simp only at h
                split at h
                · split at h
                  · simp only [Option.some.injEq, Prod.mk.injEq] at h
                    obtain ⟨-, rfl⟩ := h
                    omega
                  · simp at h
                · simp at h
          · split at h
            · cases h1 : readByte r0 with
              | none => rw [h1] at h; simp at h
              | some br1 =>
                obtain ⟨b1, r1⟩ := br1
                rw [h1] at h
                have hl1 := readByte_length h1
                simp only at h
                cases h2 : readByte r1 with
                | none => rw [h2] at h; simp at h
                | some br2 =>
                  obtain ⟨b2, r2⟩ := br2
                  rw [h2] at h
                  have hl2 := readByte_length h2
                  simp only at h
                  cases h3 : readByte r2 with
                  | none => rw [h3] at h; simp at h
                  | some br3 =>
                    obtain ⟨b3, r3⟩ := br3
                    rw [h3] at h
                    have hl3 := readByte_length h3
                    simp only at h
                    split at h
                    · split at h
                      · simp only [Option.some.injEq, Prod.mk.injEq] at h
                        obtain ⟨-, rfl⟩ := h
                        omega
                      · simp at h
                    · simp at h
            · simp at h

/-- Percent-decoding worker, structurally recursive on a fuel bound (one
unit of fuel per decoded character; any fuel of at least the input length
yields the same result, see `percD_sat`). -/
def percD : Nat → List Char → Option (List Char)
  | _, [] => some []
  | 0, _ :: _ => none
  | n + 1, c :: rest =>
    if c = '%' then
      match decodeSeq (c :: rest) with
      | some (c', r) => (percD n r).map (c' :: ·)
      | none => none
    else (percD n rest).map (c :: ·)

/-- Percent-decode a character list; `none` models a thrown `URIError`. -/
def percDecode (l : List Char) : Option (List Char) := percD l.length l

/-- Models `decodeURIComponent`; `none` models a thrown `URIError`. -/
def percentDecode (s : String) : Option String :=
  (percDecode s.toList).map List.asString

theorem percD_succ (m : Nat) (c : Char) (rest : List Char) :
    percD (m + 1) (c :: rest) =
      if c = '%' then
        match decodeSeq (c :: rest) with
        | some (c', r) => (percD m r).map (c' :: ·)
        | none => none
      else (percD m rest).map (c :: ·) := rfl

theorem percD_sat : ∀ (n : Nat) (l : List Char), l.length ≤ n → percD n l = percDecode l := by
  intro n
  unfold percDecode
  induction n using Nat.strong_induction_on with
  | _ n ih =>
    intro l h
    cases l with
    | nil => cases n <;> rfl
    | cons c rest =>
      cases n with
      | zero => simp at h
      | succ m =>
        simp only [List.length_cons] at h ⊢
        rw [percD_succ m c rest, percD_succ rest.length c rest]
        by_cases hc : c = '%'
        · rw [if_pos hc, if_pos hc]
          cases hd : decodeSeq (c :: rest) with
          | none => rfl
          | some cr =>
            obtain ⟨c', r⟩ := cr
            have hr := decodeSeq_length hd
            simp only [List.length_cons] at hr
            dsimp only
            rw [ih m (by omega) r (by omega)]
            rw [ih rest.length (by omega) r (by omega)]
        · rw [if_neg hc, if_neg hc]
          rw [ih m (by omega) rest (by omega)]

theorem hexVal_hexChar (n : Nat) (h : n < 16) : hexVal (hexChar n) = some n := by
  interval_cases n <;> rfl

theorem readByte_byteEsc (b : Nat) (h : b < 256) (rest : List Char) :
    readByte (byteEsc b ++ rest) = some (b, rest) := by
  show readByte ('%' :: hexChar (b / 16) :: hexChar (b % 16) :: rest) = some (b, rest)
  simp only [readByte]
  rw [hexVal_hexChar (b / 16) (by omega), hexVal_hexChar (b % 16) (by omega)]
  simp only [Option.some.injEq, Prod.mk.injEq, and_true]
  omega

theorem char_valid_nat (c : Char) :
    c.toNat < 0xD800 ∨ (0xE000 ≤ c.toNat ∧ c.toNat < 0x110000) := c.valid

theorem decodeSeq_encChar (c : Char) (hc : keepChar c = false) (rest : List Char) :
    decodeSeq (encChar c ++ rest) = some (c, rest) := by
  have hv := char_valid_nat c
  have hofn := Char.ofNat_toNat c
  by_cases h1 : c.toNat < 0x80
  · have he : encChar c ++ rest = byteEsc c.toNat ++ rest := by
      simp [encChar, hc, utf8Bytes, h1]
    rw [he]
    unfold decodeSeq
    rw [readByte_byteEsc c.toNat (by omega)]
    simp only
    rw [if_pos h1, hofn]
  · by_cases h2 : c.toNat < 0x800
    · have he : encChar c ++ rest =
          byteEsc (0xC0 + c.toNat / 64) ++ (byteEsc (0x80 + c.toNat % 64) ++ rest) := by
        simp [encChar, hc, utf8Bytes, h1, h2, List.flatMap]
      rw [he]
      unfold decodeSeq
      rw [readByte_byteEsc (0xC0 + c.toNat / 64) (by omega)]
      simp only
      rw [if_neg (by omega), if_neg (by omega), if_pos (by omega),
        readByte_byteEsc (0x80 + c.toNat % 64) (by omega)]
      simp only [isCont]
      rw [if_pos (by simp; omega), if_pos (by omega)]
      have : (0xC0 + c.toNat / 64 - 0xC0) * 64 + (0x80 + c.toNat % 64 - 0x80) = c.toNat := by
        omega
      rw [this, hofn]
    · by_cases h3 : c.toNat < 0x10000
      · have he : encChar c ++ rest =
            byteEsc (0xE0 + c.toNat / 4096) ++ (byteEsc (0x80 + c.toNat / 64 % 64) ++
              (byteEsc (0x80 + c.toNat % 64) ++ rest)) := by
          simp [encChar, hc, utf8Bytes, h1, h2, h3, List.flatMap]
        rw [he]
        unfold decodeSeq
        rw [readByte_byteEsc (0xE0 + c.toNat / 4096) (by omega)]
        simp only
        rw [if_neg (by omega), if_neg (by omega), if_neg (by omega), if_pos (by omega),
          readByte_byteEsc (0x80 + c.toNat / 64 % 64) (by omega)]
        simp only
        rw [readByte_byteEsc (0x80 + c.toNat % 64) (by omega)]
        simp only [isCont]
        rw [if_pos (by simp; omega), if_pos (by constructor <;> omega)]
        have : (0xE0 + c.toNat / 4096 - 0xE0) * 4096 +
            (0x80 + c.toNat / 64 % 64 - 0x80) * 64 + (0x80 + c.toNat % 64 - 0x80) =
            c.toNat := by
          omega
        rw [this, hofn]
      · have he : encChar c ++ rest =
            byteEsc (0xF0 + c.toNat / 0x40000) ++ (byteEsc (0x80 + c.toNat / 4096 % 64) ++
              (byteEsc (0x80 + c.toNat / 64 % 64) ++ (byteEsc (0x80 + c.toNat % 64) ++ rest))) := by
          simp [encChar, hc, utf8Bytes, h1, h2, h3, List.flatMap]
        rw [he]
        unfold decodeSeq
        rw [readByte_byteEsc (0xF0 + c.toNat / 0x40000) (by omega)]
        simp only
        rw [if_neg (by omega), if_neg (by omega), if_neg (by omega), if_neg (by omega),
          if_pos (by omega),
          readByte_byteEsc (0x80 + c.toNat / 4096 % 64) (by omega)]
        simp only
        rw [readByte_byteEsc (0x80 + c.toNat / 64 % 64) (by omega)]
        simp only
        rw [readByte_byteEsc (0x80 + c.toNat % 64) (by omega)]
        simp only [isCont]
        rw [if_pos (by simp; omega), if_pos (by constructor <;> omega)]
        have : (0xF0 + c.toNat / 0x40000 - 0xF0) * 0x40000 +
            (0x80 + c.toNat / 4096 % 64 - 0x80) * 4096 +
            (0x80 + c.toNat / 64 % 64 - 0x80) * 64 + (0x80 + c.toNat % 64 - 0x80) =
            c.toNat := by
          omega
        rw [this, hofn]

theorem keepChar_ne_percent {c : Char} (h : keepChar c = true) : c ≠ '%' := by
  intro he
  subst he
  simp [keepChar, Char.isAlphanum, Char.isAlpha, Char.isUpper, Char.isLower, Char.isDigit] at h

theorem percDecode_cons_ne (c : Char) (hne : c ≠ '%') (rest : List Char) :
    percDecode (c :: rest) = (percDecode rest).map (c :: ·) := by
  show percD (c :: rest).length (c :: rest) = (percDecode rest).map (c :: ·)
  rw [List.length_cons, percD_succ rest.length c rest, if_neg hne,
    percD_sat rest.length rest (by omega)]

theorem percDecode_seq_some {t : List Char} {c : Char} {r : List Char}
    (h : decodeSeq ('%' :: t) = some (c, r)) :
    percDecode ('%' :: t) = (percDecode r).map (c :: ·) := by
  have hr := decodeSeq_length h
  simp only [List.length_cons] at hr
  show percD ('%' :: t).length ('%' :: t) = (percDecode r).map (c :: ·)
  rw [List.length_cons, percD_succ t.length '%' t, if_pos rfl, h]
  dsimp only
  rw [percD_sat t.length r (by omega)]

theorem utf8Bytes_ne_nil (c : Char) : utf8Bytes c ≠ [] := by
  simp only [utf8Bytes]
  split
  · simp
  · split
    · simp
    · split
      · simp
      · simp

theorem encChar_head_percent (c : Char) (hc : keepChar c = false) :
    ∃ t, encChar c = '%' :: t := by
  cases hb : utf8Bytes c with
  | nil => exact absurd hb (utf8Bytes_ne_nil c)
  | cons b bs =>
    refine ⟨hexChar (b / 16) :: hexChar (b % 16) :: (List.map byteEsc bs).flatten, ?_⟩
    simp [encChar, hc, hb, byteEsc, List.flatMap]

theorem percDecode_encChar (c : Char) (rest : List Char) :
    percDecode (encChar c ++ rest) = (percDecode rest).map (c :: ·) := by
  by_cases hk : keepChar c
  · have he : encChar c ++ rest = c :: rest := by simp [encChar, hk]
    rw [he]
    exact percDecode_cons_ne c (keepChar_ne_percent hk) rest
  · have hk' : keepChar c = false := by simp [hk]
    obtain ⟨t, ht⟩ := encChar_head_percent c hk'
    have hd := decodeSeq_encChar c hk' rest
    rw [ht] at hd ⊢
    rw [List.cons_append] at hd ⊢
    exact percDecode_seq_some hd

theorem percDecode_encL_append (l rest : List Char) :
    percDecode (encL l ++ rest) = (percDecode rest).map (l ++ ·) := by
  induction l with
  | nil =>
    simp only [encL, List.flatMap_nil, List.nil_append]
    cases percDecode rest <;> simp
  | cons c t ih =>
    have : encL (c :: t) ++ rest = encChar c ++ (encL t ++ rest) := by
      simp [encL, List.flatMap]
    rw [this, percDecode_encChar, ih]
    cases percDecode rest <;> simp

theorem percDecode_encL (l : List Char) : percDecode (encL l) = some l := by
  have h1 := percDecode_encL_append l []
  rw [List.append_nil] at h1
  rw [h1]
  show Option.map (l ++ ·) (percD 0 []) = some l
  simp [percD]

theorem hexChar_mem (n : Nat) : hexChar n ∈ hexDigitsL := by
  by_cases h : n < 16
  · interval_cases n <;> decide
  · unfold hexChar
    rw [List.getD_eq_default]
    · decide
    · simp [hexDigitsL]
      omega

theorem not_mem_encChar (c0 c : Char) (h1 : keepChar c0 = false)
    (h2 : c0 ∉ hexDigitsL) (h3 : c0 ≠ '%') : c0 ∉ encChar c := by
  intro hm
  unfold encChar at hm
  split at hm
  · rename_i hk
    rw [List.mem_singleton] at hm
    subst hm
    rw [hk] at h1
    exact absurd h1 (by simp)
  · rw [List.mem_flatMap] at hm
    obtain ⟨b, -, hb⟩ := hm
    unfold byteEsc at hb
    rw [List.mem_cons, List.mem_cons, List.mem_singleton] at hb
    rcases hb with hb | hb | hb
    · exact h3 hb
    · exact h2 (hb ▸ hexChar_mem (b / 16))
    · exact h2 (hb ▸ hexChar_mem (b % 16))

theorem not_mem_encL (c0 : Char) (l : List Char) (h1 : keepChar c0 = false)
    (h2 : c0 ∉ hexDigitsL) (h3 : c0 ≠ '%') : c0 ∉ encL l := by
  intro hm
  rw [encL, List.mem_flatMap] at hm
  obtain ⟨c, -, hc⟩ := hm
  exact not_mem_encChar c0 c h1 h2 h3 hc

theorem encChar_ne_nil (c : Char) : encChar c ≠ [] := by
  unfold encChar
  split
  · simp
  · cases hb : utf8Bytes c with
    | nil => exact absurd hb (utf8Bytes_ne_nil c)
    | cons b bs => simp [List.flatMap, byteEsc]

theorem encL_ne_nil {l : List Char} (h : l ≠ []) : encL l ≠ [] := by
  cases l with
  | nil => exact absurd rfl h
  | cons c t =>
    simp only [encL, List.flatMap_cons]
    intro he
    rw [List.append_eq_nil] at he
    exact encChar_ne_nil c he.1

/-! ## Splitting and joining (models `String.prototype.split` and `Array.prototype.join`) -/

/-- `str.split(sep)` for a one-character separator, over character lists. -/
def splitOnC (sep : Char) (l : List Char) : List (List Char) :=
  match l with
  | [] => [[]]
  | c :: t =>
    if c = sep then [] :: splitOnC sep t
    else
      match splitOnC sep t with
      | [] => [[c]]
      | h :: r => (c :: h) :: r

/-- `parts.join(sep)` for a one-character separator. -/
def joinSep (sep : Char) : List (List Char) → List Char
  | [] => []
  | [x] => x
  | x :: y :: t => x ++ sep :: joinSep sep (y :: t)

theorem splitOnC_ne_nil (sep : Char) (l : List Char) : splitOnC sep l ≠ [] := by
  induction l with
  | nil => simp [splitOnC]
  | cons c t ih =>
    unfold splitOnC
    by_cases h : c = sep
    · simp [h]
    · simp only [h, if_false]
      split
      · simp
      · simp

theorem splitOnC_no_sep (sep : Char) (l : List Char) (h : sep ∉ l) :
    splitOnC sep l = [l] := by
  induction l with
  | nil => rfl
  | cons c t ih =>
    rw [List.mem_cons] at h
    push_neg at h
    unfold splitOnC
    rw [if_neg (fun e => h.1 e.symm), ih h.2]

theorem splitOnC_append_sep (sep : Char) (l₁ l₂ : List Char) (h : sep ∉ l₁) :
    splitOnC sep (l₁ ++ sep :: l₂) = l₁ :: splitOnC sep l₂ := by
  induction l₁ with
  | nil => simp [splitOnC]
  | cons c t ih =>
    rw [List.mem_cons] at h
    push_neg at h
    rw [List.cons_append]
    conv_lhs => rw [splitOnC]
    rw [if_neg (fun e => h.1 e.symm), ih h.2]

theorem splitOnC_joinSep (sep : Char) (ls : List (List Char)) (hne : ls ≠ [])
    (h : ∀ x ∈ ls, sep ∉ x) : splitOnC sep (joinSep sep ls) = ls := by
  induction ls with
  | nil => exact absurd rfl hne
  | cons x t ih =>
    cases t with
    | nil =>
      show splitOnC sep x = [x]
      exact splitOnC_no_sep sep x (h x (by simp))
    | cons y t' =>
      show splitOnC sep (x ++ sep :: joinSep sep (y :: t')) = x :: y :: t'
      rw [splitOnC_append_sep sep x _ (h x (by simp))]
      rw [ih (by simp) (fun z hz => h z (List.mem_cons_of_mem x hz))]

/-! ## Route values

Route values are open JavaScript objects mapping field names to values.
They are modelled as association lists with `Object.assign` ordering, and
the dynamic values adapters produce are modelled by the closed `Value`
type (strings, numbers, booleans, arrays and nested objects — the value
shapes the built-in adapters and combinators of this library produce).

Modelled from the spec: deep equality (`internal/isequal` is not among the
sources) is modelled as structural equality of `Value` trees. -/

inductive Value : Type where
  | vStr : String → Value
  | vInt : Int → Value
  | vBool : Bool → Value
  | vList : List Value → Value
  | vObj : List (String × Value) → Value
deriving Repr

mutual

/-- Structural deep equality on values (models `internal/isequal`). -/
def Value.beq : Value → Value → Bool
  | .vStr a, .vStr b => a == b
  | .vInt a, .vInt b => a == b
  | .vBool a, .vBool b => a == b
  | .vList a, .vList b => Value.beqL a b
  | .vObj a, .vObj b => Value.beqO a b
  | _, _ => false

/-- Deep equality on value arrays. -/
def Value.beqL : List Value → List Value → Bool
  | [], [] => true
  | a :: t, b :: u => Value.beq a b && Value.beqL t u
  | _, _ => false

/-- Deep equality on nested objects (field order sensitive; the engine
always builds nested objects in rule order, so this is the equality the
claims need). -/
def Value.beqO : List (String × Value) → List (String × Value) → Bool
  | [], [] => true
  | (k, a) :: t, (k', b) :: u => k == k' && Value.beq a b && Value.beqO t u
  | _, _ => false

end

instance : BEq Value := ⟨Value.beq⟩

mutual

theorem Value.beq_refl : ∀ (a : Value), Value.beq a a = true
  | .vStr s => by simp [Value.beq]
  | .vInt i => by simp [Value.beq]
  | .vBool b => by simp [Value.beq]
  | .vList l => by simp [Value.beq]; exact Value.beqL_refl l
  | .vObj o => by simp [Value.beq]; exact Value.beqO_refl o

theorem Value.beqL_refl : ∀ (l : List Value), Value.beqL l l = true
  | [] => rfl
  | a :: t => by
    simp only [Value.beqL, Bool.and_eq_true]
    exact ⟨Value.beq_refl a, Value.beqL_refl t⟩

theorem Value.beqO_refl : ∀ (l : List (String × Value)), Value.beqO l l = true
  | [] => rfl
  | (k, a) :: t => by
    simp only [Value.beqO, Bool.and_eq_true]
    exact ⟨⟨by simp, Value.beq_refl a⟩, Value.beqO_refl t⟩

end

mutual

theorem Value.eq_of_beq : ∀ {a b : Value}, Value.beq a b = true → a = b
  | .vStr a, .vStr b, h => by simp [Value.beq] at h; rw [h]
  | .vStr _, .vInt _, h | .vStr _, .vBool _, h | .vStr _, .vList _, h
  | .vStr _, .vObj _, h | .vInt _, .vStr _, h | .vInt _, .vBool _, h
  | .vInt _, .vList _, h | .vInt _, .vObj _, h | .vBool _, .vStr _, h
  | .vBool _, .vInt _, h | .vBool _, .vList _, h | .vBool _, .vObj _, h
  | .vList _, .vStr _, h | .vList _, .vInt _, h | .vList _, .vBool _, h
  | .vList _, .vObj _, h | .vObj _, .vStr _, h | .vObj _, .vInt _, h
  | .vObj _, .vBool _, h | .vObj _, .vList _, h => by simp [Value.beq] at h
  | .vInt a, .vInt b, h => by simp [Value.beq] at h; rw [h]
  | .vBool a, .vBool b, h => by simp [Value.beq] at h; rw [h]
  | .vList a, .vList b, h => by
    simp only [Value.beq] at h
    rw [Value.eqL_of_beq h]
  | .vObj a, .vObj b, h => by
    simp only [Value.beq] at h
    rw [Value.eqO_of_beq h]

theorem Value.eqL_of_beq : ∀ {a b : List Value}, Value.beqL a b = true → a = b
  | [], [], _ => rfl
  | [], _ :: _, h | _ :: _, [], h => by simp [Value.beqL] at h
  | a :: t, b :: u, h => by
    simp only [Value.beqL, Bool.and_eq_true] at h
    rw [Value.eq_of_beq h.1, Value.eqL_of_beq h.2]

theorem Value.eqO_of_beq : ∀ {a b : List (String × Value)}, Value.beqO a b = true → a = b
  | [], [], _ => rfl
  | [], _ :: _, h | _ :: _, [], h => by simp [Value.beqO] at h
  | (k, a) :: t, (k', b) :: u, h => by
    simp only [Value.beqO, Bool.and_eq_true] at h
    obtain ⟨⟨h1, h2⟩, h3⟩ := h
    rw [show k = k' from by simpa using h1, Value.eq_of_beq h2, Value.eqO_of_beq h3]

end

instance : LawfulBEq Value where
  eq_of_beq := Value.eq_of_beq
  rfl := Value.beq_refl _

instance : DecidableEq Value := fun a b =>
  decidable_of_iff (Value.beq a b = true) ⟨Value.eq_of_beq, fun h => h ▸ Value.beq_refl a⟩

/-- A route value: a JavaScript object, field name to value. -/
abbrev RouteValue : Type := List (String × Value)

/-- Order-insensitive object equality at the top level (field sets and
values agree), the relation JavaScript deep-equality induces on route
values whose field insertion orders may differ. -/
def rvEquiv (a b : RouteValue) : Bool :=
  ((a.map Prod.fst) ++ (b.map Prod.fst)).all (fun k => a.lookup k == b.lookup k)

/-! ## Adapters (`src/adapter.ts`, the `CustomAdapter`/`NamedAdapter`/
`DefaultAdapter`/`DimapAdapter` iteration that `src/parser.ts` imports).
The abstract `HasAdapter` wrapper (never instantiated by the library
itself) is omitted. -/

inductive Adapter : Type where
  /-- `CustomAdapter(_apply, _unapply)` -/
  | custom : (String → Option Value) → (Value → String) → Adapter
  /-- `NamedAdapter(_adapter, _name)` -/
  | named : Adapter → String → Adapter
  /-- `DefaultAdapter(_adapter, _default)`, the result of `withDefault` -/
  | dflt : Adapter → Value → Adapter
  /-- `DimapAdapter(_map, _comap, _adapter)` -/
  | dimap : (Value → Value) → (Value → Value) → Adapter → Adapter

namespace Adapter

/-- `AdapterBase.prototype.apply`. -/
def apply : Adapter → String → Option Value
  | custom ap _, s => ap s
  | named a _, s => a.apply s
  | dflt a _, s => a.apply s
  | dimap f _ a, s => (a.apply s).map f

/-- `AdapterBase.prototype.unapply`. -/
def unapply : Adapter → Value → String
  | custom _ un, v => un v
  | named a _, v => a.unapply v
  | dflt a _, v => a.unapply v
  | dimap _ g a, v => a.unapply (g v)

/-- `AdapterBase.prototype.applyOption`. -/
def applyOption : Adapter → Option String → Option Value
  | custom ap _, s => s.bind ap
  | named a _, s => a.applyOption s
  | dflt a d, s => match s with
    | none => some d
    | some _ => a.applyOption s
  | dimap f _ a, s => (a.applyOption s).map f

/-- `AdapterBase.prototype.unapplyOption`. -/
def unapplyOption : Adapter → Value → Option String
  | custom _ un, v => some (un v)
  | named a _, v => a.unapplyOption v
  | dflt a d, v => if v = d then none else a.unapplyOption v
  | dimap _ g a, v => a.unapplyOption (g v)

end Adapter

/-- `getDefaultValue` (`src/parser.ts`). -/
def getDefaultValue : Adapter → Option Value
  | .dflt _ d => some d
  | .custom _ _ => none
  | .named a _ => getDefaultValue a
  | .dimap f _ a => (getDefaultValue a).map f

/-- `getName` (`src/parser.ts`). -/
def getName : Adapter → Option String
  | .dflt a _ => getName a
  | .custom _ _ => none
  | .named _ n => some n
  | .dimap _ _ a => getName a

/-! Built-in adapters (`src/adapter.ts`). Number-valued adapters use
`Int`; `parseIntJS` models JavaScript's `parseInt` on the usual decimal
inputs (an optional sign followed by a maximal run of decimal digits,
`NaN` — modelled as `none` — if that run is empty; the whitespace-trimming
and hexadecimal `0x` forms of `parseInt` are not modelled). -/

/-- Maximal leading run of decimal digits, with its value. -/
def digitsVal : List Char → Option Nat → Nat → Option Nat
  | [], acc, _ => acc
  | c :: t, acc, r =>
    if '0' ≤ c ∧ c ≤ '9' then
      digitsVal t (some (r * 10 + (c.toNat - 48))) (r * 10 + (c.toNat - 48))
    else acc

/-- Models `parseInt(str)` (decimal). -/
def parseIntJS (s : String) : Option Int :=
  match s.toList with
  | '-' :: t => (digitsVal t none 0).map (fun n => -(n : Int))
  | '+' :: t => (digitsVal t none 0).map (fun n => (n : Int))
  | l => (digitsVal l none 0).map (fun n => (n : Int))

/-- `String(n)` for the integers produced by `nat`/`int`. -/
def intToString (i : Int) : String :=
  if i < 0 then "-" ++ (Int.natAbs i).repr else (Int.natAbs i).repr

/-- The `string` adapter: any string, verbatim. -/
def stringAdapter : Adapter :=
  .custom (fun s => some (.vStr s)) (fun v => match v with | .vStr s => s | _ => "")

/-- The `nestring` adapter: non-empty strings. -/
def nestring : Adapter :=
  .custom (fun s => if s ≠ "" then some (.vStr s) else none)
    (fun v => match v with | .vStr s => s | _ => "")

/-- The `nat` adapter: non-negative integers. -/
def natAdapter : Adapter :=
  .custom
    (fun s => match parseIntJS s with
      | some i => if 0 ≤ i then some (.vInt i) else none
      | none => none)
    (fun v => match v with | .vInt i => intToString i | _ => "")

/-- The `int` adapter. -/
def intAdapter : Adapter :=
  .custom
    (fun s => (parseIntJS s).map .vInt)
    (fun v => match v with | .vInt i => intToString i | _ => "")

/-- The `boolean` adapter: a falsy-string check wrapped in
`withDefault(false)`. -/
def booleanAdapter : Adapter :=
  .dflt
    (.custom
      (fun s => if s = "" ∨ s = "false" ∨ s = "0" ∨ s = "off"
        then some (.vBool false) else some (.vBool true))
      (fun v => if v = .vBool true then "true" else "false"))
    (.vBool false)

/-- The `literals(…)` adapter: exact match against a closed string set. -/
def literals (ls : List String) : Adapter :=
  .custom
    (fun s => if s ∈ ls then some (.vStr s) else none)
    (fun v => match v with | .vStr s => s | _ => "")

/-- `printCsv` (`src/adapter.ts`): escape `,` and `\` with a backslash and
join with commas; the one-element list of the empty string prints as the
two-character text `""`. -/
def escCsvChar (c : Char) : List Char :=
  if c = '\\' then ['\\', '\\'] else if c = ',' then ['\\', ','] else [c]

def printCsv (values : List String) : String :=
  if values = [""] then "\"\""
  else String.intercalate "," (values.map (fun s => (s.toList.flatMap escCsvChar).asString))

/-- One step of the `parseCsv` scan (`escape` carries the pending
backslash flag, `cur` the current field, `out` the fields already read). -/
def parseCsvStep : List Char → Bool → List Char → List (List Char) → List (List Char)
  | [], _, cur, out => out ++ [cur]
  | ',' :: t, true, cur, out => parseCsvStep t false (cur ++ [',']) out
  | ',' :: t, false, cur, out => parseCsvStep t false [] (out ++ [cur])
  | '\\' :: t, true, cur, out => parseCsvStep t false (cur ++ ['\\']) out
  | '\\' :: t, false, cur, out => parseCsvStep t true cur out
  | c :: t, esc, cur, out => parseCsvStep t esc (cur ++ [c]) out

/-- `parseCsv` (`src/adapter.ts`). -/
def parseCsv (str : String) : List String :=
  if str = "\"\"" then [""]
  else if str = "" then []
  else (parseCsvStep str.toList false [] []).map List.asString

/-- The `array(adapter)` adapter: comma-separated lists. -/
def arrayAdapter (a : Adapter) : Adapter :=
  .custom
    (fun s => ((parseCsv s).mapM a.apply).map .vList)
    (fun v => match v with
      | .vList xs => printCsv (xs.map a.unapply)
      | _ => printCsv [])

/-! ## The parser type (`src/parser.ts`)

A descriptor is a tree of rules; `Merge` nodes concatenate rule
sequences and `makeIterator` flattens the tree into its left-to-right
leaf sequence.  The `Custom` escape hatch (arbitrary user functions) is
outside every claim and is omitted from the embedding.  The cached
`_prefixTrie` field always equals `buildTrie _tags` (it is computed by
`oneOf` and by the fallback in `doParse`), so the embedding recomputes
it from the tags instead of storing it. -/

inductive Parser : Type where
  /-- `Params(_params)` -/
  | params : List (String × Adapter) → Parser
  /-- `Segment(_key, _adapter)` -/
  | segment : String → Adapter → Parser
  /-- `Path(_segments)` -/
  | path : List String → Parser
  /-- `Embed(_key, _parser)` -/
  | embed : String → Parser → Parser
  /-- `OneOf(_tags)` (the `_prefixTrie` cache is recomputed, see above) -/
  | oneOf : List (String × Parser) → Parser
  /-- `Extra(_payload)` -/
  | extra : RouteValue → Parser
  /-- `Merge(_first, _second)` -/
  | merge : Parser → Parser → Parser

mutual

/-- Structural size of a parser, used as fuel for the engine. -/
def sz : Parser → Nat
  | .params _ => 1
  | .segment _ _ => 1
  | .path _ => 1
  | .extra _ => 1
  | .embed _ p => sz p + 1
  | .oneOf tags => szT tags + 1
  | .merge a b => sz a + sz b + 1

/-- Structural size of a tag map. -/
def szT : List (String × Parser) → Nat
  | [] => 0
  | (_, p) :: t => sz p + szT t + 1

end

/-- Total size of a rule list. -/
def szL : List Parser → Nat
  | [] => 0
  | p :: t => sz p + szL t

/-- `makeIterator`: flatten the `Merge` tree into its left-to-right leaf
sequence. -/
def flatten : Parser → List Parser
  | .merge a b => flatten a ++ flatten b
  | p => [p]

/-! ## The prefix trie (`buildTrie`, `PrefixTrie`) -/

/-- A trie node: the empty-string bucket of anchored rule sequences and
the children keyed by literal path segment. -/
inductive Trie : Type where
  | node : List Parser → List (String × Trie) → Trie

/-- The empty-key bucket of a node. -/
def trieBucket : Trie → List Parser
  | .node b _ => b

/-- The children map of a node. -/
def trieKids : Trie → List (String × Trie)
  | .node _ ch => ch

/-- Insert a parser at the node addressed by the given literal path,
creating intermediate nodes (`iter[s] = iter[s] || { '': [] }`). -/
def trieInsert : Trie → List String → Parser → Trie
  | .node b ch, [], p => .node (b ++ [p]) ch
  | .node b ch, s :: ss, p =>
    .node b (assocSet ch s (trieInsert ((ch.lookup s).getD (.node [] [])) ss p))

/-- The literal segments of the maximal leading run of `Path` rules
(`buildTrie` walks rules and stops at the first non-`Path` rule). -/
def lpGo : List Parser → List String
  | .path ss :: t => ss ++ lpGo t
  | _ => []

/-- Leading literal path of a parser. -/
def leadingPath (p : Parser) : List String := lpGo (flatten p)

/-- `buildTrie`: index every alternative under its leading literal path,
in tag-map order. -/
def buildTrie (tags : List (String × Parser)) : Trie :=
  tags.foldl (fun t e => trieInsert t (leadingPath e.2) e.2) (.node [] [])

mutual

/-- Height of a trie (descent depth bound). -/
def trieHeight : Trie → Nat
  | .node _ ch => trieHeightL ch + 1

/-- Height bound over a children list. -/
def trieHeightL : List (String × Trie) → Nat
  | [] => 0
  | (_, t) :: r => max (trieHeight t) (trieHeightL r)

end

/-- The segment the trie descent looks up at position `idx`:
`segments[idx++]` is `undefined` past the end of the array, and
`hasOwnProperty(undefined)` looks up the property name `"undefined"`. -/
def quirkySeg (segments : List String) (idx : Nat) : String :=
  match segments.get? idx with
  | some s => s
  | none => "undefined"

/-- Trie descent (the `do … while` loop of the `OneOf` case of
`doParse`): follow input segments through the children as far as
possible, recording every visited node root-first.  Structurally
recursive on a fuel bound; `trieHeight` fuel always suffices. -/
def descendF : Nat → Trie → List String → Nat → List Trie
  | 0, t, _, _ => [t]
  | n + 1, t, segments, idx =>
    t :: (match (trieKids t).lookup (quirkySeg segments idx) with
          | some t' => descendF n t' segments (idx + 1)
          | none => [])

/-- The rule sequences the `OneOf` case attempts, deepest visited node
first, each node's bucket in insertion order. -/
def collectParsers (t : Trie) (segments : List String) (idx : Nat) : List Parser :=
  ((descendF (trieHeight t) t segments idx).reverse).flatMap trieBucket

/-! ## Parser state and the matching engine (`doParse`) -/

/-- `ParserState` (`src/parser.ts`): the decoded path segments, the
decoded query dictionary and the cursor index. -/
structure ParserState : Type where
  segments : List String
  params : List (String × String)
  idx : Nat
deriving DecidableEq, Repr

/-- One candidate: accumulated route value and parser state. -/
abbrev Cand : Type := RouteValue × ParserState

/-- Has this candidate consumed every path segment? -/
def fullMatch (c : Cand) : Bool := c.2.idx == c.2.segments.length

/-- The `Params` branch of `parseSingle`: convert every declared query
field, failing the whole rule if any adapter fails. -/
def parseParamsGo (qparams : List (String × String)) :
    List (String × Adapter) → RouteValue → Option RouteValue
  | [], out => some out
  | (key, ad) :: t, out =>
    let paramKey := (getName ad).getD key
    match (ad.applyOption (qparams.lookup paramKey)).or (getDefaultValue ad) with
    | none => none
    | some v => parseParamsGo qparams t (assocSet out key v)

/-- `parseSingle` on a `Params` rule. -/
def parseParamsC (ps : List (String × Adapter)) (c : Cand) : Option Cand :=
  (parseParamsGo c.2.params ps c.1).map (fun out => (out, c.2))

/-- `parseSingle` on a `Segment` rule (the `idx === segments.length`
guard is modelled by the bounds check of `get?`). -/
def parseSegmentC (k : String) (ad : Adapter) (c : Cand) : Option Cand :=
  match c.2.segments.get? c.2.idx with
  | none => none
  | some s =>
    match ad.apply s with
    | none => none
    | some v => some (assocSet c.1 k v, { c.2 with idx := c.2.idx + 1 })

/-- Do the literal segments occur verbatim at the cursor?
(`segments[idx + i] !== parser._segments[i]`; an out-of-range read is
`undefined` and never equals a literal). -/
def segsMatch (segments : List String) (idx : Nat) : List String → Bool
  | [] => true
  | s :: t =>
    match segments.get? idx with
    | some s' => s' == s && segsMatch segments (idx + 1) t
    | none => false

/-- `parseSingle` on a `Path` rule. -/
def parsePathC (ss : List String) (c : Cand) : Option Cand :=
  if segsMatch c.2.segments c.2.idx ss then
    some (c.1, { c.2 with idx := c.2.idx + ss.length })
  else none

/-- The matching engine (`doParse`): thread the candidate list through
the flattened rule sequence.  Deterministic rules filter candidates;
`OneOf` and `Embed` flat-map them.  In first-match mode (`fm`, the
`OnlyFirstMatch` option) a `OneOf` returns only the first discovered
candidate that has consumed every segment.  Structurally recursive on a
fuel bound; `szL rules` fuel always suffices (`doParseF_sat`). -/
def doParseF : Nat → List Parser → List Cand → Bool → List Cand
  | _, [], cands, _ => cands
  | 0, _ :: _, cands, _ => cands
  | n + 1, r :: rest, cands, fm =>
    let cands' :=
      match r with
      | .params ps => cands.filterMap (parseParamsC ps)
      | .segment k ad => cands.filterMap (parseSegmentC k ad)
      | .path ss => cands.filterMap (parsePathC ss)
      | .extra pl => cands.map (fun c => (assocAssign c.1 pl, c.2))
      | .embed k p => cands.flatMap (fun c =>
          (doParseF n (flatten p) [([], c.2)] fm).map
            (fun pr => (assocAssign [(k, Value.vObj pr.1)] c.1, pr.2)))
      | .oneOf tags => cands.flatMap (fun c =>
          let enum := (collectParsers (buildTrie tags) c.2.segments c.2.idx).flatMap
            (fun q => doParseF n (flatten q) [([], c.2)] fm)
          if fm then
            match enum.find? fullMatch with
            | some pr => [(assocAssign pr.1 c.1, pr.2)]
            | none => []
          else enum.map (fun pr => (assocAssign pr.1 c.1, pr.2)))
      | .merge _ _ => cands
    doParseF n rest cands' fm

/-- `doParse` over a rule list, at its canonical fuel. -/
def doParseRules (rules : List Parser) (cands : List Cand) (fm : Bool) : List Cand :=
  doParseF (szL rules) rules cands fm

/-- `doParse` on a parser: flatten and thread the initial candidate. -/
def doParseP (p : Parser) (st : ParserState) (fm : Bool) : List Cand :=
  doParseRules (flatten p) [([], st)] fm

/-! ## The printer (`doPrint`)

Printing walks the tree, producing path segments and query pairs.  When
the input route value misses a field the printer needs (a missing `tag`
on a `OneOf`, a missing segment field without default, a missing
non-defaulted query field), the JavaScript code dereferences `undefined`
(a `TypeError` or an `"undefined"`-coercion); the model returns `none`
on those degenerate inputs, which no claim exercises. -/

/-- Deconstructed url: path segments and query dictionary. -/
abbrev UrlChunks : Type := List String × List (String × String)

/-- The `Params` branch of `doPrint`: a field equal to its registered
default (or absent, with a default registered) is skipped; otherwise the
field is serialized under its effective query-key name when
`unapplyOption` succeeds. -/
def printParamsGo (route : RouteValue) :
    List (String × Adapter) → List (String × String) → Option (List (String × String))
  | [], acc => some acc
  | (key, ad) :: t, acc =>
    let skip :=
      match getDefaultValue ad with
      | some d =>
        match route.lookup key with
        | none => true
        | some v => Value.beq v d
      | none => false
    if skip then printParamsGo route t acc
    else
      match route.lookup key with
      | none => none
      | some v =>
        match ad.unapplyOption v with
        | some s => printParamsGo route t (assocSet acc ((getName ad).getD key) s)
        | none => printParamsGo route t acc

/-- The printer (`doPrint`), structurally recursive on a fuel bound;
`sz p` fuel always suffices (`doPrintF_sat`). -/
def doPrintF : Nat → Parser → RouteValue → Option UrlChunks
  | 0, _, _ => none
  | n + 1, p, route =>
    match p with
    | .params ps => (printParamsGo route ps []).map (fun qs => ([], qs))
    | .segment k ad =>
      match route.lookup k with
      | some v => some ([ad.unapply v], [])
      | none =>
        match getDefaultValue ad with
        | some d => some ([ad.unapply d], [])
        | none => none
    | .path ss => some (ss, [])
    | .oneOf tags =>
      match route.lookup "tag" with
      | some (.vStr t) =>
        match tags.lookup t with
        | some p' => doPrintF n p' route
        | none => none
      | _ => none
    | .extra _ => some ([], [])
    | .embed k p' =>
      match route.lookup k with
      | some (.vObj r) => doPrintF n p' r
      | _ => none
    | .merge a b =>
      match doPrintF n a route, doPrintF n b route with
      | some (s1, q1), some (s2, q2) => some (s1 ++ s2, assocAssign q1 q2)
      | _, _ => none

/-- `doPrint` at its canonical fuel. -/
def doPrintP (p : Parser) (route : RouteValue) : Option UrlChunks :=
  doPrintF (sz p) p route

/-! ## `prepareOneOf` (`src/internal/prepare-oneof.ts`): hoist the
leading literal `Path` rules of an alternative to the front of its rule
sequence (up to the first `Segment`), so that `buildTrie` sees them. -/

/-- Intermediate result of the `prepareOneOf` traversal. -/
structure PORes : Type where
  paths : List Parser
  rest : Option Parser
  done : Bool

/-- Combine the non-path remainders of the two sides of a `Merge`. -/
def combineRest : Option Parser → Option Parser → Option Parser
  | some a, some b => some (.merge a b)
  | some a, none => some a
  | none, some b => some b
  | none, none => none

/-- `parsers.reduce((acc, x) => new Merge(acc, x))` (the empty case never
arises: callers guard on a non-empty list). -/
def fromArray : List Parser → Parser
  | [] => .path []
  | p :: t => t.foldl (fun acc x => .merge acc x) p

/-- Reassemble a traversal result into a parser. -/
def joinResult (r : PORes) : Parser :=
  match r.paths, r.rest with
  | [], none => .path []
  | [], some rest => rest
  | p :: t, none => fromArray (p :: t)
  | p :: t, some rest => .merge (fromArray (p :: t)) rest

/-- The `go` traversal of `prepareOneOf`. -/
def prepareGo : Parser → PORes
  | .path ss => ⟨[.path ss], none, false⟩
  | .segment k a => ⟨[], some (.segment k a), true⟩
  | .merge a b =>
    let f := prepareGo a
    if f.done then ⟨[], some (.merge (joinResult f) b), true⟩
    else
      let s := prepareGo b
      ⟨f.paths ++ s.paths, combineRest f.rest s.rest, f.done || s.done⟩
  | p => ⟨[], some p, false⟩

/-- `prepareOneOf`. -/
def prepareOneOf (p : Parser) : Parser := joinResult (prepareGo p)

/-! ## `oneOf`, url state and the public operations -/

/-- Does this rule carry a string-valued `tag` field? -/
def extraTag : Parser → Option String
  | .extra pl =>
    match pl.lookup "tag" with
    | some (.vStr t) => some t
    | _ => none
  | _ => none

/-- `lookupTag` inside `oneOf`: first `Extra` rule with a string `tag`. -/
def lookupTag (p : Parser) : Option String := (flatten p).findSome? extraTag

/-- `oneOf`: build the tag map (later same-tag arguments overwrite
earlier ones, since the map is keyed by tag) after `prepareOneOf`-ing
each argument; throw (`Except.error`) on an argument without a tag. -/
def oneOfE (args : List Parser) : Except String Parser :=
  (args.foldlM (fun acc p =>
    match lookupTag p with
    | some t => Except.ok (assocSet acc t (prepareOneOf p))
    | none => Except.error "oneOf: an argument was not provided with a tag") [])
  |>.map Parser.oneOf

/-- Percent-decode, `URIError` as `Except.error`. -/
def decodeE (l : List Char) : Except Unit String :=
  match percDecode l with
  | some cs => .ok cs.asString
  | none => .error ()

/-- `prepareState`: split the url on the first `?`, the path on `/`
(dropping empty segments) and the query on `&`; split each pair on `=`
and percent-decode every piece, a missing `=` giving the empty-string
value.  `Except.error` models an uncaught `URIError` from
`decodeURIComponent`. -/
def prepareStateE (url : String) : Except Unit ParserState := do
  let parts := splitOnC '?' url.toList
  let path := parts.headD []
  let query := (parts.get? 1).getD []
  let segs ← ((splitOnC '/' path).filter (· ≠ [])).mapM decodeE
  let pairs := (splitOnC '&' query).filter (· ≠ [])
  let params ← pairs.foldlM (fun acc pair => do
    let pieces ← (splitOnC '=' pair).mapM decodeE
    pure (assocSet acc (pieces.headD "") ((pieces.get? 1).getD ""))) []
  pure ⟨segs, params, 0⟩

/-- One encoded `key=value` (or bare `key` when the value is empty)
query pair. -/
def pairChunk (kv : String × String) : List Char :=
  encL kv.1.toList ++ (if kv.2 ≠ "" then '=' :: encL kv.2.toList else [])

/-- `assembleChunks`: encode and join the path segments with `/`, the
query pairs with `&`, and join the parts with `?` when a query exists. -/
def assembleChunks (ch : UrlChunks) : String :=
  let query := joinSep '&' (ch.2.map pairChunk)
  let path := joinSep '/' (ch.1.map (fun s => encL s.toList))
  (path ++ (if query ≠ [] then '?' :: query else [])).asString

/-- `ParserBase.prototype.parse`: first result of first-match parsing,
or `null` (`none`); a thrown `URIError` is `Except.error`. -/
def parseM (p : Parser) (url : String) : Except Unit (Option RouteValue) :=
  (prepareStateE url).map (fun st => ((doParseP p st true).head?).map (·.1))

/-- Stable insertion into a list sorted by descending cursor index
(ties keep earlier elements first). -/
def insDesc (c : Cand) : List Cand → List Cand
  | [] => [c]
  | d :: t => if d.2.idx < c.2.idx then c :: d :: t else d :: insDesc c t

/-- Stable sort by descending cursor index (models the stable
`Array.prototype.sort` with comparator `b.idx - a.idx`). -/
def sortDesc (l : List Cand) : List Cand := l.foldl (fun acc c => insDesc c acc) []

/-- The `parseAll` output loop: drop a candidate whose consumption depth
equals the previously kept one (`idx` starts at `-1`, modelled `none`). -/
def dedupeGo : List Cand → Option Nat → List RouteValue
  | [], _ => []
  | (r, s) :: t, last =>
    if last = some s.idx then dedupeGo t last
    else r :: dedupeGo t (some s.idx)

/-- `ParserBase.prototype.parseAll`. -/
def parseAllM (p : Parser) (url : String) : Except Unit (List RouteValue) :=
  (prepareStateE url).map (fun st => dedupeGo (sortDesc (doParseP p st false)) none)

/-- `ParserBase.prototype.print`. -/
def printM (p : Parser) (route : RouteValue) : Option String :=
  (doPrintP p route).map assembleChunks

/-! ## Combinators (`tag`, `path`, `segment`, `params`, `extra`, `embed`
and the chainable `ParserBase` methods, each `Merge`-ing a new rule). -/

/-- `tag(name)`. -/
def tagP (t : String) : Parser := .extra [("tag", .vStr t)]

/-- `path(str)`: split on `/` and drop empty segments. -/
def pathP (s : String) : Parser :=
  .path (((splitOnC '/' s.toList).filter (· ≠ [])).map List.asString)

/-- `ParserBase.prototype.path`. -/
def ParserBase.path (self : Parser) (s : String) : Parser := .merge self (pathP s)

/-- `ParserBase.prototype.segment`. -/
def ParserBase.segment (self : Parser) (k : String) (ad : Adapter) : Parser :=
  .merge self (.segment k ad)

/-- `ParserBase.prototype.params`. -/
def ParserBase.params (self : Parser) (ps : List (String × Adapter)) : Parser :=
  .merge self (.params ps)

/-- `ParserBase.prototype.extra`. -/
def ParserBase.extra (self : Parser) (pl : RouteValue) : Parser :=
  .merge self (.extra pl)

/-- `ParserBase.prototype.embed`. -/
def ParserBase.embed (self : Parser) (k : String) (that : Parser) : Parser :=
  .merge self (.embed k that)

/-- `ParserBase.prototype.merge`. -/
def ParserBase.merge (self that : Parser) : Parser := .merge self that

/-! ## Derived notions used by the claims -/

/-- Is every rule of the subtree deterministic?  The deterministic
rules (`SingleParser`: `Params`, `Segment`, `Path`, `Extra`) are
one-result filters over the candidate list; an `Embed` of a
deterministic subtree is itself deterministic (its nested parse returns
exactly one candidate), while `OneOf` is not. -/
def detTree : Parser → Bool
  | .merge a b => detTree a && detTree b
  | .params _ => true
  | .segment _ _ => true
  | .path _ => true
  | .extra _ => true
  | .embed _ p => detTree p
  | _ => false

/-- Is this one rule (an element of a flattened rule list, so never a
`Merge`) deterministic? -/
def detRule : Parser → Bool
  | .params _ => true
  | .segment _ _ => true
  | .path _ => true
  | .extra _ => true
  | .embed _ p => detTree p
  | _ => false

/-- Is every rule of the list deterministic? -/
def detOnly (rules : List Parser) : Bool := rules.all detRule

/-- Does every alternative of a tag map flatten to deterministic rules
only? -/
def flatAlts (tags : List (String × Parser)) : Bool :=
  tags.all (fun e => detOnly (flatten e.2))

/-- The candidate enumeration of the `OneOf` case of `doParse`: attempt
the rule sequences collected from the trie, deepest visited node first. -/
def oneOfEnum (tags : List (String × Parser)) (st : ParserState) (fm : Bool) : List Cand :=
  (collectParsers (buildTrie tags) st.segments st.idx).flatMap (fun q => doParseP q st fm)

/-- Trie-directed candidate enumeration in collect-all mode. -/
def oneOfCandidates (tags : List (String × Parser)) (st : ParserState) : List Cand :=
  oneOfEnum tags st false

/-- The spec's linear reference semantics for a `OneOf` group: attempt
every tagged alternative in tag-map order (also the behaviour of
`doParse` when a `OneOf` node carries no `_prefixTrie`: the fallback is
the single-bucket trie holding every alternative). -/
def oneOfLinearCands (tags : List (String × Parser)) (st : ParserState) : List Cand :=
  tags.flatMap (fun e => doParseP e.2 st false)

/-- The effect of one rule on the candidate list, with every nested
parse at its canonical fuel (`doParseRules_cons` shows the engine steps
through rules by `ruleStep`). -/
def ruleStep (r : Parser) (cands : List Cand) (fm : Bool) : List Cand :=
  match r with
  | .params ps => cands.filterMap (parseParamsC ps)
  | .segment k ad => cands.filterMap (parseSegmentC k ad)
  | .path ss => cands.filterMap (parsePathC ss)
  | .extra pl => cands.map (fun c => (assocAssign c.1 pl, c.2))
  | .embed k p => cands.flatMap (fun c =>
      (doParseP p c.2 fm).map
        (fun pr => (assocAssign [(k, Value.vObj pr.1)] c.1, pr.2)))
  | .oneOf tags => cands.flatMap (fun c =>
      let enum := oneOfEnum tags c.2 fm
      if fm then
        match enum.find? fullMatch with
        | some pr => [(assocAssign pr.1 c.1, pr.2)]
        | none => []
      else enum.map (fun pr => (assocAssign pr.1 c.1, pr.2)))
  | .merge _ _ => cands

mutual

/-- Every parser stored anywhere in a trie (bucket contents, all
nodes). -/
def trieAll : Trie → List Parser
  | .node b ch => b ++ trieAllL ch

/-- Parsers stored under a children list. -/
def trieAllL : List (String × Trie) → List Parser
  | [] => []
  | (_, t) :: r => trieAll t ++ trieAllL r

end

/-- Does the literal `s` occur at index `i` of the segment array?
(an out-of-range read is `undefined` and never equals a string). -/
def matchAt (segments : List String) (i : Nat) (s : String) : Bool :=
  segments.get? i == some s

mutual

/-- The trie invariant `buildTrie` establishes: every parser in the
bucket of the node at path `pre` has `leadingPath` exactly `pre`, and
children keys are distinct. -/
def TrieOk : Trie → List String → Prop
  | .node b ch, pre =>
    (∀ p ∈ b, leadingPath p = pre) ∧
    (ch.map Prod.fst).Nodup ∧
    TrieOkL ch pre

/-- The invariant over a children list. -/
def TrieOkL : List (String × Trie) → List String → Prop
  | [], _ => True
  | (s, t) :: r, pre => TrieOk t (pre ++ [s]) ∧ TrieOkL r pre

end

/-! Definitions for the round-trip analysis (claim C1). -/

/-- Tree-level printer over a deterministic subtree, concatenating path
segments and query pairs (`Merge` nodes concatenate, an `Embed` prints
the nested descriptor against the nested object). -/
def printTree : RouteValue → Parser → Option UrlChunks
  | v, .merge a b =>
    (match printTree v a, printTree v b with
      | some (sa, qa), some (sb, qb) => some (sa ++ sb, qa ++ qb)
      | _, _ => none)
  | v, .params ps => (printParamsGo v ps []).map (fun qs => ([], qs))
  | v, .segment k ad =>
    (match v.lookup k with
      | some x => some ([ad.unapply x], [])
      | none =>
        match getDefaultValue ad with
        | some d => some ([ad.unapply d], [])
        | none => none)
  | _, .path ss => some (ss, [])
  | _, .extra _ => some ([], [])
  | v, .embed k p' =>
    (match v.lookup k with
      | some (.vObj r) => printTree r p'
      | _ => none)
  | _, _ => none

/-- Print of a single deterministic rule (list-level printer). -/
def printRule (v : RouteValue) : Parser → Option UrlChunks
  | .params ps => (printParamsGo v ps []).map (fun qs => ([], qs))
  | .segment k ad =>
    match v.lookup k with
    | some x => some ([ad.unapply x], [])
    | none =>
      match getDefaultValue ad with
      | some d => some ([ad.unapply d], [])
      | none => none
  | .path ss => some (ss, [])
  | .extra _ => some ([], [])
  | .embed k p' =>
    match v.lookup k with
    | some (.vObj r) => printTree r p'
    | _ => none
  | _ => none

/-- List-level printer over a flat rule sequence, concatenating path
segments and query pairs (equal to the engine's `doPrint` when the
printed query keys are distinct, see `doPrintP_eq_doPrintL`). -/
def doPrintL (v : RouteValue) : List Parser → Option UrlChunks
  | [] => some ([], [])
  | r :: t =>
    match printRule v r, doPrintL v t with
    | some (s1, q1), some (s2, q2) => some (s1 ++ s2, q1 ++ q2)
    | _, _ => none

/-- Per-field round-trip condition for a `Params` entry, against the
query dictionary `qm` of the printed url: an absent or default-valued
field is absent from `qm` and re-parses to the default; any other field
is printed by `unapplyOption` into `qm` and `applyOption` recovers it. -/
def paramOk (qm : List (String × String)) (v : RouteValue) (key : String)
    (ad : Adapter) : Bool :=
  let pk := (getName ad).getD key
  match v.lookup key, getDefaultValue ad with
  | none, some d => qm.lookup pk == none && ad.applyOption none == some d
  | none, none => false
  | some x, some d =>
    if Value.beq x d then qm.lookup pk == none && ad.applyOption none == some x
    else
      match ad.unapplyOption x with
      | some u => qm.lookup pk == some u && ad.applyOption (some u) == some x
      | none => false
  | some x, none =>
    match ad.unapplyOption x with
    | some u => qm.lookup pk == some u && ad.applyOption (some u) == some x
    | none => false

/-- Round-trip conditions for a whole deterministic subtree (the
`Embed` case recurses into the nested descriptor against the nested
object). -/
def rulesOkT (qm : List (String × String)) : RouteValue → Parser → Bool
  | r, .merge a b => rulesOkT qm r a && rulesOkT qm r b
  | _, .path _ => true
  | _, .extra _ => true
  | r, .segment k ad =>
    (match r.lookup k with
      | some x => ad.apply (ad.unapply x) == some x
      | none => false)
  | r, .params ps => ps.all (fun kv => paramOk qm r kv.1 kv.2)
  | r, .embed k p' =>
    (match r.lookup k with
      | some (.vObj r') => rulesOkT qm r' p'
      | _ => false)
  | _, _ => false

/-- Per-rule round-trip condition (deterministic rules only). -/
def ruleOk (qm : List (String × String)) (v : RouteValue) : Parser → Bool
  | .path _ => true
  | .extra _ => true
  | .segment k ad =>
    match v.lookup k with
    | some x => ad.apply (ad.unapply x) == some x
    | none => false
  | .params ps => ps.all (fun kv => paramOk qm v kv.1 kv.2)
  | .embed k p' =>
    match v.lookup k with
    | some (.vObj r) => rulesOkT qm r p'
    | _ => false
  | _ => false

/-- Round-trip conditions for a whole rule sequence. -/
def rulesOk (qm : List (String × String)) (v : RouteValue) (rules : List Parser) : Bool :=
  rules.all (ruleOk qm v)

/-- What parsing the printed url accumulates for one `Params` rule. -/
def paramsExtend (ps : List (String × Adapter)) (v : RouteValue)
    (acc : RouteValue) : RouteValue :=
  ps.foldl (fun acc kv =>
    match v.lookup kv.1, getDefaultValue kv.2 with
    | some x, _ => assocSet acc kv.1 x
    | none, some d => assocSet acc kv.1 d
    | none, none => acc) acc

/-- The route value parsing the printed url accumulates, over a whole
deterministic subtree; an `Embed` wraps the value its nested rules
accumulate from an empty object and writes the accumulated-so-far
fields over the fresh `{key: nested}` object
(`Object.assign({ [key]: output }, prevOutput)`). -/
def extendTree : Parser → RouteValue → RouteValue → RouteValue
  | .merge a b, r, acc => extendTree b r (extendTree a r acc)
  | .extra pl, _, acc => assocAssign acc pl
  | .segment k _, r, acc =>
    (match r.lookup k with
      | some x => assocSet acc k x
      | none => acc)
  | .params ps, r, acc => paramsExtend ps r acc
  | .embed k p', r, acc =>
    (match r.lookup k with
      | some (.vObj r') => assocAssign [(k, Value.vObj (extendTree p' r' []))] acc
      | _ => acc)
  | _, _, acc => acc

/-- What parsing one rule adds to the accumulated route value. -/
def extendRule : Parser → RouteValue → RouteValue → RouteValue
  | .extra pl, _, acc => assocAssign acc pl
  | .segment k _, v, acc =>
    (match v.lookup k with
      | some x => assocSet acc k x
      | none => acc)
  | .params ps, v, acc => paramsExtend ps v acc
  | .embed k p', v, acc =>
    (match v.lookup k with
      | some (.vObj r) => assocAssign [(k, Value.vObj (extendTree p' r []))] acc
      | _ => acc)
  | _, _, acc => acc

/-- The route value parsing the printed url accumulates, rule by rule. -/
def extendAcc : List Parser → RouteValue → RouteValue → RouteValue
  | [], _, acc => acc
  | r :: t, v, acc => extendAcc t v (extendRule r v acc)

/-- The claim's words: `v` extended with the default values of the
defaulted `Params` fields it omits. -/
def withDefaults (rules : List Parser) (v : RouteValue) : RouteValue :=
  rules.foldl (fun acc r =>
    match r with
    | .params ps =>
      ps.foldl (fun acc kv =>
        match acc.lookup kv.1, getDefaultValue kv.2 with
        | none, some d => acc ++ [(kv.1, d)]
        | _, _ => acc) acc
    | _ => acc) v

/-! Concrete descriptors the claims evaluate. -/

/-- The breadcrumb descriptor of the spec and the `life-taxonomy`
example: `oneOf(tag('Home').path('/'), tag('Shop').path('/shop'),
tag('Item').path('/shop/item').segment('id', nestring))`. -/
def claim3args : List Parser :=
  [ParserBase.path (tagP "Home") "/",
   ParserBase.path (tagP "Shop") "/shop",
   ParserBase.segment (ParserBase.path (tagP "Item") "/shop/item") "id" nestring]

/-- The parser `oneOf` builds from `claim3args`. -/
def D3 : Parser := (oneOfE claim3args).toOption.getD (.path [])

/-- `tag('A').path('y').params({q: literals('1')})`. -/
def DA : Parser :=
  ParserBase.params (ParserBase.path (tagP "A") "y") [("q", literals ["1"])]

/-- `tag('B').path('y').params({q: nat})`. -/
def DB : Parser :=
  ParserBase.params (ParserBase.path (tagP "B") "y") [("q", natAdapter)]

/-- `oneOf(DA, DB)`: two overlapping alternatives distinguished only by
the `q` query parameter. -/
def D1 : Parser := (oneOfE [DA, DB]).toOption.getD (.path [])

/-- `path('/x').params({flag: boolean})`. -/
def P6 : Parser := ParserBase.params (pathP "/x") [("flag", booleanAdapter)]

/-- The end-to-end example of the spec:
`tag('Category').path('/category').segment('slug', nestring).params({page: nat.withDefault(1)})`. -/
def DCategory : Parser :=
  ParserBase.params
    (ParserBase.segment (ParserBase.path (tagP "Category") "/category") "slug" nestring)
    [("page", Adapter.dflt natAdapter (.vInt 1))]

/-- `tag('Shop').path('/shop')`. -/
def DShop : Parser := ParserBase.path (tagP "Shop") "/shop"

/-- `oneOf(Shop, Category)`. -/
def D8 : Parser := (oneOfE [DShop, DCategory]).toOption.getD (.path [])

/-- `tag('User').path('/user').embed('address', path('a').segment('city',
nestring))`: a deterministic descriptor with an embedded deterministic
sub-descriptor. -/
def DUser : Parser :=
  ParserBase.embed (ParserBase.path (tagP "User") "/user") "address"
    (ParserBase.segment (pathP "a") "city" nestring)

/-! ## Engine lemmas: fuel saturation and single-rule stepping -/

theorem lookup_mem {α β : Type} [BEq α] [LawfulBEq α] {l : List (α × β)} {k : α} {v : β}
    (h : l.lookup k = some v) : (k, v) ∈ l := by
  induction l with
  | nil => simp [List.lookup] at h
  | cons hd t ih =>
    obtain ⟨k', v'⟩ := hd
    rw [List.lookup] at h
    by_cases hk : k == k'
    · rw [hk] at h
      simp only [Option.some.injEq] at h
      have : k = k' := by simpa using hk
      subst this
      subst h
      exact List.mem_cons_self _ _
    · rw [Bool.not_eq_true] at hk
      rw [hk] at h
      exact List.mem_cons_of_mem _ (ih h)

theorem sz_pos (p : Parser) : 1 ≤ sz p := by
  cases p <;> simp [sz]

theorem szL_append (l₁ l₂ : List Parser) : szL (l₁ ++ l₂) = szL l₁ + szL l₂ := by
  induction l₁ with
  | nil => simp [szL]
  | cons p t ih => simp [szL, ih]; omega

theorem szL_flatten_le : ∀ (p : Parser), szL (flatten p) ≤ sz p
  | .merge a b => by
    rw [flatten, szL_append]
    have iha := szL_flatten_le a
    have ihb := szL_flatten_le b
    simp only [sz]
    omega
  | .params ps => by simp [flatten, szL]
  | .segment k ad => by simp [flatten, szL]
  | .path ss => by simp [flatten, szL]
  | .extra pl => by simp [flatten, szL]
  | .embed k q => by simp [flatten, szL]
  | .oneOf tags => by simp [flatten, szL]

theorem sz_mem_tags {tags : List (String × Parser)} {p : Parser}
    (h : p ∈ tags.map Prod.snd) : sz p ≤ szT tags := by
  induction tags with
  | nil => simp at h
  | cons e t ih =>
    rw [List.map_cons, List.mem_cons] at h
    rw [szT]
    rcases h with rfl | h
    · omega
    · have := ih h
      omega

theorem trieAllL_of_mem {ch : List (String × Trie)} {s : String} {t' : Trie}
    (h : (s, t') ∈ ch) : ∀ p ∈ trieAll t', p ∈ trieAllL ch := by
  induction ch with
  | nil => simp at h
  | cons e r ih =>
    intro p hp
    rw [List.mem_cons] at h
    rw [trieAllL.eq_def]
    obtain ⟨s', tt⟩ := e
    rw [List.mem_append]
    rcases h with he | h
    · rw [Prod.mk.injEq] at he
      exact Or.inl (he.2 ▸ hp)
    · exact Or.inr (ih h p hp)

theorem bucket_sub_trieAll (t : Trie) : ∀ p ∈ trieBucket t, p ∈ trieAll t := by
  cases t with
  | node b ch =>
    intro p hp
    rw [trieAll, List.mem_append]
    exact Or.inl hp

theorem mem_descend_bucket :
    ∀ (n : Nat) (t t' : Trie) (segs : List String) (i : Nat),
    t' ∈ descendF n t segs i → ∀ p ∈ trieBucket t', p ∈ trieAll t := by
  intro n
  induction n with
  | zero =>
    intro t t' segs i h
    rw [descendF, List.mem_singleton] at h
    rw [h]
    exact bucket_sub_trieAll t
  | succ m ih =>
    intro t t' segs i h
    rw [descendF, List.mem_cons] at h
    rcases h with rfl | h
    · exact bucket_sub_trieAll t'
    · obtain ⟨b, ch⟩ := t
      revert h
      cases hl : (trieKids (.node b ch)).lookup (quirkySeg segs i) with
      | none => intro h; simp at h
      | some t'' =>
        intro h p hp
        have h1 := ih t'' t' segs (i + 1) h p hp
        have h2 : (quirkySeg segs i, t'') ∈ ch := lookup_mem (by rwa [trieKids] at hl)
        rw [trieAll, List.mem_append]
        exact Or.inr (trieAllL_of_mem h2 p h1)

theorem mem_collect_trieAll {t : Trie} {segs : List String} {i : Nat} {p : Parser}
    (h : p ∈ collectParsers t segs i) : p ∈ trieAll t := by
  rw [collectParsers, List.mem_flatMap] at h
  obtain ⟨t', ht', hp⟩ := h
  rw [List.mem_reverse] at ht'
  exact mem_descend_bucket (trieHeight t) t t' segs i ht' p hp

theorem trieAllL_assocSet {ch : List (String × Trie)} {s : String} {t' : Trie} :
    ∀ x ∈ trieAllL (assocSet ch s t'), x ∈ trieAllL ch ∨ x ∈ trieAll t' := by
  induction ch with
  | nil =>
    intro x hx
    rw [assocSet] at hx
    rw [trieAllL, trieAllL, List.append_nil] at hx
    exact Or.inr hx
  | cons e r ih =>
    obtain ⟨s₀, t₀⟩ := e
    intro x hx
    by_cases hs : s₀ = s
    · rw [assocSet, if_pos (by simpa using hs)] at hx
      rw [trieAllL, List.mem_append] at hx
      rcases hx with hx | hx
      · exact Or.inr hx
      · exact Or.inl (by rw [trieAllL, List.mem_append]; exact Or.inr hx)
    · rw [assocSet, if_neg (by simpa using hs)] at hx
      rw [trieAllL, List.mem_append] at hx
      rcases hx with hx | hx
      · exact Or.inl (by rw [trieAllL, List.mem_append]; exact Or.inl hx)
      · rcases ih x hx with h | h
        · exact Or.inl (by rw [trieAllL, List.mem_append]; exact Or.inr h)
        · exact Or.inr h

theorem trieAll_lookup_getD {ch : List (String × Trie)} {s : String} {x : Parser}
    (h : x ∈ trieAll ((ch.lookup s).getD (.node [] []))) : x ∈ trieAllL ch := by
  cases hl : ch.lookup s with
  | none =>
    rw [hl] at h
    rw [Option.getD, trieAll, trieAllL] at h
    simp at h
  | some t₀ =>
    rw [hl] at h
    exact trieAllL_of_mem (lookup_mem hl) x (by simpa using h)

theorem trieAll_insert_sub {q : List String} {x p : Parser} :
    ∀ {t : Trie}, x ∈ trieAll (trieInsert t q p) → x ∈ trieAll t ∨ x = p := by
  induction q with
  | nil =>
    intro t h
    obtain ⟨b, ch⟩ := t
    rw [trieInsert, trieAll, List.mem_append, List.mem_append] at h
    rcases h with h | h
    · rcases h with h | h
      · exact Or.inl (by rw [trieAll, List.mem_append]; exact Or.inl h)
      · rw [List.mem_singleton] at h
        exact Or.inr h
    · exact Or.inl (by rw [trieAll, List.mem_append]; exact Or.inr h)
  | cons s ss ih =>
    intro t h
    obtain ⟨b, ch⟩ := t
    rw [trieInsert, trieAll, List.mem_append] at h
    rcases h with h | h
    · exact Or.inl (by rw [trieAll, List.mem_append]; exact Or.inl h)
    · rcases trieAllL_assocSet x h with h | h
      · exact Or.inl (by rw [trieAll, List.mem_append]; exact Or.inr h)
      · rcases ih h with h | h
        · exact Or.inl (by
            rw [trieAll, List.mem_append]
            exact Or.inr (trieAll_lookup_getD h))
        · exact Or.inr h

theorem trieAll_buildTrie_sub {tags : List (String × Parser)} {x : Parser}
    (h : x ∈ trieAll (buildTrie tags)) : x ∈ tags.map Prod.snd := by
  rw [buildTrie] at h
  suffices key : ∀ (acc : Trie), x ∈ trieAll (tags.foldl
      (fun t e => trieInsert t (leadingPath e.2) e.2) acc) →
      x ∈ trieAll acc ∨ x ∈ tags.map Prod.snd by
    rcases key (.node [] []) h with h | h
    · rw [trieAll, trieAllL.eq_def] at h
      simp at h
    · exact h
  clear h
  induction tags with
  | nil =>
    intro acc h
    exact Or.inl h
  | cons e t ih =>
    intro acc h
    rw [List.foldl_cons] at h
    rcases ih _ h with h | h
    · rcases trieAll_insert_sub h with h | h
      · exact Or.inl h
      · exact Or.inr (by simp [h])
    · exact Or.inr (by rw [List.map_cons]; exact List.mem_cons_of_mem _ h)

theorem mem_collect_tags {tags : List (String × Parser)} {segs : List String}
    {i : Nat} {q : Parser} (h : q ∈ collectParsers (buildTrie tags) segs i) :
    q ∈ tags.map Prod.snd :=
  trieAll_buildTrie_sub (mem_collect_trieAll h)

theorem flatMap_congr {α β : Type} {l : List α} {f g : α → List β}
    (h : ∀ x ∈ l, f x = g x) : l.flatMap f = l.flatMap g := by
  induction l with
  | nil => rfl
  | cons a t ih =>
    rw [List.flatMap_cons, List.flatMap_cons, h a (by simp),
      ih (fun x hx => h x (List.mem_cons_of_mem a hx))]

theorem doParseF_succ_params (m : Nat) (ps : List (String × Adapter))
    (rest : List Parser) (cands : List Cand) (fm : Bool) :
    doParseF (m + 1) (.params ps :: rest) cands fm =
      doParseF m rest (cands.filterMap (parseParamsC ps)) fm := rfl

theorem doParseF_succ_segment (m : Nat) (k : String) (ad : Adapter)
    (rest : List Parser) (cands : List Cand) (fm : Bool) :
    doParseF (m + 1) (.segment k ad :: rest) cands fm =
      doParseF m rest (cands.filterMap (parseSegmentC k ad)) fm := rfl

theorem doParseF_succ_path (m : Nat) (ss : List String)
    (rest : List Parser) (cands : List Cand) (fm : Bool) :
    doParseF (m + 1) (.path ss :: rest) cands fm =
      doParseF m rest (cands.filterMap (parsePathC ss)) fm := rfl

theorem doParseF_succ_extra (m : Nat) (pl : RouteValue)
    (rest : List Parser) (cands : List Cand) (fm : Bool) :
    doParseF (m + 1) (.extra pl :: rest) cands fm =
      doParseF m rest (cands.map (fun c => (assocAssign c.1 pl, c.2))) fm := rfl

theorem doParseF_succ_merge (m : Nat) (a b : Parser)
    (rest : List Parser) (cands : List Cand) (fm : Bool) :
    doParseF (m + 1) (.merge a b :: rest) cands fm =
      doParseF m rest cands fm := rfl

theorem doParseF_succ_embed (m : Nat) (k : String) (p : Parser)
    (rest : List Parser) (cands : List Cand) (fm : Bool) :
    doParseF (m + 1) (.embed k p :: rest) cands fm =
      doParseF m rest (cands.flatMap (fun c =>
        (doParseF m (flatten p) [([], c.2)] fm).map
          (fun pr => (assocAssign [(k, Value.vObj pr.1)] c.1, pr.2)))) fm := rfl

theorem doParseF_succ_oneOf (m : Nat) (tags : List (String × Parser))
    (rest : List Parser) (cands : List Cand) (fm : Bool) :
    doParseF (m + 1) (.oneOf tags :: rest) cands fm =
      doParseF m rest (cands.flatMap (fun c : Cand =>
        let enum := (collectParsers (buildTrie tags) c.2.segments c.2.idx).flatMap
          (fun q => doParseF m (flatten q) [([], c.2)] fm)
        if fm then
          match enum.find? fullMatch with
          | some pr => [(assocAssign pr.1 c.1, pr.2)]
          | none => []
        else enum.map (fun pr => (assocAssign pr.1 c.1, pr.2)))) fm := rfl

theorem doParseF_sat2 :
    ∀ (k n m : Nat) (rules : List Parser) (cands : List Cand) (fm : Bool),
    n + m ≤ k → szL rules ≤ n → szL rules ≤ m →
    doParseF n rules cands fm = doParseF m rules cands fm := by
  intro k
  induction k using Nat.strong_induction_on with
  | _ k ih =>
    intro n m rules cands fm hk hn hm
    match rules with
    | [] => cases n <;> cases m <;> rfl
    | r :: rest =>
      have hr := sz_pos r
      have hsz : szL (r :: rest) = sz r + szL rest := rfl
      rw [hsz] at hn hm
      obtain ⟨n', rfl⟩ : ∃ n', n = n' + 1 := ⟨n - 1, by omega⟩
      obtain ⟨m', rfl⟩ : ∃ m', m = m' + 1 := ⟨m - 1, by omega⟩
      have htail : ∀ cs : List Cand,
          doParseF n' rest cs fm = doParseF m' rest cs fm := fun cs =>
        ih (n' + m') (by omega) n' m' rest cs fm (by omega)
          (by omega) (by omega)
      cases r with
      | params ps =>
        rw [doParseF_succ_params, doParseF_succ_params]; exact htail _
      | segment s ad =>
        rw [doParseF_succ_segment, doParseF_succ_segment]; exact htail _
      | path ss =>
        rw [doParseF_succ_path, doParseF_succ_path]; exact htail _
      | extra pl =>
        rw [doParseF_succ_extra, doParseF_succ_extra]; exact htail _
      | merge a b =>
        rw [doParseF_succ_merge, doParseF_succ_merge]; exact htail _
      | embed s p =>
        rw [doParseF_succ_embed, doParseF_succ_embed]
        have hszp : sz (Parser.embed s p) = sz p + 1 := rfl
        have hx : (cands.flatMap (fun c =>
            (doParseF n' (flatten p) [([], c.2)] fm).map
              (fun pr => (assocAssign [(s, Value.vObj pr.1)] c.1, pr.2)))) =
            (cands.flatMap (fun c =>
            (doParseF m' (flatten p) [([], c.2)] fm).map
              (fun pr => (assocAssign [(s, Value.vObj pr.1)] c.1, pr.2)))) :=
          flatMap_congr (fun c _ => by
            rw [ih (n' + m') (by omega) n' m' (flatten p) [([], c.2)] fm (by omega)
              (le_trans (szL_flatten_le p) (by rw [hszp] at hn; omega))
              (le_trans (szL_flatten_le p) (by rw [hszp] at hm; omega))])
        rw [hx]; exact htail _
      | oneOf tags =>
        rw [doParseF_succ_oneOf, doParseF_succ_oneOf]
        have hszo : sz (Parser.oneOf tags) = szT tags + 1 := rfl
        have hx : (cands.flatMap (fun c : Cand =>
            let enum := (collectParsers (buildTrie tags) c.2.segments c.2.idx).flatMap
              (fun q => doParseF n' (flatten q) [([], c.2)] fm)
            if fm then
              match enum.find? fullMatch with
              | some pr => [(assocAssign pr.1 c.1, pr.2)]
              | none => []
            else enum.map (fun pr => (assocAssign pr.1 c.1, pr.2)))) =
            (cands.flatMap (fun c : Cand =>
            let enum := (collectParsers (buildTrie tags) c.2.segments c.2.idx).flatMap
              (fun q => doParseF m' (flatten q) [([], c.2)] fm)
            if fm then
              match enum.find? fullMatch with
              | some pr => [(assocAssign pr.1 c.1, pr.2)]
              | none => []
            else enum.map (fun pr => (assocAssign pr.1 c.1, pr.2)))) := by
          apply flatMap_congr
          intro c _
          have henum : (collectParsers (buildTrie tags) c.2.segments c.2.idx).flatMap
              (fun q => doParseF n' (flatten q) [([], c.2)] fm) =
              (collectParsers (buildTrie tags) c.2.segments c.2.idx).flatMap
              (fun q => doParseF m' (flatten q) [([], c.2)] fm) := by
            apply flatMap_congr
            intro q hq
            have hq2 := sz_mem_tags (mem_collect_tags hq)
            exact ih (n' + m') (by omega) n' m' (flatten q) [([], c.2)] fm (by omega)
              (le_trans (szL_flatten_le q) (by rw [hszo] at hn; omega))
              (le_trans (szL_flatten_le q) (by rw [hszo] at hm; omega))
          simp only [henum]
        rw [hx]; exact htail _

theorem doParseF_sat {n : Nat} {rules : List Parser} {cands : List Cand} {fm : Bool}
    (h : szL rules ≤ n) : doParseF n rules cands fm = doParseRules rules cands fm :=
  doParseF_sat2 (n + szL rules) n (szL rules) rules cands fm (by omega) h (by omega)

theorem doParseRules_nil (cands : List Cand) (fm : Bool) :
    doParseRules [] cands fm = cands := rfl

theorem doParseRules_cons (r : Parser) (rest : List Parser) (cands : List Cand)
    (fm : Bool) :
    doParseRules (r :: rest) cands fm = doParseRules rest (ruleStep r cands fm) fm := by
  have hr := sz_pos r
  have hsz : szL (r :: rest) = sz r + szL rest := rfl
  rw [doParseRules]
  obtain ⟨m, hm⟩ : ∃ m, szL (r :: rest) = m + 1 := ⟨szL (r :: rest) - 1, by omega⟩
  rw [hsz] at hm
  rw [hsz, hm]
  cases r with
  | params ps =>
    rw [doParseF_succ_params, ruleStep, doParseF_sat (by omega)]
  | segment s ad =>
    rw [doParseF_succ_segment, ruleStep, doParseF_sat (by omega)]
  | path ss =>
    rw [doParseF_succ_path, ruleStep, doParseF_sat (by omega)]
  | extra pl =>
    rw [doParseF_succ_extra, ruleStep, doParseF_sat (by omega)]
  | merge a b =>
    rw [doParseF_succ_merge, ruleStep, doParseF_sat (by omega)]
  | embed s p =>
    rw [doParseF_succ_embed, ruleStep]
    have hszp : sz (Parser.embed s p) = sz p + 1 := rfl
    rw [hszp] at hm
    have hx : (cands.flatMap (fun c =>
        (doParseF m (flatten p) [([], c.2)] fm).map
          (fun pr => (assocAssign [(s, Value.vObj pr.1)] c.1, pr.2)))) =
        (cands.flatMap (fun c =>
        (doParseP p c.2 fm).map
          (fun pr => (assocAssign [(s, Value.vObj pr.1)] c.1, pr.2)))) :=
      flatMap_congr (fun c _ => by
        rw [doParseF_sat (le_trans (szL_flatten_le p) (by omega))]; rfl)
    rw [hx, doParseF_sat (by omega)]
  | oneOf tags =>
    rw [doParseF_succ_oneOf, ruleStep]
    have hszo : sz (Parser.oneOf tags) = szT tags + 1 := rfl
    rw [hszo] at hm
    have hx : (cands.flatMap (fun c : Cand =>
        let enum := (collectParsers (buildTrie tags) c.2.segments c.2.idx).flatMap
          (fun q => doParseF m (flatten q) [([], c.2)] fm)
        if fm then
          match enum.find? fullMatch with
          | some pr => [(assocAssign pr.1 c.1, pr.2)]
          | none => []
        else enum.map (fun pr => (assocAssign pr.1 c.1, pr.2)))) =
        (cands.flatMap (fun c : Cand =>
        let enum := oneOfEnum tags c.2 fm
        if fm then
          match enum.find? fullMatch with
          | some pr => [(assocAssign pr.1 c.1, pr.2)]
          | none => []
        else enum.map (fun pr => (assocAssign pr.1 c.1, pr.2)))) := by
      apply flatMap_congr
      intro c _
      have henum : (collectParsers (buildTrie tags) c.2.segments c.2.idx).flatMap
          (fun q => doParseF m (flatten q) [([], c.2)] fm) = oneOfEnum tags c.2 fm := by
        rw [oneOfEnum]
        apply flatMap_congr
        intro q hq
        have hq2 := sz_mem_tags (mem_collect_tags hq)
        rw [doParseF_sat (le_trans (szL_flatten_le q) (by omega))]
        rfl
      simp only [henum]
    rw [hx, doParseF_sat (by omega)]

theorem percDecode_no_pct {l : List Char} (h : '%' ∉ l) : percDecode l = some l := by
  induction l with
  | nil => rfl
  | cons c t ih =>
    rw [List.mem_cons] at h
    push_neg at h
    rw [percDecode_cons_ne c (fun e => h.1 e.symm) t, ih h.2]
    rfl

theorem decodeE_no_pct {l : List Char} (h : '%' ∉ l) : decodeE l = .ok l.asString := by
  rw [decodeE, percDecode_no_pct h]

theorem doParseP_oneOf (tags : List (String × Parser)) (st : ParserState) :
    doParseP (.oneOf tags) st true =
      (match (oneOfEnum tags st true).find? fullMatch with
        | some pr => [(pr.1, pr.2)]
        | none => []) := by
  show doParseRules [Parser.oneOf tags] [([], st)] true = _
  rw [doParseRules_cons, doParseRules_nil, ruleStep]
  rw [List.flatMap_cons, List.flatMap_nil, List.append_nil]
  simp only [if_pos]
  cases hfind : (oneOfEnum tags st true).find? fullMatch with
  | some pr => rfl
  | none => rfl

/-! ## Claim theorems -/

/-- C8: the CSV array adapter over `string` round-trips the list
`["a,b", "c\d"]` exactly (backslash escapes both the comma and the
backslash); `[""]` prints as the two-character text `""` while `[]`
prints as the empty text, the two printed forms differ, and each parses
back to its original list. -/
theorem claim_C8 :
    (arrayAdapter stringAdapter).apply
        ((arrayAdapter stringAdapter).unapply (.vList [.vStr "a,b", .vStr "c\\d"])) =
      some (.vList [.vStr "a,b", .vStr "c\\d"]) ∧
    printCsv [""] = "\"\"" ∧
    printCsv [] = "" ∧
    printCsv [""] ≠ printCsv [] ∧
    (arrayAdapter stringAdapter).apply (printCsv [""]) = some (.vList [.vStr ""]) ∧
    (arrayAdapter stringAdapter).apply (printCsv []) = some (.vList []) := by
  refine ⟨rfl, rfl, rfl, ?_, rfl, rfl⟩
  decide

/-- C3: on the breadcrumb descriptor the ordering part of the claim
holds — `parseAll('/shop/item/42')` is `[Item+id, Shop, Home]`, most
specific first — but `parseAll('/unknown')` returns `[{tag: "Home"}]`,
not the empty list the specification (and the `life-taxonomy` example
README) promises: `parseAll` never filters for full consumption, so the
`Home` alternative, which consumes zero segments, survives on every
input. -/
theorem claim_C3 :
    parseAllM D3 "/shop/item/42" =
      .ok [[("tag", .vStr "Item"), ("id", .vStr "42")],
           [("tag", .vStr "Shop")],
           [("tag", .vStr "Home")]] ∧
    parseAllM D3 "/unknown" = .ok [[("tag", .vStr "Home")]] ∧
    ([[("tag", Value.vStr "Home")]] : List RouteValue) ≠ [] := by
  refine ⟨rfl, rfl, ?_⟩
  decide

/-- C2 (counterexample): parsing `/a/b` against the bare descriptor
`path('/a')` returns a route value although its only candidate consumed
one of the two path segments: the full-consumption filter exists only
inside `OneOf` groups, so a bare descriptor's `parse` returns the first
candidate whether or not it consumed everything. -/
theorem claim_C2_counterexample :
    parseM (pathP "/a") "/a/b" = .ok (some []) ∧
    (doParseP (pathP "/a") ⟨["a", "b"], [], 0⟩ true).map fullMatch = [false] :=
  ⟨rfl, rfl⟩

/-- C2 (amended): for a descriptor that is a `OneOf` group, `parse`
returns the route value of the first discovered candidate that consumed
every path segment, and `null` when no candidate fully consumes the
input; a bare (non-`OneOf`) descriptor returns its first candidate with
no full-consumption check. -/
theorem claim_C2 (tags : List (String × Parser)) (url : String) (st : ParserState)
    (h : prepareStateE url = .ok st) :
    parseM (.oneOf tags) url =
      .ok (((oneOfEnum tags st true).find? fullMatch).map (fun pr => pr.1)) := by
  rw [parseM, h, Except.map, doParseP_oneOf]
  cases hfind : (oneOfEnum tags st true).find? fullMatch with
  | some pr => rfl
  | none => rfl

/-- C2 witness: the amended statement evaluated on the one-alternative
group `oneOf(tag('Home').path('/home'))` at `/home`. -/
theorem claim_C2_witness :
    parseM (.oneOf [("Home", ParserBase.path (tagP "Home") "/home")]) "/home" =
      .ok (((oneOfEnum [("Home", ParserBase.path (tagP "Home") "/home")]
        ⟨["home"], [], 0⟩ true).find? fullMatch).map (fun pr => pr.1)) :=
  claim_C2 [("Home", ParserBase.path (tagP "Home") "/home")] "/home"
    ⟨["home"], [], 0⟩ rfl

/-- C6 (counterexample): printing `true` for a `boolean` query field
emits the pair `flag=true`, not a bare key: the url printed for
`{flag: true}` on `path('/x').params({flag: boolean})` is `x?flag=true`,
because the adapter's `unapplyOption` serializes `true` as the string
`"true"`, not as the empty string. -/
theorem claim_C6_counterexample :
    printM P6 [("flag", .vBool true)] = some "x?flag=true" ∧
    booleanAdapter.unapplyOption (.vBool true) = some "true" ∧
    (some "true" : Option String) ≠ some "" := by
  refine ⟨rfl, rfl, ?_⟩
  decide

/-- C6 (amended): for the built-in `boolean` adapter, an absent key
parses to `false`; a present value among `""`, `"false"`, `"0"`, `"off"`
parses to `false` and every other present value to `true`; printing
`true` emits the key with the value string `true` (`flag=true`);
printing `false` suppresses the key via the built-in default. -/
theorem claim_C6 (s : String) :
    booleanAdapter.applyOption none = some (.vBool false) ∧
    booleanAdapter.applyOption (some s) =
      some (.vBool (!(s == "" || s == "false" || s == "0" || s == "off"))) ∧
    booleanAdapter.unapplyOption (.vBool false) = none ∧
    booleanAdapter.unapplyOption (.vBool true) = some "true" ∧
    printM P6 [("flag", .vBool false)] = some "x" ∧
    printM P6 [("flag", .vBool true)] = some "x?flag=true" ∧
    parseM P6 "x" = .ok (some [("flag", .vBool false)]) ∧
    parseM P6 "x?flag" = .ok (some [("flag", .vBool false)]) ∧
    parseM P6 "x?flag=off" = .ok (some [("flag", .vBool false)]) ∧
    parseM P6 "x?flag=yes" = .ok (some [("flag", .vBool true)]) := by
  refine ⟨rfl, ?_, rfl, rfl, rfl, rfl, rfl, rfl, rfl, rfl⟩
  have hv : booleanAdapter.applyOption (some s) =
      (if s = "" ∨ s = "false" ∨ s = "0" ∨ s = "off"
        then some (Value.vBool false) else some (Value.vBool true)) := rfl
  rw [hv]
  by_cases h : s = "" ∨ s = "false" ∨ s = "0" ∨ s = "off"
  · rw [if_pos h]
    rcases h with h | h | h | h <;> subst h <;> rfl
  · rw [if_neg h]
    push_neg at h
    obtain ⟨h1, h2, h3, h4⟩ := h
    have b1 : (s == "") = false := beq_eq_false_iff_ne.mpr h1
    have b2 : (s == "false") = false := beq_eq_false_iff_ne.mpr h2
    have b3 : (s == "0") = false := beq_eq_false_iff_ne.mpr h3
    have b4 : (s == "off") = false := beq_eq_false_iff_ne.mpr h4
    rw [b1, b2, b3, b4]
    rfl

/-- C7 (counterexample): on `x?k=a=b` the query dictionary binds `k` to
`a` — the piece between the first and the second `=` — and not to the
entire remainder `a=b` after the first `=`: `split('=')` cuts at every
`=` and only piece 1 becomes the value. -/
theorem claim_C7_counterexample :
    prepareStateE "x?k=a=b" = .ok ⟨["x"], [("k", "a")], 0⟩ ∧
    (some "a" : Option String) ≠ some "a=b" := by
  refine ⟨rfl, ?_⟩
  decide

theorem mapM_decodeE_no_pct : ∀ (ls : List (List Char)),
    (∀ l ∈ ls, '%' ∉ l) → ls.mapM decodeE = .ok (ls.map List.asString) := by
  intro ls h
  induction ls with
  | nil => rfl
  | cons a t ih =>
    rw [List.mapM_cons, decodeE_no_pct (h a (by simp)),
      ih (fun l hl => h l (List.mem_cons_of_mem a hl))]
    rfl

/-- C7 (amended): `prepareState` splits the query on `&`; each pair is
split on every `=` and percent-decoded piecewise (a decoding failure in
any piece, even a discarded one, propagates), the key is piece 0 and the
value is piece 1 — the text between the first and the second `=`, not
the entire remainder after the first `=`; a pair with no `=` binds the
key to the empty string, not to absence. -/
theorem claim_C7 (k v1 v2 : List Char)
    (hk : ∀ c ∈ k, c ≠ '?' ∧ c ≠ '&' ∧ c ≠ '=' ∧ c ≠ '%')
    (h1 : ∀ c ∈ v1, c ≠ '?' ∧ c ≠ '&' ∧ c ≠ '=' ∧ c ≠ '%')
    (h2 : ∀ c ∈ v2, c ≠ '?' ∧ c ≠ '&' ∧ c ≠ '=' ∧ c ≠ '%')
    (hke : k ≠ []) :
    prepareStateE ('x' :: '?' :: (k ++ '=' :: (v1 ++ '=' :: v2))).asString =
      .ok ⟨["x"], [(k.asString, v1.asString)], 0⟩ ∧
    prepareStateE ('x' :: '?' :: k).asString = .ok ⟨["x"], [(k.asString, "")], 0⟩ := by
  constructor
  · have hQ : ∀ c ∈ k ++ '=' :: (v1 ++ '=' :: v2),
        c ≠ '?' ∧ c ≠ '&' ∧ c ≠ '%' := by
      intro c hc
      rw [List.mem_append, List.mem_cons, List.mem_append, List.mem_cons] at hc
      rcases hc with hc | hc | hc | hc | hc
      · exact ⟨(hk c hc).1, (hk c hc).2.1, (hk c hc).2.2.2⟩
      · subst hc; refine ⟨by decide, by decide, by decide⟩
      · exact ⟨(h1 c hc).1, (h1 c hc).2.1, (h1 c hc).2.2.2⟩
      · subst hc; refine ⟨by decide, by decide, by decide⟩
      · exact ⟨(h2 c hc).1, (h2 c hc).2.1, (h2 c hc).2.2.2⟩
    have hsQm : splitOnC '?' ('x' :: '?' :: (k ++ '=' :: (v1 ++ '=' :: v2))) =
        [['x'], k ++ '=' :: (v1 ++ '=' :: v2)] := by
      have := splitOnC_append_sep '?' ['x'] (k ++ '=' :: (v1 ++ '=' :: v2)) (by decide)
      rw [List.cons_append, List.nil_append] at this
      rw [this, splitOnC_no_sep '?' _ (fun hc => (hQ '?' hc).1 rfl)]
    have hsAmp : splitOnC '&' (k ++ '=' :: (v1 ++ '=' :: v2)) =
        [k ++ '=' :: (v1 ++ '=' :: v2)] :=
      splitOnC_no_sep '&' _ (fun hc => (hQ '&' hc).2.1 rfl)
    have hsEq : splitOnC '=' (k ++ '=' :: (v1 ++ '=' :: v2)) = [k, v1, v2] := by
      rw [splitOnC_append_sep '=' k _ (fun hc => (hk '=' hc).2.2.1 rfl),
        splitOnC_append_sep '=' v1 _ (fun hc => (h1 '=' hc).2.2.1 rfl),
        splitOnC_no_sep '=' v2 (fun hc => (h2 '=' hc).2.2.1 rfl)]
    have hmapm : ([k, v1, v2] : List (List Char)).mapM decodeE =
        .ok [k.asString, v1.asString, v2.asString] :=
      mapM_decodeE_no_pct [k, v1, v2] (by
        intro l hl hc
        rw [List.mem_cons, List.mem_cons, List.mem_cons] at hl
        rcases hl with rfl | rfl | rfl | hl
        · exact (hk '%' hc).2.2.2 rfl
        · exact (h1 '%' hc).2.2.2 rfl
        · exact (h2 '%' hc).2.2.2 rfl
        · simp at hl)
    rw [prepareStateE]
    have htl : (('x' :: '?' :: (k ++ '=' :: (v1 ++ '=' :: v2))).asString).toList =
        'x' :: '?' :: (k ++ '=' :: (v1 ++ '=' :: v2)) := rfl
    rw [htl, hsQm]
    show (Except.ok ["x"] >>= fun segs =>
        (((splitOnC '&' (k ++ '=' :: (v1 ++ '=' :: v2))).filter (· ≠ [])).foldlM
          (fun acc pair =>
            (splitOnC '=' pair).mapM decodeE >>= fun pieces =>
              pure (assocSet acc (pieces.headD "") ((pieces.get? 1).getD ""))) []) >>=
        fun params => pure (ParserState.mk segs params 0)) = _
    rw [hsAmp]
    have hne : (k ++ '=' :: (v1 ++ '=' :: v2)) ≠ [] := by
      cases k <;> simp
    have hfilter : ([k ++ '=' :: (v1 ++ '=' :: v2)].filter (· ≠ [])) =
        [k ++ '=' :: (v1 ++ '=' :: v2)] := by
      rw [List.filter_cons, List.filter_nil]
      simp [hne]
    rw [hfilter, List.foldlM_cons, hsEq, hmapm]
    rfl
  · have hsQm : splitOnC '?' ('x' :: '?' :: k) = [['x'], k] := by
      have := splitOnC_append_sep '?' ['x'] k (by decide)
      rw [List.cons_append, List.nil_append] at this
      rw [this, splitOnC_no_sep '?' k (fun hc => (hk '?' hc).1 rfl)]
    have hsAmp : splitOnC '&' k = [k] :=
      splitOnC_no_sep '&' k (fun hc => (hk '&' hc).2.1 rfl)
    have hsEq : splitOnC '=' k = [k] :=
      splitOnC_no_sep '=' k (fun hc => (hk '=' hc).2.2.1 rfl)
    have hmapm : ([k] : List (List Char)).mapM decodeE = .ok [k.asString] :=
      mapM_decodeE_no_pct [k] (by
        intro l hl hc
        rw [List.mem_cons] at hl
        rcases hl with rfl | hl
        · exact (hk '%' hc).2.2.2 rfl
        · simp at hl)
    rw [prepareStateE]
    have htl : (('x' :: '?' :: k).asString).toList = 'x' :: '?' :: k := rfl
    rw [htl, hsQm]
    show (Except.ok ["x"] >>= fun segs =>
        (((splitOnC '&' k).filter (· ≠ [])).foldlM
          (fun acc pair =>
            (splitOnC '=' pair).mapM decodeE >>= fun pieces =>
              pure (assocSet acc (pieces.headD "") ((pieces.get? 1).getD ""))) []) >>=
        fun params => pure (ParserState.mk segs params 0)) = _
    rw [hsAmp]
    have hfilter : ([k].filter (· ≠ [])) = [k] := by
      rw [List.filter_cons, List.filter_nil]
      simp [hke]
    rw [hfilter, List.foldlM_cons, hsEq, hmapm]
    rfl

/-- C7 witness: the amended statement at `x?k=a=b` and `x?k`. -/
theorem claim_C7_witness :
    prepareStateE ('x' :: '?' :: (['k'] ++ '=' :: (['a'] ++ '=' :: ['b']))).asString =
      .ok ⟨["x"], [(['k'].asString, ['a'].asString)], 0⟩ ∧
    prepareStateE ('x' :: '?' :: ['k']).asString =
      .ok ⟨["x"], [(['k'].asString, "")], 0⟩ :=
  claim_C7 ['k'] ['a'] ['b'] (by decide) (by decide) (by decide) (by decide)

/-- C9 (counterexample): `parse` and `parseAll` do throw for some
inputs: on the url `%`, `decodeURIComponent` raises a `URIError` that
neither method catches, so parsing does not return `null`/`[]` — it
propagates the exception. -/
theorem claim_C9_counterexample :
    parseM (pathP "x") "%" = .error () ∧
    parseAllM (pathP "x") "%" = .error () := ⟨rfl, rfl⟩

theorem oneOfE_fold_error (f : List (String × Parser) → Parser → Except String (List (String × Parser)))
    (hf : f = fun acc p =>
      match lookupTag p with
      | some t => Except.ok (assocSet acc t (prepareOneOf p))
      | none => Except.error "oneOf: an argument was not provided with a tag") :
    ∀ (args : List Parser) (acc : List (String × Parser)),
      (∃ e, args.foldlM f acc = .error e) ↔ ∃ q ∈ args, lookupTag q = none := by
  intro args
  induction args with
  | nil =>
    intro acc
    constructor
    · rintro ⟨e, he⟩
      exact absurd he (by simp [List.foldlM_nil, pure, Except.pure])
    · rintro ⟨q, hq, -⟩
      exact absurd hq (by simp)
  | cons a t ih =>
    intro acc
    rw [List.foldlM_cons]
    cases htag : lookupTag a with
    | some tg =>
      have hfa : f acc a = .ok (assocSet acc tg (prepareOneOf a)) := by
        rw [hf]
        simp only [htag]
      rw [hfa]
      constructor
      · rintro ⟨e, he⟩
        obtain ⟨q, hq, hq2⟩ := (ih _).mp ⟨e, he⟩
        exact ⟨q, List.mem_cons_of_mem a hq, hq2⟩
      · rintro ⟨q, hq, hq2⟩
        rcases List.mem_cons.mp hq with rfl | hq
        · exact absurd htag (by rw [hq2]; simp)
        · exact (ih _).mpr ⟨q, hq, hq2⟩
    | none =>
      have hfa : f acc a = .error "oneOf: an argument was not provided with a tag" := by
        rw [hf]
        simp only [htag]
      rw [hfa]
      constructor
      · intro _
        exact ⟨a, List.mem_cons_self a t, htag⟩
      · rintro -
        exact ⟨"oneOf: an argument was not provided with a tag", rfl⟩

theorem exists_ok_map {α β : Type} (x : Except Unit α) (g : α → β) :
    (∃ o, x.map g = .ok o) ↔ ∃ a, x = .ok a := by
  cases x with
  | error e =>
    constructor
    · rintro ⟨o, ho⟩
      exact absurd ho (by simp [Except.map])
    · rintro ⟨a, ha⟩
      exact absurd ha (by simp)
  | ok a =>
    exact ⟨fun _ => ⟨a, rfl⟩, fun _ => ⟨g a, rfl⟩⟩

/-- C9 (amended): `oneOf` fails at construction time exactly when some
argument carries no string-valued `tag` field; at runtime, `parse` and
`parseAll` return normally exactly when percent-decoding the url
succeeds — a url with malformed percent-encoding makes both throw the
uncaught `URIError`, while a decodable url that matches nothing returns
`null` / the empty list rather than throwing. -/
theorem claim_C9 (args : List Parser) (p : Parser) (url : String) :
    ((∃ e, oneOfE args = .error e) ↔ ∃ q ∈ args, lookupTag q = none) ∧
    ((∃ o, parseM p url = .ok o) ↔ ∃ st, prepareStateE url = .ok st) ∧
    ((∃ l, parseAllM p url = .ok l) ↔ ∃ st, prepareStateE url = .ok st) := by
  refine ⟨?_, ?_, ?_⟩
  · rw [oneOfE]
    have herr : ∀ (x : Except String (List (String × Parser))),
        (∃ e, x.map Parser.oneOf = .error e) ↔ ∃ e, x = .error e := by
      intro x
      cases x with
      | error e => exact ⟨fun _ => ⟨e, rfl⟩, fun _ => ⟨e, rfl⟩⟩
      | ok a =>
        constructor
        · rintro ⟨e, he⟩
          exact absurd he (by simp [Except.map])
        · rintro ⟨e, he⟩
          exact absurd he (by simp)
    rw [herr]
    exact oneOfE_fold_error _ rfl args []
  · exact exists_ok_map (prepareStateE url) _
  · exact exists_ok_map (prepareStateE url) _

/-- C9 witness: the amended statement on the breadcrumb arguments (all
tagged, hence no construction error) and the url `/unknown` (decodable,
hence `parse`/`parseAll` return normally). -/
theorem claim_C9_witness :
    ((∃ e, oneOfE claim3args = .error e) ↔ ∃ q ∈ claim3args, lookupTag q = none) ∧
    ((∃ o, parseM D3 "/unknown" = .ok o) ↔ ∃ st, prepareStateE "/unknown" = .ok st) ∧
    ((∃ l, parseAllM D3 "/unknown" = .ok l) ↔ ∃ st, prepareStateE "/unknown" = .ok st) :=
  claim_C9 claim3args D3 "/unknown"

/-- C10: duplicate tags in `oneOf` silently overwrite — when two
arguments carry the same tag, construction succeeds and the resulting
alternation stores, under that tag, only the (prepared) last argument:
the tag map is built by keyed insertion, so the later entry replaces the
earlier one. -/
theorem claim_C10 (p₁ p₂ : Parser) (t : String)
    (h1 : lookupTag p₁ = some t) (h2 : lookupTag p₂ = some t) :
    oneOfE [p₁, p₂] = .ok (.oneOf [(t, prepareOneOf p₂)]) := by
  have hset : assocSet (assocSet [] t (prepareOneOf p₁)) t (prepareOneOf p₂) =
      [(t, prepareOneOf p₂)] := by
    show assocSet [(t, prepareOneOf p₁)] t (prepareOneOf p₂) = _
    rw [assocSet, if_pos (beq_self_eq_true t)]
  rw [oneOfE]
  simp only [List.foldlM_cons, List.foldlM_nil, h1, h2]
  show Except.map Parser.oneOf
      (Except.ok (assocSet ([] : List (String × Parser)) t (prepareOneOf p₁)) >>=
        fun acc => Except.ok (assocSet acc t (prepareOneOf p₂)) >>= fun a => pure a) = _
  rw [show (Except.ok (assocSet ([] : List (String × Parser)) t (prepareOneOf p₁)) >>=
      fun acc => Except.ok (assocSet acc t (prepareOneOf p₂)) >>= fun a => pure a) =
      (Except.ok (assocSet (assocSet [] t (prepareOneOf p₁)) t (prepareOneOf p₂)) :
        Except String (List (String × Parser))) from rfl, hset]
  rfl

/-- C10 witness: two alternatives both tagged `X`; the constructed
alternation holds only the prepared second one. -/
theorem claim_C10_witness :
    oneOfE [ParserBase.path (tagP "X") "/a", ParserBase.path (tagP "X") "/b"] =
      .ok (.oneOf [("X", prepareOneOf (ParserBase.path (tagP "X") "/b"))]) :=
  claim_C10 (ParserBase.path (tagP "X") "/a") (ParserBase.path (tagP "X") "/b") "X"
    rfl rfl

theorem applyOption_none_default : ∀ {ad : Adapter} {d : Value},
    getDefaultValue ad = some d → ad.applyOption none = some d := by
  intro ad
  induction ad with
  | custom ap un =>
    intro d h
    exact absurd h (by rw [getDefaultValue]; simp)
  | named a n ih =>
    intro d h
    rw [getDefaultValue] at h
    exact ih h
  | dflt a d0 =>
    intro d h
    rw [getDefaultValue, Option.some.injEq] at h
    rw [Adapter.applyOption, h]
  | dimap f g a ih =>
    intro d h
    rw [getDefaultValue] at h
    cases ha : getDefaultValue a with
    | none => rw [ha] at h; exact absurd h (by simp)
    | some d' =>
      rw [ha] at h
      rw [Adapter.applyOption, ih ha]
      exact h

/-- C5: a query field whose adapter carries the registered default `d`
is suppressed symmetrically — printing a route value in which the field
is absent or equals `d` (by the modelled deep equality) skips the field
entirely, emitting no query key for it, and parsing a query dictionary
lacking the field's key binds the field to `d` before continuing with
the remaining entries. -/
theorem claim_C5 (key : String) (ad : Adapter) (d : Value) (v : RouteValue)
    (t : List (String × Adapter)) (acc : List (String × String))
    (qm : List (String × String)) (out : RouteValue)
    (hd : getDefaultValue ad = some d)
    (hv : v.lookup key = none ∨ ∃ x, v.lookup key = some x ∧ Value.beq x d = true)
    (hq : qm.lookup ((getName ad).getD key) = none) :
    printParamsGo v ((key, ad) :: t) acc = printParamsGo v t acc ∧
    parseParamsGo qm ((key, ad) :: t) out = parseParamsGo qm t (assocSet out key d) := by
  constructor
  · rw [printParamsGo]
    have hskip : (match getDefaultValue ad with
        | some d =>
          match v.lookup key with
          | none => true
          | some x => Value.beq x d
        | none => false) = true := by
      rw [hd]
      rcases hv with hv | ⟨x, hx, hbeq⟩
      · rw [hv]
      · rw [hx]
        exact hbeq
    rw [hskip]
    rfl
  · rw [parseParamsGo]
    show (match (ad.applyOption (qm.lookup ((getName ad).getD key))).or
        (getDefaultValue ad) with
      | none => none
      | some w => parseParamsGo qm t (assocSet out key w)) = _
    rw [hq, applyOption_none_default hd]
    rfl

/-- C5 witness: the `page` field of the spec's `Category` example, with
default `1`: printing `{slug: "x"}` skips `page`; parsing an empty query
binds `page` to `1`. -/
theorem claim_C5_witness :
    printParamsGo [("slug", Value.vStr "x")]
        [("page", Adapter.dflt natAdapter (.vInt 1))] [] =
      printParamsGo [("slug", Value.vStr "x")] [] [] ∧
    parseParamsGo [] [("page", Adapter.dflt natAdapter (.vInt 1))] [] =
      parseParamsGo [] [] (assocSet [] "page" (.vInt 1)) :=
  claim_C5 "page" (Adapter.dflt natAdapter (.vInt 1)) (.vInt 1)
    [("slug", Value.vStr "x")] [] [] [] [] rfl (Or.inl rfl) rfl

/-! Lemmas for the trie-dispatch equivalence (claim C4). -/

theorem permOfMs {α : Type} {l₁ l₂ : List α}
    (h : (l₁ : Multiset α) = (l₂ : Multiset α)) : l₁.Perm l₂ := Quotient.exact h

theorem trieAllL_append (a b : List (String × Trie)) :
    trieAllL (a ++ b) = trieAllL a ++ trieAllL b := by
  induction a with
  | nil => rfl
  | cons e t ih =>
    obtain ⟨s, u⟩ := e
    rw [List.cons_append, trieAllL, trieAllL, ih, List.append_assoc]

theorem trieAllL_assocSet_perm (s : String) (t'' : Trie) :
    ∀ (ch : List (String × Trie)),
    (trieAllL (assocSet ch s t'') ++
        trieAll ((ch.lookup s).getD (.node [] []))).Perm
      (trieAll t'' ++ trieAllL ch) := by
  intro ch
  induction ch with
  | nil =>
    show (trieAllL [(s, t'')] ++ trieAll (.node [] [])).Perm _
    rw [trieAllL, trieAllL, trieAll, trieAllL]
    apply permOfMs
    simp
  | cons e r ih =>
    obtain ⟨k, u⟩ := e
    by_cases hk : k = s
    · subst hk
      have e1 : assocSet ((k, u) :: r) k t'' = (k, t'') :: r := by
        rw [assocSet, if_pos (beq_self_eq_true k)]
      have e2 : ((k, u) :: r).lookup k = some u := by
        simp [List.lookup]
      rw [e1, e2, Option.getD_some, trieAllL, trieAllL]
      apply permOfMs
      simp only [← Multiset.coe_add]
      abel
    · have e1 : assocSet ((k, u) :: r) s t'' = (k, u) :: assocSet r s t'' := by
        rw [assocSet, if_neg (by simpa using hk)]
      have e2 : ((k, u) :: r).lookup s = r.lookup s := by
        have hs : (s == k) = false := beq_eq_false_iff_ne.mpr (fun h => hk h.symm)
        simp [List.lookup, hs]
      rw [e1, e2, trieAllL, trieAllL, List.append_assoc]
      refine (List.Perm.append_left (trieAll u) ih).trans ?_
      apply permOfMs
      simp only [← Multiset.coe_add]
      abel

theorem trieAll_insert_perm :
    ∀ (path : List String) (t : Trie) (p : Parser),
    (trieAll (trieInsert t path p)).Perm (p :: trieAll t) := by
  intro path
  induction path with
  | nil =>
    intro t p
    obtain ⟨b, ch⟩ := t
    rw [trieInsert, trieAll, trieAll]
    apply permOfMs
    simp only [← Multiset.coe_add, ← Multiset.cons_coe, ← Multiset.singleton_add]
    abel
  | cons s ss ih =>
    intro t p
    obtain ⟨b, ch⟩ := t
    rw [trieInsert, trieAll, trieAll]
    have h2 := trieAllL_assocSet_perm s
      (trieInsert ((ch.lookup s).getD (.node [] [])) ss p) ch
    have h3 := ih ((ch.lookup s).getD (.node [] [])) p
    have h4 : (trieAllL (assocSet ch s
        (trieInsert ((ch.lookup s).getD (.node [] [])) ss p)) ++
        trieAll ((ch.lookup s).getD (.node [] []))).Perm
        ((p :: trieAll ((ch.lookup s).getD (.node [] []))) ++ trieAllL ch) :=
      h2.trans ((List.perm_append_right_iff _).mpr h3)
    have h5 : ((p :: trieAll ((ch.lookup s).getD (.node [] []))) ++ trieAllL ch).Perm
        ((p :: trieAllL ch) ++ trieAll ((ch.lookup s).getD (.node [] []))) := by
      apply permOfMs
      simp only [← Multiset.coe_add, ← Multiset.cons_coe, ← Multiset.singleton_add]
      abel
    have h6 := (List.perm_append_right_iff
      (trieAll ((ch.lookup s).getD (.node [] [])))).mp (h4.trans h5)
    exact (List.perm_append_left_iff b).mpr h6 |>.trans
      (by apply permOfMs
          simp only [← Multiset.coe_add, ← Multiset.cons_coe, ← Multiset.singleton_add]
          abel)

theorem trieAll_foldl_perm :
    ∀ (tags : List (String × Parser)) (t0 : Trie),
    (trieAll (tags.foldl (fun t e => trieInsert t (leadingPath e.2) e.2) t0)).Perm
      (tags.map Prod.snd ++ trieAll t0) := by
  intro tags
  induction tags with
  | nil =>
    intro t0
    rw [List.foldl_nil, List.map_nil, List.nil_append]
  | cons e t ih =>
    intro t0
    rw [List.foldl_cons, List.map_cons]
    refine (ih _).trans ?_
    have h1 := trieAll_insert_perm (leadingPath e.2) t0 e.2
    refine ((List.perm_append_left_iff _).mpr h1).trans ?_
    apply permOfMs
    simp only [← Multiset.coe_add, ← Multiset.cons_coe, ← Multiset.singleton_add]
    abel

theorem trieAll_buildTrie_perm (tags : List (String × Parser)) :
    (trieAll (buildTrie tags)).Perm (tags.map Prod.snd) := by
  rw [buildTrie]
  refine (trieAll_foldl_perm tags _).trans ?_
  rw [show trieAll (Trie.node [] []) = [] from rfl, List.append_nil]

theorem trieHeight_mem : ∀ {ch : List (String × Trie)} {s : String} {t' : Trie},
    (s, t') ∈ ch → trieHeight t' ≤ trieHeightL ch := by
  intro ch
  induction ch with
  | nil => intro s t' h; simp at h
  | cons e r ih =>
    intro s t' h
    obtain ⟨k, u⟩ := e
    rw [trieHeightL]
    rcases List.mem_cons.mp h with h | h
    · rw [show t' = u from congrArg Prod.snd h]
      exact le_max_left _ _
    · exact le_trans (ih h) (le_max_right _ _)

theorem TrieOkL_mem : ∀ {ch : List (String × Trie)} {pre : List String}
    {s : String} {t' : Trie},
    TrieOkL ch pre → (s, t') ∈ ch → TrieOk t' (pre ++ [s]) := by
  intro ch
  induction ch with
  | nil => intro pre s t' _ h; simp at h
  | cons e r ih =>
    intro pre s t' hok h
    obtain ⟨k, u⟩ := e
    rw [TrieOkL] at hok
    rcases List.mem_cons.mp h with h | h
    · rw [Prod.mk.injEq] at h
      obtain ⟨rfl, rfl⟩ := h
      exact hok.1
    · exact ih hok.2 h

theorem mem_trieAllL : ∀ {ch : List (String × Trie)} {q : Parser},
    q ∈ trieAllL ch → ∃ s t', (s, t') ∈ ch ∧ q ∈ trieAll t' := by
  intro ch
  induction ch with
  | nil => intro q h; exact absurd h (by rw [trieAllL]; simp)
  | cons e r ih =>
    intro q h
    obtain ⟨k, u⟩ := e
    rw [trieAllL] at h
    rcases List.mem_append.mp h with h | h
    · exact ⟨k, u, List.mem_cons_self _ _, h⟩
    · obtain ⟨s, t', h1, h2⟩ := ih h
      exact ⟨s, t', List.mem_cons_of_mem _ h1, h2⟩

theorem leadingPath_of_mem : ∀ (n : Nat) (t : Trie) (pre : List String) (q : Parser),
    trieHeight t ≤ n → TrieOk t pre → q ∈ trieAll t →
    ∃ rel, leadingPath q = pre ++ rel := by
  intro n
  induction n using Nat.strong_induction_on with
  | _ n ihn =>
    intro t pre q hh hok hq
    obtain ⟨b, ch⟩ := t
    rw [trieAll] at hq
    obtain ⟨hb, hnd, hl⟩ := hok
    rcases List.mem_append.mp hq with hq | hq
    · exact ⟨[], by rw [List.append_nil]; exact hb q hq⟩
    · obtain ⟨s, t', hst, hq'⟩ := mem_trieAllL hq
      have hht : trieHeight t' ≤ trieHeightL ch := trieHeight_mem hst
      have hhn : trieHeight (Trie.node b ch) = trieHeightL ch + 1 := rfl
      rw [hhn] at hh
      obtain ⟨rel', hrel⟩ := ihn (trieHeightL ch) (by omega) t' (pre ++ [s]) q
        hht (TrieOkL_mem hl hst) hq'
      exact ⟨s :: rel', by rw [hrel, List.append_assoc]; rfl⟩

theorem assocSet_fst_mem {α β : Type} [BEq α] [LawfulBEq α] :
    ∀ (l : List (α × β)) (s : α) (v : β), s ∈ l.map Prod.fst →
    (assocSet l s v).map Prod.fst = l.map Prod.fst := by
  intro l
  induction l with
  | nil => intro s v h; simp at h
  | cons e t ih =>
    intro s v h
    obtain ⟨k, u⟩ := e
    by_cases hk : k = s
    · subst hk
      rw [assocSet, if_pos (beq_self_eq_true k), List.map_cons, List.map_cons]
    · rw [assocSet, if_neg (by simpa using hk), List.map_cons, List.map_cons, ih]
      rw [List.map_cons, List.mem_cons] at h
      rcases h with h | h
      · exact absurd h.symm hk
      · exact h

theorem assocSet_fst_not_mem {α β : Type} [BEq α] [LawfulBEq α] :
    ∀ (l : List (α × β)) (s : α) (v : β), s ∉ l.map Prod.fst →
    (assocSet l s v).map Prod.fst = l.map Prod.fst ++ [s] := by
  intro l
  induction l with
  | nil => intro s v _; rfl
  | cons e t ih =>
    intro s v h
    obtain ⟨k, u⟩ := e
    rw [List.map_cons, List.mem_cons] at h
    push_neg at h
    rw [assocSet, if_neg (by simpa using (fun e => h.1 e.symm : ¬k = s)),
      List.map_cons, ih s v h.2]
    rfl

theorem TrieOkL_assocSet_ok :
    ∀ (ch : List (String × Trie)) (pre : List String) (s : String) (t' : Trie),
    TrieOkL ch pre → TrieOk t' (pre ++ [s]) → TrieOkL (assocSet ch s t') pre := by
  intro ch
  induction ch with
  | nil =>
    intro pre s t' _ hok
    exact ⟨hok, trivial⟩
  | cons e r ih =>
    intro pre s t' hl hok
    obtain ⟨k, u⟩ := e
    rw [TrieOkL] at hl
    by_cases hk : k = s
    · subst hk
      rw [assocSet, if_pos (beq_self_eq_true k)]
      exact ⟨hok, hl.2⟩
    · rw [assocSet, if_neg (by simpa using hk)]
      exact ⟨hl.1, ih pre s t' hl.2 hok⟩

theorem TrieOk_empty (pre : List String) : TrieOk (.node [] []) pre :=
  ⟨fun p hp => absurd hp (by simp), by simp, trivial⟩

theorem TrieOk_of_lookup {ch : List (String × Trie)} {pre : List String}
    {s : String} {u : Trie} (hl : TrieOkL ch pre) (h : ch.lookup s = some u) :
    TrieOk u (pre ++ [s]) :=
  TrieOkL_mem hl (lookup_mem h)

theorem TrieOk_insert :
    ∀ (path : List String) (t : Trie) (pre : List String) (p : Parser),
    TrieOk t pre → leadingPath p = pre ++ path →
    TrieOk (trieInsert t path p) pre := by
  intro path
  induction path with
  | nil =>
    intro t pre p hok hlp
    obtain ⟨b, ch⟩ := t
    obtain ⟨hb, hnd, hl⟩ := hok
    rw [List.append_nil] at hlp
    refine ⟨?_, hnd, hl⟩
    intro q hq
    rcases List.mem_append.mp hq with hq | hq
    · exact hb q hq
    · rw [List.mem_singleton.mp hq, hlp]
  | cons s ss ih =>
    intro t pre p hok hlp
    obtain ⟨b, ch⟩ := t
    obtain ⟨hb, hnd, hl⟩ := hok
    have hsub : TrieOk ((ch.lookup s).getD (.node [] [])) (pre ++ [s]) := by
      cases hfind : ch.lookup s with
      | some u =>
        rw [Option.getD_some]
        exact TrieOk_of_lookup hl hfind
      | none => exact TrieOk_empty _
    have hins : TrieOk (trieInsert ((ch.lookup s).getD (.node [] [])) ss p)
        (pre ++ [s]) := by
      refine ih _ _ p hsub ?_
      rw [hlp, List.append_assoc]
      rfl
    refine ⟨hb, ?_, TrieOkL_assocSet_ok ch pre s _ hl hins⟩
    by_cases hmem : s ∈ ch.map Prod.fst
    · rw [assocSet_fst_mem ch s _ hmem]
      exact hnd
    · rw [assocSet_fst_not_mem ch s _ hmem]
      simp [List.nodup_append, hnd, hmem]

theorem TrieOk_buildTrie (tags : List (String × Parser)) :
    TrieOk (buildTrie tags) [] := by
  rw [buildTrie]
  have hgen : ∀ (l : List (String × Parser)) (t0 : Trie), TrieOk t0 [] →
      TrieOk (l.foldl (fun t e => trieInsert t (leadingPath e.2) e.2) t0) [] := by
    intro l
    induction l with
    | nil => intro t0 h; exact h
    | cons e r ihr =>
      intro t0 h
      rw [List.foldl_cons]
      exact ihr _ (TrieOk_insert (leadingPath e.2) t0 [] e.2 h (by rfl))
  exact hgen tags _ (TrieOk_empty [])

theorem segsMatch_false :
    ∀ (ss segs : List String) (idx j : Nat) (s : String),
    ss.get? j = some s → quirkySeg segs (idx + j) ≠ s →
    segsMatch segs idx ss = false := by
  intro ss
  induction ss with
  | nil => intro segs idx j s h _; simp at h
  | cons s0 t ih =>
    intro segs idx j s h hne
    cases j with
    | zero =>
      rw [List.get?_cons_zero, Option.some.injEq] at h
      rw [Nat.add_zero] at hne
      rw [segsMatch]
      cases hget : segs.get? idx with
      | none => rfl
      | some s' =>
        have hq : quirkySeg segs idx = s' := by rw [quirkySeg, hget]
        have hb : (s' == s0) = false := by
          apply beq_eq_false_iff_ne.mpr
          intro e
          exact hne (by rw [hq, e, h])
        show (s' == s0 && segsMatch segs (idx + 1) t) = false
        rw [hb, Bool.false_and]
    | succ j' =>
      rw [List.get?_cons_succ] at h
      rw [segsMatch]
      cases hget : segs.get? idx with
      | none => rfl
      | some s' =>
        have hne' : quirkySeg segs (idx + 1 + j') ≠ s := by
          rw [show idx + 1 + j' = idx + (j' + 1) by omega]
          exact hne
        show (s' == s0 && segsMatch segs (idx + 1) t) = false
        rw [ih segs (idx + 1) j' s h hne', Bool.and_false]

theorem ruleStep_no_cands (r : Parser) (fm : Bool) : ruleStep r [] fm = [] := by
  cases r <;> rfl

theorem doParseRules_no_cands :
    ∀ (rules : List Parser) (fm : Bool), doParseRules rules [] fm = [] := by
  intro rules
  induction rules with
  | nil => intro fm; rfl
  | cons r t ih =>
    intro fm
    rw [doParseRules_cons, ruleStep_no_cands]
    exact ih fm

theorem doParseRules_lpGo_fail :
    ∀ (rules : List Parser) (st : ParserState) (fm : Bool) (j : Nat) (s : String),
    (lpGo rules).get? j = some s →
    quirkySeg st.segments (st.idx + j) ≠ s →
    doParseRules rules [(([] : RouteValue), st)] fm = [] := by
  intro rules
  induction rules with
  | nil => intro st fm j s h _; simp [lpGo] at h
  | cons r t ih =>
    intro st fm j s h hne
    cases r with
    | path ss =>
      rw [show lpGo (Parser.path ss :: t) = ss ++ lpGo t from rfl] at h
      rw [doParseRules_cons]
      have hfm1 : ∀ (o : Cand → Option Cand) (c : Cand),
          List.filterMap o [c] = (o c).toList := by
        intro o c
        rw [List.filterMap_cons, List.filterMap_nil]
        cases o c <;> rfl
      rw [show ruleStep (Parser.path ss) [(([] : RouteValue), st)] fm =
        List.filterMap (parsePathC ss) [(([] : RouteValue), st)] from rfl, hfm1]
      by_cases hj : j < ss.length
      · have hss : ss.get? j = some s := by
          rw [← h, List.get?_append hj]
        rw [show parsePathC ss (([] : RouteValue), st) = none from by
          rw [parsePathC, if_neg]
          rw [segsMatch_false ss st.segments st.idx j s hss hne]
          simp]
        exact doParseRules_no_cands t fm
      · push_neg at hj
        cases hsm : segsMatch st.segments st.idx ss with
        | false =>
          rw [show parsePathC ss (([] : RouteValue), st) = none from by
            rw [parsePathC, if_neg]
            rw [hsm]
            simp]
          exact doParseRules_no_cands t fm
        | true =>
          rw [show parsePathC ss (([] : RouteValue), st) =
            some (([] : RouteValue), { st with idx := st.idx + ss.length }) from by
              rw [parsePathC, if_pos (by rw [hsm])]]
          have hrest : (lpGo t).get? (j - ss.length) = some s := by
            rw [← h, List.get?_append_right hj]
          have hne' : quirkySeg ({ st with idx := st.idx + ss.length } :
              ParserState).segments
              (({ st with idx := st.idx + ss.length } : ParserState).idx +
                (j - ss.length)) ≠ s := by
            show quirkySeg st.segments (st.idx + ss.length + (j - ss.length)) ≠ s
            rw [show st.idx + ss.length + (j - ss.length) = st.idx + j from by omega]
            exact hne
          exact ih _ fm (j - ss.length) s hrest hne'
    | params ps => simp [show lpGo (Parser.params ps :: t) = [] from rfl] at h
    | segment k ad => simp [show lpGo (Parser.segment k ad :: t) = [] from rfl] at h
    | extra pl => simp [show lpGo (Parser.extra pl :: t) = [] from rfl] at h
    | embed k p => simp [show lpGo (Parser.embed k p :: t) = [] from rfl] at h
    | oneOf tags => simp [show lpGo (Parser.oneOf tags :: t) = [] from rfl] at h
    | merge a b => simp [show lpGo (Parser.merge a b :: t) = [] from rfl] at h

/-- Failure of an alternative whose leading literal path mismatches the
input at the cursor: the parse yields no candidate at all. -/
theorem doParseP_leadingPath_fail {q : Parser} {st : ParserState} {fm : Bool}
    {j : Nat} {s : String} (h : (leadingPath q).get? j = some s)
    (hne : quirkySeg st.segments (st.idx + j) ≠ s) :
    doParseP q st fm = [] :=
  doParseRules_lpGo_fail (flatten q) st fm j s h hne

theorem lookup_split {α β : Type} [BEq α] [LawfulBEq α] :
    ∀ {l : List (α × β)} {k : α} {v : β}, l.lookup k = some v →
    ∃ l₁ l₂, l = l₁ ++ (k, v) :: l₂ ∧ k ∉ l₁.map Prod.fst := by
  intro l
  induction l with
  | nil => intro k v h; simp [List.lookup] at h
  | cons e t ih =>
    intro k v h
    obtain ⟨k', v'⟩ := e
    by_cases hk : k = k'
    · subst hk
      have : ((k, v') :: t).lookup k = some v' := by simp [List.lookup]
      rw [this, Option.some.injEq] at h
      subst h
      exact ⟨[], t, rfl, by simp⟩
    · have : ((k', v') :: t).lookup k = t.lookup k := by
        simp [List.lookup, beq_eq_false_iff_ne.mpr hk]
      rw [this] at h
      obtain ⟨l₁, l₂, hsplit, hmem⟩ := ih h
      exact ⟨(k', v') :: l₁, l₂, by rw [List.cons_append, hsplit], by
        rw [List.map_cons, List.mem_cons]
        push_neg
        exact ⟨fun e => hk e, hmem⟩⟩

theorem lookup_ne_none_of_mem {α β : Type} [BEq α] [LawfulBEq α] :
    ∀ {l : List (α × β)} {k : α} {v : β}, (k, v) ∈ l → l.lookup k ≠ none := by
  intro l
  induction l with
  | nil => intro k v h; simp at h
  | cons e t ih =>
    intro k v h
    obtain ⟨k', v'⟩ := e
    by_cases hk : k = k'
    · subst hk
      simp [List.lookup]
    · have he : ((k', v') :: t).lookup k = t.lookup k := by
        simp [List.lookup, beq_eq_false_iff_ne.mpr hk]
      rw [he]
      rcases List.mem_cons.mp h with h | h
      · rw [Prod.mk.injEq] at h
        exact absurd h.1 hk
      · exact ih h

theorem get?_append_self {α : Type} (pre l : List α) :
    (pre ++ l).get? pre.length = l.get? 0 := by
  rw [List.get?_append_right (le_refl pre.length), Nat.sub_self]

/-- The descent/collect split: every parser of the trie is either in a
visited bucket (collected deepest-first) or in an unvisited subtree, and
every parser of an unvisited subtree has a leading-path segment that
mismatches the input at the cursor. -/
theorem descend_split (segs : List String) (idx0 : Nat) :
    ∀ (n : Nat) (t : Trie) (pre : List String),
    trieHeight t ≤ n → TrieOk t pre →
    (∀ j s, pre.get? j = some s → quirkySeg segs (idx0 + j) = s) →
    ∃ U, (trieAll t).Perm
        (((descendF n t segs (idx0 + pre.length)).reverse.flatMap trieBucket) ++ U) ∧
      ∀ q ∈ U, ∃ j s, (leadingPath q).get? j = some s ∧
        quirkySeg segs (idx0 + j) ≠ s := by
  intro n
  induction n using Nat.strong_induction_on with
  | _ n ihn =>
    intro t pre hh hok hpre
    obtain ⟨b, ch⟩ := t
    have hh1 : trieHeight (Trie.node b ch) = trieHeightL ch + 1 := rfl
    obtain ⟨n', rfl⟩ : ∃ n', n = n' + 1 := ⟨n - 1, by rw [hh1] at hh; omega⟩
    obtain ⟨hb, hnd, hl⟩ := hok
    have hfail_child : ∀ (s₂ : String) (t₂ : Trie) (q : Parser),
        (s₂, t₂) ∈ ch → q ∈ trieAll t₂ →
        quirkySeg segs (idx0 + pre.length) ≠ s₂ →
        ∃ j s, (leadingPath q).get? j = some s ∧
          quirkySeg segs (idx0 + j) ≠ s := by
      intro s₂ t₂ q hmem hq hne
      obtain ⟨rel, hrel⟩ := leadingPath_of_mem (trieHeight t₂) t₂ (pre ++ [s₂]) q
        (le_refl _) (TrieOkL_mem hl hmem) hq
      refine ⟨pre.length, s₂, ?_, hne⟩
      rw [hrel, List.append_assoc, get?_append_self]
      rfl
    cases hlook : ch.lookup (quirkySeg segs (idx0 + pre.length)) with
    | none =>
      refine ⟨trieAllL ch, ?_, ?_⟩
      · rw [show descendF (n' + 1) (Trie.node b ch) segs (idx0 + pre.length) =
          [Trie.node b ch] from by
            rw [descendF]
            rw [show trieKids (Trie.node b ch) = ch from rfl, hlook]]
        rw [show ([Trie.node b ch].reverse.flatMap trieBucket) = b from by
          rw [List.reverse_singleton, List.flatMap_cons, List.flatMap_nil,
            List.append_nil]
          rfl]
        exact List.Perm.refl _
      · intro q hq
        obtain ⟨s₂, t₂, hmem, hq'⟩ := mem_trieAllL hq
        refine hfail_child s₂ t₂ q hmem hq' ?_
        intro he
        exact lookup_ne_none_of_mem (he ▸ hmem) hlook
    | some t' =>
      have hmem' : (quirkySeg segs (idx0 + pre.length), t') ∈ ch := lookup_mem hlook
      have hok' : TrieOk t' (pre ++ [quirkySeg segs (idx0 + pre.length)]) :=
        TrieOk_of_lookup hl hlook
      have hh' : trieHeight t' ≤ n' := by
        have := trieHeight_mem hmem'
        rw [hh1] at hh
        omega
      have hpre' : ∀ j s,
          (pre ++ [quirkySeg segs (idx0 + pre.length)]).get? j = some s →
          quirkySeg segs (idx0 + j) = s := by
        intro j s hj
        by_cases hjl : j < pre.length
        · exact hpre j s (by rw [← hj, List.get?_append hjl])
        · push_neg at hjl
          rw [List.get?_append_right hjl] at hj
          have hj0 : j - pre.length = 0 := by
            by_contra hne0
            rw [show j - pre.length = (j - pre.length - 1) + 1 from by omega] at hj
            simp at hj
          rw [hj0] at hj
          rw [List.get?_cons_zero, Option.some.injEq] at hj
          rw [show j = pre.length from by omega, hj]
      obtain ⟨U', hperm', hfail'⟩ := ihn n' (by omega) t'
        (pre ++ [quirkySeg segs (idx0 + pre.length)]) hh' hok' hpre'
      rw [List.length_append, List.length_singleton, ← Nat.add_assoc] at hperm'
      obtain ⟨ch₁, ch₂, hsplit, hnot₁⟩ := lookup_split hlook
      have hnot₂ : quirkySeg segs (idx0 + pre.length) ∉ ch₂.map Prod.fst := by
        intro hin
        rw [hsplit, List.map_append, List.map_cons] at hnd
        have := List.Nodup.of_append_right hnd
        rw [List.nodup_cons] at this
        exact this.1 hin
      refine ⟨U' ++ (trieAllL ch₁ ++ trieAllL ch₂), ?_, ?_⟩
      · rw [show descendF (n' + 1) (Trie.node b ch) segs (idx0 + pre.length) =
          Trie.node b ch ::
            descendF n' t' segs (idx0 + pre.length + 1) from by
            rw [descendF]
            rw [show trieKids (Trie.node b ch) = ch from rfl, hlook]]
        rw [List.reverse_cons, List.flatMap_append, List.flatMap_cons,
          List.flatMap_nil, List.append_nil,
          show trieBucket (Trie.node b ch) = b from rfl]
        rw [show trieAll (Trie.node b ch) = b ++ trieAllL ch from rfl]
        rw [hsplit, trieAllL_append,
          show trieAllL ((quirkySeg segs (idx0 + pre.length), t') :: ch₂) =
            trieAll t' ++ trieAllL ch₂ from rfl]
        have step1 : (b ++ (trieAllL ch₁ ++ (trieAll t' ++ trieAllL ch₂))).Perm
            (b ++ (trieAllL ch₁ ++
              (((descendF n' t' segs (idx0 + pre.length + 1)).reverse.flatMap
                trieBucket ++ U') ++ trieAllL ch₂))) :=
          List.Perm.append_left b (List.Perm.append_left (trieAllL ch₁)
            ((List.perm_append_right_iff _).mpr hperm'))
        refine step1.trans ?_
        apply permOfMs
        simp only [← Multiset.coe_add]
        abel
      · intro q hq
        rcases List.mem_append.mp hq with hq | hq
        · exact hfail' q hq
        · rcases List.mem_append.mp hq with hq | hq
          · obtain ⟨s₂, t₂, hmem, hq'⟩ := mem_trieAllL hq
            have hmem2 : (s₂, t₂) ∈ ch := by
              rw [hsplit]
              exact List.mem_append_left _ hmem
            refine hfail_child s₂ t₂ q hmem2 hq' ?_
            intro he
            exact hnot₁ (he ▸ (List.mem_map_of_mem Prod.fst hmem))
          · obtain ⟨s₂, t₂, hmem, hq'⟩ := mem_trieAllL hq
            have hmem2 : (s₂, t₂) ∈ ch := by
              rw [hsplit]
              exact List.mem_append_right _ (List.mem_cons_of_mem _ hmem)
            refine hfail_child s₂ t₂ q hmem2 hq' ?_
            intro he
            exact hnot₂ (he ▸ (List.mem_map_of_mem Prod.fst hmem))

theorem flatMap_nil_of_all {α β : Type} :
    ∀ (l : List α) (f : α → List β), (∀ x ∈ l, f x = []) → l.flatMap f = [] := by
  intro l f
  induction l with
  | nil => intro _; rfl
  | cons a t ih =>
    intro h
    rw [List.flatMap_cons, h a (List.mem_cons_self a t), List.nil_append]
    exact ih (fun x hx => h x (List.mem_cons_of_mem a hx))

/-- C4: the prefix-trie dispatch of a `OneOf` group is a pure
optimization — the candidate parses collected by descending the trie and
attempting the rule sequences of the visited buckets are a permutation
of (the same multiset as, merely reordered from) the candidates obtained
by attempting every tagged alternative linearly in tag-map order. -/
theorem claim_C4 (tags : List (String × Parser)) (st : ParserState) :
    (oneOfCandidates tags st).Perm (oneOfLinearCands tags st) := by
  have hgen : ∀ (l : List (String × Parser)),
      (l.flatMap fun e => doParseP e.2 st false) =
        (l.map Prod.snd).flatMap (fun q => doParseP q st false) := by
    intro l
    induction l with
    | nil => rfl
    | cons e t ih =>
      rw [List.flatMap_cons, List.map_cons, List.flatMap_cons, ih]
  obtain ⟨U, hperm, hfail⟩ := descend_split st.segments st.idx
    (trieHeight (buildTrie tags)) (buildTrie tags) [] (le_refl _)
    (TrieOk_buildTrie tags) (fun j s hj => absurd hj (by simp))
  rw [show ([] : List String).length = 0 from rfl, Nat.add_zero] at hperm
  have hcollect : oneOfCandidates tags st =
      ((descendF (trieHeight (buildTrie tags)) (buildTrie tags)
        st.segments st.idx).reverse.flatMap trieBucket).flatMap
        (fun q => doParseP q st false) := rfl
  have hlin : oneOfLinearCands tags st =
      (tags.map Prod.snd).flatMap (fun q => doParseP q st false) := by
    rw [oneOfLinearCands]
    exact hgen tags
  have h1 : (tags.map Prod.snd).Perm
      (((descendF (trieHeight (buildTrie tags)) (buildTrie tags)
        st.segments st.idx).reverse.flatMap trieBucket) ++ U) :=
    (trieAll_buildTrie_perm tags).symm.trans hperm
  have h2 := List.Perm.flatMap_right (fun q => doParseP q st false) h1
  rw [List.flatMap_append] at h2
  rw [flatMap_nil_of_all U _ (fun q hq => by
    obtain ⟨j, s, hjs, hne⟩ := hfail q hq
    exact doParseP_leadingPath_fail hjs hne), List.append_nil] at h2
  rw [hcollect, hlin]
  exact h2.symm

/-! Lemmas for the round-trip analysis (claim C1). -/

theorem mem_joinSep (sep : Char) :
    ∀ (ls : List (List Char)) (c : Char), c ∈ joinSep sep ls →
    c = sep ∨ ∃ x ∈ ls, c ∈ x := by
  intro ls
  induction ls with
  | nil => intro c h; exact absurd h (by rw [joinSep]; simp)
  | cons x t ih =>
    intro c h
    cases t with
    | nil =>
      rw [show joinSep sep [x] = x from rfl] at h
      exact Or.inr ⟨x, by simp, h⟩
    | cons y t' =>
      rw [show joinSep sep (x :: y :: t') = x ++ sep :: joinSep sep (y :: t')
        from rfl] at h
      rcases List.mem_append.mp h with h | h
      · exact Or.inr ⟨x, by simp, h⟩
      · rcases List.mem_cons.mp h with h | h
        · exact Or.inl h
        · rcases ih c h with h | ⟨z, hz, hc⟩
          · exact Or.inl h
          · exact Or.inr ⟨z, List.mem_cons_of_mem x hz, hc⟩

theorem joinSep_ne_nil (sep : Char) :
    ∀ {ls : List (List Char)}, ls ≠ [] → (∀ x ∈ ls, x ≠ []) →
    joinSep sep ls ≠ [] := by
  intro ls
  induction ls with
  | nil => intro h _; exact absurd rfl h
  | cons x t _ =>
    intro _ hx
    cases t with
    | nil => exact hx x (by simp)
    | cons y t' =>
      rw [show joinSep sep (x :: y :: t') = x ++ sep :: joinSep sep (y :: t')
        from rfl]
      intro he
      rw [List.append_eq_nil] at he
      exact absurd he.2 (by simp)

theorem sepChar_not_mem_encL {c0 : Char} (l : List Char)
    (h1 : keepChar c0 = false) (h2 : c0 ∉ hexDigitsL) (h3 : c0 ≠ '%') :
    c0 ∉ encL l := not_mem_encL c0 l h1 h2 h3

theorem decodeE_encL (l : List Char) : decodeE (encL l) = .ok l.asString := by
  rw [decodeE, percDecode_encL]

theorem pairChunk_ne_nil {kv : String × String} (h : kv.1 ≠ "") :
    pairChunk kv ≠ [] := by
  rw [pairChunk]
  intro he
  rw [List.append_eq_nil] at he
  refine absurd he.1 (encL_ne_nil ?_)
  intro ht
  exact h (String.ext (by simpa using ht))

theorem not_mem_pairChunk {c0 : Char} {kv : String × String}
    (h1 : keepChar c0 = false) (h2 : c0 ∉ hexDigitsL) (h3 : c0 ≠ '%')
    (h4 : c0 ≠ '=') : c0 ∉ pairChunk kv := by
  rw [pairChunk]
  intro hm
  rcases List.mem_append.mp hm with hm | hm
  · exact not_mem_encL c0 _ h1 h2 h3 hm
  · by_cases hv : kv.2 ≠ ""
    · rw [if_pos hv] at hm
      rcases List.mem_cons.mp hm with hm | hm
      · exact h4 hm
      · exact not_mem_encL c0 _ h1 h2 h3 hm
    · rw [if_neg hv] at hm
      simp at hm

theorem assocSet_append_of_not_mem {α β : Type} [BEq α] [LawfulBEq α] :
    ∀ {l : List (α × β)} {k : α} {v : β}, k ∉ l.map Prod.fst →
    assocSet l k v = l ++ [(k, v)] := by
  intro l
  induction l with
  | nil => intro k v _; rfl
  | cons e t ih =>
    intro k v h
    obtain ⟨k', v'⟩ := e
    rw [List.map_cons, List.mem_cons] at h
    push_neg at h
    rw [assocSet, if_neg (by simpa using (fun e => h.1 e.symm : ¬k' = k)),
      ih h.2, List.cons_append]

theorem assocSet_foldl_nodup :
    ∀ (Q acc : List (String × String)),
    (∀ kv ∈ Q, kv.1 ∉ acc.map Prod.fst) → (Q.map Prod.fst).Nodup →
    Q.foldl (fun acc kv => assocSet acc kv.1 kv.2) acc = acc ++ Q := by
  intro Q
  induction Q with
  | nil => intro acc _ _; rw [List.foldl_nil, List.append_nil]
  | cons e t ih =>
    intro acc hmem hnd
    obtain ⟨k, v⟩ := e
    rw [List.foldl_cons,
      assocSet_append_of_not_mem (hmem (k, v) (List.mem_cons_self _ _))]
    rw [List.map_cons, List.nodup_cons] at hnd
    rw [ih (acc ++ [(k, v)]) ?_ hnd.2]
    · rw [List.append_assoc]
      rfl
    · intro kv hkv
      rw [List.map_append, List.mem_append]
      push_neg
      refine ⟨hmem kv (List.mem_cons_of_mem _ hkv), ?_⟩
      rw [List.map_singleton, List.mem_singleton]
      intro he
      exact hnd.1 (he ▸ List.mem_map_of_mem Prod.fst hkv)

theorem asString_toList (s : String) : s.toList.asString = s := rfl

theorem toList_ne_nil {s : String} (h : s ≠ "") : s.toList ≠ [] := by
  intro ht
  exact h (String.ext (by simpa using ht))

theorem pairStep (k v : String) (acc : List (String × String)) (hk : k ≠ "") :
    ((splitOnC '=' (pairChunk (k, v))).mapM decodeE >>= fun pieces =>
      (pure (assocSet acc (pieces.headD "") ((pieces.get? 1).getD "")) :
        Except Unit (List (String × String)))) =
    Except.ok (assocSet acc k v) := by
  by_cases hv : v ≠ ""
  · have hch : pairChunk (k, v) = encL k.toList ++ '=' :: encL v.toList := by
      rw [pairChunk, if_pos hv]
    have hsp : splitOnC '=' (pairChunk (k, v)) = [encL k.toList, encL v.toList] := by
      rw [hch, splitOnC_append_sep '=' _ _
        (not_mem_encL '=' k.toList (by decide) (by decide) (by decide)),
        splitOnC_no_sep '=' _
        (not_mem_encL '=' v.toList (by decide) (by decide) (by decide))]
    rw [hsp, List.mapM_cons, List.mapM_cons, List.mapM_nil,
      decodeE_encL, decodeE_encL, asString_toList, asString_toList]
    rfl
  · push_neg at hv
    subst hv
    have hch : pairChunk (k, "") = encL k.toList := by
      rw [pairChunk, if_neg (by simp), List.append_nil]
    have hsp : splitOnC '=' (pairChunk (k, "")) = [encL k.toList] := by
      rw [hch, splitOnC_no_sep '=' _
        (not_mem_encL '=' k.toList (by decide) (by decide) (by decide))]
    rw [hsp, List.mapM_cons, List.mapM_nil, decodeE_encL, asString_toList]
    rfl

theorem foldPairs :
    ∀ (Q acc : List (String × String)), (∀ kv ∈ Q, kv.1 ≠ "") →
    ((Q.map pairChunk).foldlM (fun acc pair =>
      (splitOnC '=' pair).mapM decodeE >>= fun pieces =>
        pure (assocSet acc (pieces.headD "") ((pieces.get? 1).getD ""))) acc :
      Except Unit (List (String × String))) =
    Except.ok (Q.foldl (fun acc kv => assocSet acc kv.1 kv.2) acc) := by
  intro Q
  induction Q with
  | nil => intro acc _; rfl
  | cons e t ih =>
    intro acc h
    obtain ⟨k, v⟩ := e
    rw [List.map_cons, List.foldlM_cons,
      pairStep k v acc (h (k, v) (List.mem_cons_self _ _))]
    rw [show ∀ (x : List (String × String)) (f : List (String × String) →
        Except Unit (List (String × String))), (Except.ok x >>= f) = f x
      from fun _ _ => rfl]
    rw [ih _ (fun kv hkv => h kv (List.mem_cons_of_mem _ hkv))]
    rw [List.foldl_cons]

theorem mapM_decodeE_encL :
    ∀ (S : List String),
    ((S.map (fun s => encL s.toList)).mapM decodeE : Except Unit (List String)) =
      Except.ok S := by
  intro S
  induction S with
  | nil => rfl
  | cons s t ih =>
    rw [List.map_cons, List.mapM_cons, decodeE_encL, asString_toList, ih]
    rfl

/-- Disassembling the url assembled from nonempty decoded segments and a
nodup-keyed query dictionary recovers them exactly. -/
theorem urlRoundtrip (S : List String) (Q : List (String × String))
    (hS : ∀ s ∈ S, s ≠ "")
    (hQk : (Q.map Prod.fst).Nodup)
    (hQne : ∀ kv ∈ Q, kv.1 ≠ "") :
    prepareStateE (assembleChunks (S, Q)) = .ok ⟨S, Q, 0⟩ := by
  have hencS : ∀ x ∈ S.map (fun s => encL s.toList), ('/' : Char) ∉ x := by
    intro x hx
    obtain ⟨s, -, rfl⟩ := List.mem_map.mp hx
    exact not_mem_encL '/' s.toList (by decide) (by decide) (by decide)
  have hpath : ∀ c ∈ joinSep '/' (S.map (fun s => encL s.toList)),
      c = '/' ∨ ∃ x ∈ S.map (fun s => encL s.toList), c ∈ x :=
    fun c hc => mem_joinSep '/' _ c hc
  have hqmpath : ('?' : Char) ∉ joinSep '/' (S.map (fun s => encL s.toList)) := by
    intro hc
    rcases hpath '?' hc with h | ⟨x, hx, hcx⟩
    · exact absurd h (by decide)
    · obtain ⟨s, -, rfl⟩ := List.mem_map.mp hx
      exact not_mem_encL '?' s.toList (by decide) (by decide) (by decide) hcx
  have hqmquery : ('?' : Char) ∉ joinSep '&' (Q.map pairChunk) := by
    intro hc
    rcases mem_joinSep '&' _ '?' hc with h | ⟨x, hx, hcx⟩
    · exact absurd h (by decide)
    · obtain ⟨kv, -, rfl⟩ := List.mem_map.mp hx
      exact not_mem_pairChunk (by decide) (by decide) (by decide) (by decide) hcx
  have hsegs : ((((splitOnC '/'
      (joinSep '/' (S.map (fun s => encL s.toList)))).filter
        (· ≠ [])).mapM decodeE) : Except Unit (List String)) = Except.ok S := by
    cases hSnil : S with
    | nil => rfl
    | cons s0 t0 =>
      rw [← hSnil]
      have hSne : S.map (fun s => encL s.toList) ≠ [] := by
        rw [hSnil]
        simp
      rw [splitOnC_joinSep '/' _ hSne hencS]
      rw [List.filter_eq_self.mpr (fun x hx => by
        obtain ⟨s, hs, rfl⟩ := List.mem_map.mp hx
        simpa using encL_ne_nil (toList_ne_nil (hS s hs)))]
      exact mapM_decodeE_encL S
  have hfold : (((Q.map pairChunk).foldlM (fun acc pair =>
      (splitOnC '=' pair).mapM decodeE >>= fun pieces =>
        pure (assocSet acc (pieces.headD "") ((pieces.get? 1).getD ""))) [] :
      Except Unit (List (String × String)))) = Except.ok Q := by
    rw [foldPairs Q [] hQne, assocSet_foldl_nodup Q [] (by simp) hQk,
      List.nil_append]
  by_cases hq : Q = []
  · subst hq
    have hurl : assembleChunks (S, ([] : List (String × String))) =
        (joinSep '/' (S.map (fun s => encL s.toList))).asString := by
      rw [assembleChunks]
      simp only [List.map_nil]
      rw [show joinSep '&' ([] : List (List Char)) = [] from rfl]
      simp
    rw [hurl, prepareStateE]
    rw [show ((joinSep '/' (S.map (fun s => encL s.toList))).asString).toList =
      joinSep '/' (S.map (fun s => encL s.toList)) from rfl]
    rw [splitOnC_no_sep '?' _ hqmpath]
    show ((((splitOnC '/'
        (joinSep '/' (S.map (fun s => encL s.toList)))).filter
          (· ≠ [])).mapM decodeE) >>= fun segs =>
      ((((splitOnC '&' ([] : List Char)).filter (· ≠ [])).foldlM (fun acc pair =>
        (splitOnC '=' pair).mapM decodeE >>= fun pieces =>
          pure (assocSet acc (pieces.headD "") ((pieces.get? 1).getD ""))) []) :
        Except Unit (List (String × String))) >>= fun params =>
      pure (ParserState.mk segs params 0)) = _
    rw [hsegs]
    rfl
  · have hmapne : Q.map pairChunk ≠ [] := by
      intro he
      rw [List.map_eq_nil] at he
      exact hq he
    have hqne : joinSep '&' (Q.map pairChunk) ≠ [] :=
      joinSep_ne_nil '&' hmapne (fun x hx => by
        obtain ⟨kv, hkv, rfl⟩ := List.mem_map.mp hx
        exact pairChunk_ne_nil (hQne kv hkv))
    have hampC : ∀ x ∈ Q.map pairChunk, ('&' : Char) ∉ x := by
      intro x hx
      obtain ⟨kv, -, rfl⟩ := List.mem_map.mp hx
      exact not_mem_pairChunk (by decide) (by decide) (by decide) (by decide)
    show prepareStateE ((joinSep '/' (S.map (fun s => encL s.toList)) ++
      (if joinSep '&' (Q.map pairChunk) ≠ []
        then '?' :: joinSep '&' (Q.map pairChunk) else [])).asString) = _
    rw [if_pos hqne, prepareStateE]
    rw [show ((joinSep '/' (S.map (fun s => encL s.toList)) ++
      '?' :: joinSep '&' (Q.map pairChunk)).asString).toList =
      joinSep '/' (S.map (fun s => encL s.toList)) ++
        '?' :: joinSep '&' (Q.map pairChunk) from rfl]
    rw [splitOnC_append_sep '?' _ _ hqmpath, splitOnC_no_sep '?' _ hqmquery]
    show ((((splitOnC '/'
        (joinSep '/' (S.map (fun s => encL s.toList)))).filter
          (· ≠ [])).mapM decodeE) >>= fun segs =>
      ((((splitOnC '&' (joinSep '&' (Q.map pairChunk))).filter
          (· ≠ [])).foldlM (fun acc pair =>
        (splitOnC '=' pair).mapM decodeE >>= fun pieces =>
          pure (assocSet acc (pieces.headD "") ((pieces.get? 1).getD ""))) []) :
        Except Unit (List (String × String))) >>= fun params =>
      pure (ParserState.mk segs params 0)) = _
    rw [hsegs, splitOnC_joinSep '&' _ hmapne hampC,
      List.filter_eq_self.mpr (fun x hx => by
        obtain ⟨kv, hkv, rfl⟩ := List.mem_map.mp hx
        simpa using pairChunk_ne_nil (hQne kv hkv)),
      hfold]
    rfl

theorem filterMap_singleton {α β : Type} (f : α → Option β) (a : α) :
    List.filterMap f [a] = (f a).toList := by
  rw [List.filterMap_cons, List.filterMap_nil]
  cases f a <;> rfl

theorem get?_of_drop {α : Type} {l : List α} {idx : Nat} {a : α} {r : List α}
    (h : l.drop idx = a :: r) : l.get? idx = some a := by
  have h0 := List.get?_drop l idx 0
  rw [h, Nat.add_zero] at h0
  rw [← h0]
  rfl

theorem drop_succ_of_drop {α : Type} {l : List α} {idx : Nat} {a : α} {r : List α}
    (h : l.drop idx = a :: r) : l.drop (idx + 1) = r := by
  rw [← List.drop_drop 1 idx l, h]
  rfl

theorem drop_add_of_drop {α : Type} {l : List α} {idx : Nat} {pre r : List α}
    (h : l.drop idx = pre ++ r) : l.drop (idx + pre.length) = r := by
  rw [← List.drop_drop pre.length idx l, h, List.drop_left]

theorem segsMatch_of_drop :
    ∀ (ss : List String) (segsAll : List String) (idx : Nat) (rest : List String),
    segsAll.drop idx = ss ++ rest → segsMatch segsAll idx ss = true := by
  intro ss
  induction ss with
  | nil => intro _ _ _ _; rfl
  | cons s0 t ih =>
    intro segsAll idx rest h
    rw [List.cons_append] at h
    rw [segsMatch, get?_of_drop h]
    show (s0 == s0 && segsMatch segsAll (idx + 1) t) = true
    rw [beq_self_eq_true s0, Bool.true_and]
    exact ih segsAll (idx + 1) rest (drop_succ_of_drop h)

theorem params_core (qm : List (String × String)) (v : RouteValue) :
    ∀ (ps : List (String × Adapter)) (acc : RouteValue),
    ps.all (fun kv => paramOk qm v kv.1 kv.2) = true →
    parseParamsGo qm ps acc = some (paramsExtend ps v acc) := by
  intro ps
  induction ps with
  | nil => intro acc _; rfl
  | cons e t ih =>
    intro acc h
    obtain ⟨key, ad⟩ := e
    rw [List.all_cons, Bool.and_eq_true] at h
    obtain ⟨hp, ht⟩ := h
    dsimp only at hp
    rw [paramOk] at hp
    rw [parseParamsGo]
    rw [show paramsExtend ((key, ad) :: t) v acc =
      paramsExtend t v (match v.lookup key, getDefaultValue ad with
        | some x, _ => assocSet acc key x
        | none, some d => assocSet acc key d
        | none, none => acc) from rfl]
    cases hv : v.lookup key with
    | none =>
      cases hd : getDefaultValue ad with
      | none =>
        rw [hv, hd] at hp
        exact absurd hp (by simp)
      | some d =>
        rw [hv, hd] at hp
        rw [Bool.and_eq_true, beq_iff_eq, beq_iff_eq] at hp
        rw [hp.1, hp.2]
        show parseParamsGo qm t (assocSet acc key d) =
          some (paramsExtend t v (assocSet acc key d))
        exact ih _ ht
    | some x =>
      cases hd : getDefaultValue ad with
      | none =>
        rw [hv, hd] at hp
        dsimp only at hp
        cases hu : ad.unapplyOption x with
        | none =>
          rw [hu] at hp
          exact absurd hp (by simp)
        | some u =>
          rw [hu, Bool.and_eq_true, beq_iff_eq, beq_iff_eq] at hp
          rw [hp.1, hp.2]
          show parseParamsGo qm t (assocSet acc key x) =
            some (paramsExtend t v (assocSet acc key x))
          exact ih _ ht
      | some d =>
        rw [hv, hd] at hp
        dsimp only at hp
        by_cases hbeq : Value.beq x d = true
        · rw [if_pos hbeq, Bool.and_eq_true, beq_iff_eq, beq_iff_eq] at hp
          rw [hp.1, hp.2]
          show parseParamsGo qm t (assocSet acc key x) =
            some (paramsExtend t v (assocSet acc key x))
          exact ih _ ht
        · rw [if_neg hbeq] at hp
          cases hu : ad.unapplyOption x with
          | none =>
            rw [hu] at hp
            exact absurd hp (by simp)
          | some u =>
            rw [hu, Bool.and_eq_true, beq_iff_eq, beq_iff_eq] at hp
            rw [hp.1, hp.2]
            show parseParamsGo qm t (assocSet acc key x) =
              some (paramsExtend t v (assocSet acc key x))
            exact ih _ ht

theorem doPrintF_succ_oneOf (j : Nat) (tags : List (String × Parser))
    (v : RouteValue) :
    doPrintF (j + 1) (.oneOf tags) v =
      (match v.lookup "tag" with
        | some (.vStr t) =>
          match tags.lookup t with
          | some p' => doPrintF j p' v
          | none => none
        | _ => none) := rfl

theorem doPrintF_succ_embed (j : Nat) (k : String) (p' : Parser)
    (v : RouteValue) :
    doPrintF (j + 1) (.embed k p') v =
      (match v.lookup k with
        | some (.vObj r) => doPrintF j p' r
        | _ => none) := rfl

theorem doPrintF_succ_merge (j : Nat) (a b : Parser) (v : RouteValue) :
    doPrintF (j + 1) (.merge a b) v =
      (match doPrintF j a v, doPrintF j b v with
        | some (s1, q1), some (s2, q2) => some (s1 ++ s2, assocAssign q1 q2)
        | _, _ => none) := rfl

theorem doPrintF_sat2 :
    ∀ (c n m : Nat) (p : Parser) (v : RouteValue), n + m ≤ c →
    sz p ≤ n → sz p ≤ m → doPrintF n p v = doPrintF m p v := by
  intro c
  induction c using Nat.strong_induction_on with
  | _ c ih =>
    intro n m p v hc hn hm
    have h1 := sz_pos p
    obtain ⟨n', rfl⟩ : ∃ n', n = n' + 1 := ⟨n - 1, by omega⟩
    obtain ⟨m', rfl⟩ : ∃ m', m = m' + 1 := ⟨m - 1, by omega⟩
    cases p with
    | params ps => rfl
    | segment k2 ad => rfl
    | path ss => rfl
    | extra pl => rfl
    | oneOf tags =>
      rw [doPrintF_succ_oneOf, doPrintF_succ_oneOf]
      cases hv : v.lookup "tag" with
      | none => rfl
      | some w =>
        cases w with
        | vStr t =>
          show (match tags.lookup t with
            | some p' => doPrintF n' p' v
            | none => none) = (match tags.lookup t with
            | some p' => doPrintF m' p' v
            | none => none)
          cases hlook : tags.lookup t with
          | none => rfl
          | some p' =>
            have hsz : sz p' ≤ szT tags :=
              sz_mem_tags (List.mem_map_of_mem Prod.snd (lookup_mem hlook))
            have hsz2 : sz (Parser.oneOf tags) = szT tags + 1 := rfl
            rw [hsz2] at hn hm
            exact ih (n' + m') (by omega) n' m' p' v (by omega)
              (by omega) (by omega)
        | vInt i => rfl
        | vBool b => rfl
        | vList l => rfl
        | vObj o => rfl
    | embed k2 p' =>
      rw [doPrintF_succ_embed, doPrintF_succ_embed]
      cases hv : v.lookup k2 with
      | none => rfl
      | some w =>
        cases w with
        | vObj r =>
          have hsz2 : sz (Parser.embed k2 p') = sz p' + 1 := rfl
          rw [hsz2] at hn hm
          exact ih (n' + m') (by omega) n' m' p' r (by omega)
            (by omega) (by omega)
        | vStr s => rfl
        | vInt i => rfl
        | vBool b => rfl
        | vList l => rfl
    | merge a b =>
      rw [doPrintF_succ_merge, doPrintF_succ_merge]
      have hsz2 : sz (Parser.merge a b) = sz a + sz b + 1 := rfl
      rw [hsz2] at hn hm
      rw [ih (n' + m') (by omega) n' m' a v (by omega) (by omega) (by omega),
        ih (n' + m') (by omega) n' m' b v (by omega) (by omega) (by omega)]

theorem doPrintF_sat {n : Nat} {p : Parser} {v : RouteValue}
    (h : sz p ≤ n) : doPrintF n p v = doPrintP p v :=
  doPrintF_sat2 (n + sz p) n (sz p) p v (by omega) h (by omega)

theorem doPrintP_merge (a b : Parser) (v : RouteValue) :
    doPrintP (.merge a b) v =
      (match doPrintP a v, doPrintP b v with
        | some (s1, q1), some (s2, q2) => some (s1 ++ s2, assocAssign q1 q2)
        | _, _ => none) := by
  have h1 := sz_pos a
  have hsz2 : sz (Parser.merge a b) = sz a + sz b + 1 := rfl
  rw [doPrintP]
  obtain ⟨j, hj⟩ : ∃ j, sz (Parser.merge a b) = j + 1 :=
    ⟨sz (Parser.merge a b) - 1, by omega⟩
  rw [hj, doPrintF_succ_merge, @doPrintF_sat j a v (by omega),
    @doPrintF_sat j b v (by omega)]

theorem doPrintL_append (v : RouteValue) :
    ∀ (l₁ l₂ : List Parser),
    doPrintL v (l₁ ++ l₂) =
      (match doPrintL v l₁, doPrintL v l₂ with
        | some (s1, q1), some (s2, q2) => some (s1 ++ s2, q1 ++ q2)
        | _, _ => none) := by
  intro l₁
  induction l₁ with
  | nil =>
    intro l₂
    rw [List.nil_append, show doPrintL v [] = some ([], []) from rfl]
    cases h2 : doPrintL v l₂ with
    | none => rfl
    | some pr =>
      obtain ⟨s2, q2⟩ := pr
      rfl
  | cons r t ih =>
    intro l₂
    rw [List.cons_append, doPrintL, doPrintL, ih]
    cases h0 : printRule v r with
    | none => rfl
    | some pr0 =>
      obtain ⟨s0, q0⟩ := pr0
      cases h1 : doPrintL v t with
      | none => rfl
      | some pr1 =>
        obtain ⟨s1, q1⟩ := pr1
        cases h2 : doPrintL v l₂ with
        | none => rfl
        | some pr2 =>
          obtain ⟨s2, q2⟩ := pr2
          dsimp only
          rw [List.append_assoc, List.append_assoc]

theorem detTree_flatten : ∀ (p : Parser), detTree p = detOnly (flatten p)
  | .merge a b => by
    rw [show detTree (Parser.merge a b) = (detTree a && detTree b) from rfl,
      detTree_flatten a, detTree_flatten b,
      show flatten (Parser.merge a b) = flatten a ++ flatten b from rfl,
      detOnly, detOnly, detOnly, List.all_append]
  | .params ps => by
    rw [show flatten (Parser.params ps) = [Parser.params ps] from rfl,
      detOnly, List.all_cons, List.all_nil, Bool.and_true]
    rfl
  | .segment k ad => by
    rw [show flatten (Parser.segment k ad) = [Parser.segment k ad] from rfl,
      detOnly, List.all_cons, List.all_nil, Bool.and_true]
    rfl
  | .path ss => by
    rw [show flatten (Parser.path ss) = [Parser.path ss] from rfl,
      detOnly, List.all_cons, List.all_nil, Bool.and_true]
    rfl
  | .extra pl => by
    rw [show flatten (Parser.extra pl) = [Parser.extra pl] from rfl,
      detOnly, List.all_cons, List.all_nil, Bool.and_true]
    rfl
  | .embed k p' => by
    rw [show flatten (Parser.embed k p') = [Parser.embed k p'] from rfl,
      detOnly, List.all_cons, List.all_nil, Bool.and_true]
    rfl
  | .oneOf tags => by
    rw [show flatten (Parser.oneOf tags) = [Parser.oneOf tags] from rfl,
      detOnly, List.all_cons, List.all_nil, Bool.and_true]
    rfl

theorem rulesOkT_flatten :
    ∀ (p : Parser) (qm : List (String × String)) (r : RouteValue),
    rulesOkT qm r p = rulesOk qm r (flatten p)
  | .merge a b, qm, r => by
    rw [show rulesOkT qm r (Parser.merge a b) =
        (rulesOkT qm r a && rulesOkT qm r b) from rfl,
      rulesOkT_flatten a qm r, rulesOkT_flatten b qm r,
      show flatten (Parser.merge a b) = flatten a ++ flatten b from rfl,
      rulesOk, rulesOk, rulesOk, List.all_append]
  | .params ps, qm, r => by
    rw [show flatten (Parser.params ps) = [Parser.params ps] from rfl,
      rulesOk, List.all_cons, List.all_nil, Bool.and_true]
    rfl
  | .segment k ad, qm, r => by
    rw [show flatten (Parser.segment k ad) = [Parser.segment k ad] from rfl,
      rulesOk, List.all_cons, List.all_nil, Bool.and_true]
    rfl
  | .path ss, qm, r => by
    rw [show flatten (Parser.path ss) = [Parser.path ss] from rfl,
      rulesOk, List.all_cons, List.all_nil, Bool.and_true]
    rfl
  | .extra pl, qm, r => by
    rw [show flatten (Parser.extra pl) = [Parser.extra pl] from rfl,
      rulesOk, List.all_cons, List.all_nil, Bool.and_true]
    rfl
  | .embed k p', qm, r => by
    rw [show flatten (Parser.embed k p') = [Parser.embed k p'] from rfl,
      rulesOk, List.all_cons, List.all_nil, Bool.and_true]
    rfl
  | .oneOf tags, qm, r => by
    rw [show flatten (Parser.oneOf tags) = [Parser.oneOf tags] from rfl,
      rulesOk, List.all_cons, List.all_nil, Bool.and_true]
    rfl

theorem extendAcc_append :
    ∀ (l₁ l₂ : List Parser) (v acc : RouteValue),
    extendAcc (l₁ ++ l₂) v acc = extendAcc l₂ v (extendAcc l₁ v acc) := by
  intro l₁
  induction l₁ with
  | nil => intro l₂ v acc; rfl
  | cons r t ih =>
    intro l₂ v acc
    rw [List.cons_append,
      show extendAcc (r :: (t ++ l₂)) v acc =
        extendAcc (t ++ l₂) v (extendRule r v acc) from rfl, ih,
      show extendAcc (r :: t) v acc = extendAcc t v (extendRule r v acc) from rfl]

theorem extendTree_eq : ∀ (p : Parser) (r acc : RouteValue),
    extendTree p r acc = extendAcc (flatten p) r acc
  | .merge a b, r, acc => by
    rw [show extendTree (Parser.merge a b) r acc =
        extendTree b r (extendTree a r acc) from rfl,
      extendTree_eq a r acc, extendTree_eq b r (extendAcc (flatten a) r acc),
      show flatten (Parser.merge a b) = flatten a ++ flatten b from rfl,
      extendAcc_append]
  | .params ps, r, acc => rfl
  | .segment k ad, r, acc => rfl
  | .path ss, r, acc => rfl
  | .extra pl, r, acc => rfl
  | .embed k p', r, acc => rfl
  | .oneOf tags, r, acc => rfl

theorem printTree_eq : ∀ (p : Parser) (v : RouteValue),
    printTree v p = doPrintL v (flatten p)
  | .merge a b, v => by
    rw [show printTree v (Parser.merge a b) =
        (match printTree v a, printTree v b with
          | some (sa, qa), some (sb, qb) => some (sa ++ sb, qa ++ qb)
          | _, _ => none) from rfl,
      printTree_eq a v, printTree_eq b v,
      show flatten (Parser.merge a b) = flatten a ++ flatten b from rfl,
      doPrintL_append v (flatten a) (flatten b)]
  | .params ps, v => by
    rw [show flatten (Parser.params ps) = [Parser.params ps] from rfl, doPrintL,
      show printTree v (Parser.params ps) = printRule v (Parser.params ps) from rfl]
    cases hr : printRule v (Parser.params ps) with
    | none => rfl
    | some pr =>
      obtain ⟨s, q⟩ := pr
      show some (s, q) = some (s ++ [], q ++ [])
      rw [List.append_nil, List.append_nil]
  | .segment k ad, v => by
    rw [show flatten (Parser.segment k ad) = [Parser.segment k ad] from rfl,
      doPrintL, show printTree v (Parser.segment k ad) =
        printRule v (Parser.segment k ad) from rfl]
    cases hr : printRule v (Parser.segment k ad) with
    | none => rfl
    | some pr =>
      obtain ⟨s, q⟩ := pr
      show some (s, q) = some (s ++ [], q ++ [])
      rw [List.append_nil, List.append_nil]
  | .path ss, v => by
    rw [show flatten (Parser.path ss) = [Parser.path ss] from rfl, doPrintL,
      show printTree v (Parser.path ss) = printRule v (Parser.path ss) from rfl]
    cases hr : printRule v (Parser.path ss) with
    | none => rfl
    | some pr =>
      obtain ⟨s, q⟩ := pr
      show some (s, q) = some (s ++ [], q ++ [])
      rw [List.append_nil, List.append_nil]
  | .extra pl, v => by
    rw [show flatten (Parser.extra pl) = [Parser.extra pl] from rfl, doPrintL,
      show printTree v (Parser.extra pl) = printRule v (Parser.extra pl) from rfl]
    cases hr : printRule v (Parser.extra pl) with
    | none => rfl
    | some pr =>
      obtain ⟨s, q⟩ := pr
      show some (s, q) = some (s ++ [], q ++ [])
      rw [List.append_nil, List.append_nil]
  | .embed k p', v => by
    rw [show flatten (Parser.embed k p') = [Parser.embed k p'] from rfl, doPrintL,
      show printTree v (Parser.embed k p') = printRule v (Parser.embed k p') from rfl]
    cases hr : printRule v (Parser.embed k p') with
    | none => rfl
    | some pr =>
      obtain ⟨s, q⟩ := pr
      show some (s, q) = some (s ++ [], q ++ [])
      rw [List.append_nil, List.append_nil]
  | .oneOf tags, v => by
    rw [show flatten (Parser.oneOf tags) = [Parser.oneOf tags] from rfl, doPrintL,
      show printTree v (Parser.oneOf tags) = printRule v (Parser.oneOf tags) from rfl]
    cases hr : printRule v (Parser.oneOf tags) with
    | none => rfl
    | some pr =>
      obtain ⟨s, q⟩ := pr
      show some (s, q) = some (s ++ [], q ++ [])
      rw [List.append_nil, List.append_nil]

/-- Parsing the url a deterministic rule sequence printed re-traverses
the rules, consuming exactly the printed segments — a prefix of the
remaining input — and rebuilding the route value field by field; an
`Embed` rule runs its nested deterministic rules from an empty object
and wraps their result. -/
theorem parse_print_core :
    ∀ (n : Nat) (rules : List Parser) (v acc : RouteValue)
      (segsAll : List String) (qm : List (String × String)) (idx : Nat)
      (S2 : List String) (Q2 : List (String × String)) (rest : List String)
      (fm : Bool),
    szL rules ≤ n →
    detOnly rules = true →
    doPrintL v rules = some (S2, Q2) →
    segsAll.drop idx = S2 ++ rest →
    rulesOk qm v rules = true →
    doParseRules rules [(acc, ⟨segsAll, qm, idx⟩)] fm =
      [(extendAcc rules v acc, ⟨segsAll, qm, idx + S2.length⟩)] := by
  intro n
  induction n using Nat.strong_induction_on with
  | _ n ihn =>
    intro rules v acc segsAll qm idx S2 Q2 rest fm hn hdet hpr hdrop hok
    match rules with
    | [] =>
      rw [show doPrintL v [] = some (([] : List String),
        ([] : List (String × String))) from rfl, Option.some.injEq,
        Prod.mk.injEq] at hpr
      obtain ⟨rfl, rfl⟩ := hpr
      rw [doParseRules_nil]
      rfl
    | r :: t =>
      have hszr := sz_pos r
      have hsz : szL (r :: t) = sz r + szL t := rfl
      rw [hsz] at hn
      rw [detOnly, List.all_cons, Bool.and_eq_true] at hdet
      obtain ⟨hdr, hdt⟩ := hdet
      rw [rulesOk, List.all_cons, Bool.and_eq_true] at hok
      obtain ⟨hokr, hokt⟩ := hok
      rw [doPrintL] at hpr
      cases hpr1 : printRule v r with
      | none =>
        rw [hpr1] at hpr
        cases hpr2 : doPrintL v t with
        | none => rw [hpr2] at hpr; exact absurd hpr (by simp)
        | some pr2 =>
          rw [hpr2] at hpr
          obtain ⟨s2, q2⟩ := pr2
          exact absurd hpr (by simp)
      | some pr1 =>
        obtain ⟨s1, q1⟩ := pr1
        cases hpr2 : doPrintL v t with
        | none =>
          rw [hpr1, hpr2] at hpr
          exact absurd hpr (by simp)
        | some pr2 =>
          obtain ⟨s2, q2⟩ := pr2
          rw [hpr1, hpr2] at hpr
          dsimp only at hpr
          rw [Option.some.injEq, Prod.mk.injEq] at hpr
          obtain ⟨hS2, hQ2⟩ := hpr
          subst hS2
          subst hQ2
          rw [doParseRules_cons]
          have ihtail : ∀ (acc' : RouteValue) (idx' : Nat),
              segsAll.drop idx' = s2 ++ rest →
              doParseRules t [(acc', ⟨segsAll, qm, idx'⟩)] fm =
                [(extendAcc t v acc', ⟨segsAll, qm, idx' + s2.length⟩)] :=
            fun acc' idx' hdrop' =>
              ihn (szL t) (by omega) t v acc' segsAll qm idx' s2 q2 rest fm
                (le_refl _) hdt hpr2 hdrop' hokt
          cases r with
          | path ss =>
            rw [show printRule v (.path ss) = some (ss, []) from rfl,
              Option.some.injEq, Prod.mk.injEq] at hpr1
            obtain ⟨rfl, rfl⟩ := hpr1
            rw [List.append_assoc] at hdrop
            rw [show ruleStep (Parser.path ss) [(acc, ⟨segsAll, qm, idx⟩)] fm =
              (parsePathC ss (acc, ⟨segsAll, qm, idx⟩)).toList from
              filterMap_singleton _ _]
            rw [show parsePathC ss (acc, ⟨segsAll, qm, idx⟩) =
              some (acc, ⟨segsAll, qm, idx + ss.length⟩) from by
                rw [parsePathC, if_pos]
                rw [segsMatch_of_drop ss segsAll idx (s2 ++ rest) hdrop]]
            rw [show extendAcc (Parser.path ss :: t) v acc = extendAcc t v acc
              from rfl]
            rw [show idx + (ss ++ s2).length = (idx + ss.length) + s2.length
              from by rw [List.length_append]; omega]
            exact ihtail acc (idx + ss.length) (drop_add_of_drop hdrop)
          | segment k ad =>
            cases hv : v.lookup k with
            | none =>
              rw [show ruleOk qm v (Parser.segment k ad) =
                (match v.lookup k with
                  | some x => ad.apply (ad.unapply x) == some x
                  | none => false) from rfl, hv] at hokr
              exact absurd hokr (by simp)
            | some x =>
              rw [show ruleOk qm v (Parser.segment k ad) =
                (match v.lookup k with
                  | some x => ad.apply (ad.unapply x) == some x
                  | none => false) from rfl, hv] at hokr
              dsimp only at hokr
              rw [beq_iff_eq] at hokr
              rw [show printRule v (.segment k ad) =
                (match v.lookup k with
                  | some x => some ([ad.unapply x], [])
                  | none =>
                    match getDefaultValue ad with
                    | some d => some ([ad.unapply d], [])
                    | none => none) from rfl, hv] at hpr1
              dsimp only at hpr1
              rw [Option.some.injEq, Prod.mk.injEq] at hpr1
              obtain ⟨rfl, rfl⟩ := hpr1
              have hdropC : segsAll.drop idx =
                  ad.unapply x :: (s2 ++ rest) := by rw [hdrop]; rfl
              rw [show ruleStep (Parser.segment k ad)
                [(acc, ⟨segsAll, qm, idx⟩)] fm =
                (parseSegmentC k ad (acc, ⟨segsAll, qm, idx⟩)).toList from
                filterMap_singleton _ _]
              rw [show parseSegmentC k ad (acc, ⟨segsAll, qm, idx⟩) =
                some (assocSet acc k x, ⟨segsAll, qm, idx + 1⟩) from by
                  rw [parseSegmentC]
                  dsimp only
                  rw [get?_of_drop hdropC]
                  dsimp only
                  rw [hokr]]
              rw [show extendAcc (Parser.segment k ad :: t) v acc =
                extendAcc t v (match v.lookup k with
                  | some x => assocSet acc k x
                  | none => acc) from rfl, hv]
              rw [show idx + ([ad.unapply x] ++ s2).length =
                (idx + 1) + s2.length from by
                  rw [List.length_append, List.length_singleton]; omega]
              exact ihtail (assocSet acc k x) (idx + 1)
                (drop_succ_of_drop hdropC)
          | params ps =>
            cases hpp : printParamsGo v ps [] with
            | none =>
              rw [show printRule v (.params ps) =
                (printParamsGo v ps []).map (fun qs => ([], qs)) from rfl,
                hpp] at hpr1
              exact absurd hpr1 (by simp)
            | some qs =>
              rw [show printRule v (.params ps) =
                (printParamsGo v ps []).map (fun qs => ([], qs)) from rfl,
                hpp] at hpr1
              rw [Option.map_some'] at hpr1
              rw [Option.some.injEq, Prod.mk.injEq] at hpr1
              obtain ⟨hs1, rfl⟩ := hpr1
              subst hs1
              have hdropC : segsAll.drop idx = s2 ++ rest := by rw [hdrop]; rfl
              rw [show ruleOk qm v (Parser.params ps) =
                ps.all (fun kv => paramOk qm v kv.1 kv.2) from rfl] at hokr
              rw [show ruleStep (Parser.params ps)
                [(acc, ⟨segsAll, qm, idx⟩)] fm =
                (parseParamsC ps (acc, ⟨segsAll, qm, idx⟩)).toList from
                filterMap_singleton _ _]
              rw [show parseParamsC ps (acc, ⟨segsAll, qm, idx⟩) =
                (parseParamsGo qm ps acc).map
                  (fun out => (out, ⟨segsAll, qm, idx⟩)) from rfl,
                params_core qm v ps acc hokr]
              rw [show extendAcc (Parser.params ps :: t) v acc =
                extendAcc t v (paramsExtend ps v acc) from rfl]
              exact ihtail (paramsExtend ps v acc) idx hdropC
          | extra pl =>
            rw [show printRule v (.extra pl) = some ([], []) from rfl,
              Option.some.injEq, Prod.mk.injEq] at hpr1
            obtain ⟨rfl, rfl⟩ := hpr1
            have hdropC : segsAll.drop idx = s2 ++ rest := by rw [hdrop]; rfl
            rw [show ruleStep (Parser.extra pl) [(acc, ⟨segsAll, qm, idx⟩)] fm =
              [(assocAssign acc pl, ⟨segsAll, qm, idx⟩)] from rfl]
            rw [show extendAcc (Parser.extra pl :: t) v acc =
              extendAcc t v (assocAssign acc pl) from rfl]
            exact ihtail (assocAssign acc pl) idx hdropC
          | embed k p' =>
            have hdr' : detTree p' = true := hdr
            rw [show printRule v (Parser.embed k p') = (match v.lookup k with
              | some (.vObj r) => printTree r p'
              | _ => none) from rfl] at hpr1
            cases hv : v.lookup k with
            | none =>
              rw [hv] at hpr1
              exact absurd hpr1 (by simp)
            | some w =>
              cases w with
              | vObj r =>
                rw [hv] at hpr1
                have hpr1' : printTree r p' = some (s1, q1) := hpr1
                rw [show ruleOk qm v (Parser.embed k p') =
                  (match v.lookup k with
                    | some (.vObj r) => rulesOkT qm r p'
                    | _ => false) from rfl, hv] at hokr
                have hokr' : rulesOkT qm r p' = true := hokr
                have hdet' : detOnly (flatten p') = true := by
                  rw [← detTree_flatten]
                  exact hdr'
                have hokn : rulesOk qm r (flatten p') = true := by
                  rw [← rulesOkT_flatten]
                  exact hokr'
                have hprn : doPrintL r (flatten p') = some (s1, q1) := by
                  rw [← printTree_eq]
                  exact hpr1'
                have hflsz := szL_flatten_le p'
                have hszr2 : sz (Parser.embed k p') = sz p' + 1 := rfl
                rw [hszr2] at hn
                have hdropA : segsAll.drop idx = s1 ++ (s2 ++ rest) := by
                  rw [hdrop, List.append_assoc]
                have hnest := ihn (szL (flatten p')) (by omega) (flatten p') r
                  [] segsAll qm idx s1 q1 (s2 ++ rest) fm (le_refl _) hdet'
                  hprn hdropA hokn
                have hstep : ruleStep (Parser.embed k p')
                    [(acc, ⟨segsAll, qm, idx⟩)] fm =
                    [(assocAssign
                        [(k, Value.vObj (extendAcc (flatten p') r []))] acc,
                      ⟨segsAll, qm, idx + s1.length⟩)] := by
                  show ([(acc, (⟨segsAll, qm, idx⟩ : ParserState))].flatMap
                    (fun c => (doParseP p' c.2 fm).map
                      (fun pr => (assocAssign [(k, Value.vObj pr.1)] c.1,
                        pr.2)))) = _
                  rw [List.flatMap_cons, List.flatMap_nil, List.append_nil]
                  rw [show doParseP p' (⟨segsAll, qm, idx⟩ : ParserState) fm =
                    doParseRules (flatten p') [([], ⟨segsAll, qm, idx⟩)] fm
                    from rfl, hnest]
                  rfl
                rw [hstep]
                have hrule : extendRule (Parser.embed k p') v acc =
                    assocAssign
                      [(k, Value.vObj (extendAcc (flatten p') r []))] acc := by
                  show (match v.lookup k with
                    | some (.vObj r') => assocAssign
                        [(k, Value.vObj (extendTree p' r' []))] acc
                    | _ => acc) = _
                  rw [hv]
                  show assocAssign
                    [(k, Value.vObj (extendTree p' r []))] acc = _
                  rw [extendTree_eq]
                rw [show extendAcc (Parser.embed k p' :: t) v acc =
                  extendAcc t v (extendRule (Parser.embed k p') v acc)
                  from rfl, hrule]
                rw [show idx + (s1 ++ s2).length =
                  (idx + s1.length) + s2.length from by
                    rw [List.length_append]; omega]
                exact ihtail _ (idx + s1.length) (drop_add_of_drop hdropA)
              | vStr sx =>
                rw [hv] at hpr1
                exact absurd hpr1 (by simp)
              | vInt ix =>
                rw [hv] at hpr1
                exact absurd hpr1 (by simp)
              | vBool bx =>
                rw [hv] at hpr1
                exact absurd hpr1 (by simp)
              | vList lx =>
                rw [hv] at hpr1
                exact absurd hpr1 (by simp)
          | oneOf tags => simp [detRule] at hdr
          | merge a b => simp [detRule] at hdr

/-- The engine printer agrees with the flat list-level printer whenever
the printed query keys are distinct (`Object.assign` merging then
coincides with concatenation). -/
theorem doPrintP_eq_doPrintL :
    ∀ (n : Nat) (p : Parser) (v : RouteValue) (S : List String)
      (Q : List (String × String)),
    sz p ≤ n →
    detOnly (flatten p) = true →
    doPrintL v (flatten p) = some (S, Q) →
    (Q.map Prod.fst).Nodup →
    doPrintP p v = some (S, Q) := by
  intro n
  induction n using Nat.strong_induction_on with
  | _ n ih =>
    intro p v S Q hn hdet hpl hnd
    have hp1 := sz_pos p
    cases p with
    | oneOf tags =>
      rw [show flatten (Parser.oneOf tags) = [Parser.oneOf tags] from rfl] at hdet
      simp [detOnly, detRule] at hdet
    | embed k p' =>
      rw [show flatten (Parser.embed k p') = [Parser.embed k p'] from rfl]
        at hdet hpl
      rw [detOnly, List.all_cons, List.all_nil, Bool.and_true] at hdet
      have hdt : detTree p' = true := hdet
      rw [doPrintL] at hpl
      cases hr : printRule v (Parser.embed k p') with
      | none => rw [hr] at hpl; exact absurd hpl (by simp)
      | some pr1 =>
        obtain ⟨s1, q1⟩ := pr1
        rw [hr, show doPrintL v [] = some (([] : List String),
          ([] : List (String × String))) from rfl] at hpl
        dsimp only at hpl
        rw [Option.some.injEq, Prod.mk.injEq, List.append_nil,
          List.append_nil] at hpl
        obtain ⟨rfl, rfl⟩ := hpl
        rw [show printRule v (Parser.embed k p') = (match v.lookup k with
          | some (.vObj r) => printTree r p'
          | _ => none) from rfl] at hr
        cases hv : v.lookup k with
        | none => rw [hv] at hr; exact absurd hr (by simp)
        | some w =>
          cases w with
          | vObj r =>
            rw [hv] at hr
            have hr' : printTree r p' = some (s1, q1) := hr
            have hpln : doPrintL r (flatten p') = some (s1, q1) := by
              rw [← printTree_eq]
              exact hr'
            have hdet2 : detOnly (flatten p') = true := by
              rw [← detTree_flatten]
              exact hdt
            have hsze : sz (Parser.embed k p') = sz p' + 1 := rfl
            rw [hsze] at hn
            have hrec := ih (sz p') (by omega) p' r s1 q1 (le_refl _)
              hdet2 hpln hnd
            rw [show doPrintP (Parser.embed k p') v = (match v.lookup k with
              | some (.vObj r) => doPrintP p' r
              | _ => none) from rfl, hv]
            exact hrec
          | vStr sx => rw [hv] at hr; exact absurd hr (by simp)
          | vInt ix => rw [hv] at hr; exact absurd hr (by simp)
          | vBool bx => rw [hv] at hr; exact absurd hr (by simp)
          | vList lx => rw [hv] at hr; exact absurd hr (by simp)
    | merge a b =>
      have hsz2 : sz (Parser.merge a b) = sz a + sz b + 1 := rfl
      have ha1 := sz_pos a
      have hb1 := sz_pos b
      rw [show flatten (Parser.merge a b) = flatten a ++ flatten b from rfl]
        at hdet hpl
      rw [detOnly, List.all_append, Bool.and_eq_true] at hdet
      rw [doPrintL_append] at hpl
      cases ha : doPrintL v (flatten a) with
      | none => rw [ha] at hpl; exact absurd hpl (by simp)
      | some pra =>
        obtain ⟨sa, qa⟩ := pra
        cases hb : doPrintL v (flatten b) with
        | none => rw [ha, hb] at hpl; exact absurd hpl (by simp)
        | some prb =>
          obtain ⟨sb, qb⟩ := prb
          rw [ha, hb] at hpl
          dsimp only at hpl
          rw [Option.some.injEq, Prod.mk.injEq] at hpl
          obtain ⟨hS, hQ⟩ := hpl
          subst hS
          subst hQ
          rw [List.map_append, List.nodup_append] at hnd
          obtain ⟨hnda, hndb, hdisj⟩ := hnd
          have iha := ih (sz a) (by omega) a v sa qa (le_refl _) hdet.1 ha hnda
          have ihb := ih (sz b) (by omega) b v sb qb (le_refl _) hdet.2 hb hndb
          rw [doPrintP_merge, iha, ihb]
          dsimp only
          rw [show assocAssign qa qb =
            qb.foldl (fun acc kv => assocSet acc kv.1 kv.2) qa from rfl,
            assocSet_foldl_nodup qb qa ?_ hndb]
          intro kv hkv
          intro hmem
          exact hdisj hmem (List.mem_map_of_mem Prod.fst hkv)
    | params ps =>
      rw [show flatten (Parser.params ps) = [Parser.params ps] from rfl] at hpl
      rw [doPrintL] at hpl
      cases hr : printRule v (Parser.params ps) with
      | none => rw [hr] at hpl; exact absurd hpl (by simp)
      | some pr1 =>
        obtain ⟨s1, q1⟩ := pr1
        rw [hr, show doPrintL v [] = some (([] : List String),
          ([] : List (String × String))) from rfl] at hpl
        dsimp only at hpl
        rw [Option.some.injEq, Prod.mk.injEq, List.append_nil,
          List.append_nil] at hpl
        obtain ⟨rfl, rfl⟩ := hpl
        rw [show doPrintP (Parser.params ps) v =
          printRule v (Parser.params ps) from rfl, hr]
    | segment k ad =>
      rw [show flatten (Parser.segment k ad) = [Parser.segment k ad] from rfl]
        at hpl
      rw [doPrintL] at hpl
      cases hr : printRule v (Parser.segment k ad) with
      | none => rw [hr] at hpl; exact absurd hpl (by simp)
      | some pr1 =>
        obtain ⟨s1, q1⟩ := pr1
        rw [hr, show doPrintL v [] = some (([] : List String),
          ([] : List (String × String))) from rfl] at hpl
        dsimp only at hpl
        rw [Option.some.injEq, Prod.mk.injEq, List.append_nil,
          List.append_nil] at hpl
        obtain ⟨rfl, rfl⟩ := hpl
        rw [show doPrintP (Parser.segment k ad) v =
          printRule v (Parser.segment k ad) from rfl, hr]
    | path ss =>
      rw [show flatten (Parser.path ss) = [Parser.path ss] from rfl] at hpl
      rw [doPrintL] at hpl
      cases hr : printRule v (Parser.path ss) with
      | none => rw [hr] at hpl; exact absurd hpl (by simp)
      | some pr1 =>
        obtain ⟨s1, q1⟩ := pr1
        rw [hr, show doPrintL v [] = some (([] : List String),
          ([] : List (String × String))) from rfl] at hpl
        dsimp only at hpl
        rw [Option.some.injEq, Prod.mk.injEq, List.append_nil,
          List.append_nil] at hpl
        obtain ⟨rfl, rfl⟩ := hpl
        rw [show doPrintP (Parser.path ss) v =
          printRule v (Parser.path ss) from rfl, hr]
    | extra pl =>
      rw [show flatten (Parser.extra pl) = [Parser.extra pl] from rfl] at hpl
      rw [doPrintL] at hpl
      cases hr : printRule v (Parser.extra pl) with
      | none => rw [hr] at hpl; exact absurd hpl (by simp)
      | some pr1 =>
        obtain ⟨s1, q1⟩ := pr1
        rw [hr, show doPrintL v [] = some (([] : List String),
          ([] : List (String × String))) from rfl] at hpl
        dsimp only at hpl
        rw [Option.some.injEq, Prod.mk.injEq, List.append_nil,
          List.append_nil] at hpl
        obtain ⟨rfl, rfl⟩ := hpl
        rw [show doPrintP (Parser.extra pl) v =
          printRule v (Parser.extra pl) from rfl, hr]

/-- C1 (counterexample): on `oneOf(tag('A').path('y').params({q:
literals('1')}), tag('B').path('y').params({q: nat}))` the value
`{tag: "B", q: 1}` is producible (it is what `parse` returns on
`y?q=01`), its printed url is `y?q=1`, but parsing that url returns
`{tag: "A", q: "1"}` — the overlapping alternative `A` shadows `B`, so
`parse(print(v))` differs from `v` and no default-field reconstruction
is involved. -/
theorem claim_C1_counterexample :
    parseM D1 "y?q=01" = .ok (some [("tag", .vStr "B"), ("q", .vInt 1)]) ∧
    printM D1 [("tag", .vStr "B"), ("q", .vInt 1)] = some "y?q=1" ∧
    parseM D1 "y?q=1" = .ok (some [("tag", .vStr "A"), ("q", .vStr "1")]) ∧
    (some [("tag", Value.vStr "A"), ("q", Value.vStr "1")] :
      Option RouteValue) ≠ some [("tag", Value.vStr "B"), ("q", Value.vInt 1)] := by
  refine ⟨rfl, rfl, rfl, ?_⟩
  decide

/-- C1 (amended): for a descriptor built from the deterministic
combinators — `tag`, `path`, `segment`, `params`, `extra` and `embed`
of deterministic sub-descriptors, but not `oneOf`, whose alternations
can shadow each other, see the counterexample — printing a route value
`v` whose fields satisfy the per-rule round-trip conditions produces a
url that parses back to `v` extended with the default values of the
defaulted query fields `v` omits; the printed segments must be nonempty
and the printed query keys distinct and nonempty. -/
theorem claim_C1 (p : Parser) (v : RouteValue) (S : List String)
    (Q : List (String × String))
    (hdet : detOnly (flatten p) = true)
    (hprintL : doPrintL v (flatten p) = some (S, Q))
    (hS : ∀ s ∈ S, s ≠ "")
    (hQk : (Q.map Prod.fst).Nodup)
    (hQne : ∀ kv ∈ Q, kv.1 ≠ "")
    (hok : rulesOk Q v (flatten p) = true)
    (hext : extendAcc (flatten p) v [] = withDefaults (flatten p) v) :
    printM p v = some (assembleChunks (S, Q)) ∧
    parseM p (assembleChunks (S, Q)) =
      .ok (some (withDefaults (flatten p) v)) := by
  have hPP : doPrintP p v = some (S, Q) :=
    doPrintP_eq_doPrintL (sz p) p v S Q (le_refl _) hdet hprintL hQk
  constructor
  · rw [printM, hPP]
    rfl
  · rw [parseM, urlRoundtrip S Q hS hQk hQne]
    show Except.ok (((doParseP p ⟨S, Q, 0⟩ true).head?).map (fun c => c.1)) = _
    have hcore := parse_print_core (szL (flatten p)) (flatten p) v [] S Q 0
      S Q [] true (le_refl _) hdet hprintL
      (by rw [List.drop_zero, List.append_nil]) hok
    rw [Nat.zero_add] at hcore
    rw [doParseP, hcore]
    rw [show ([(extendAcc (flatten p) v [],
      (⟨S, Q, S.length⟩ : ParserState))].head?).map (fun c => c.1) =
      some (extendAcc (flatten p) v []) from rfl, hext]

/-- C1 witness: first, the spec's `Category` example with the `page`
default omitted — printing `{tag: "Category", slug: "shoes"}` yields
`category/shoes` and parsing it back returns the value extended with
`page = 1`; second, a descriptor with an embedded deterministic
sub-descriptor — `{address: {city: "rome"}, tag: "User"}` prints to
`user/a/rome` and parses back to itself. -/
theorem claim_C1_witness :
    (printM DCategory [("tag", .vStr "Category"), ("slug", .vStr "shoes")] =
        some (assembleChunks (["category", "shoes"], [])) ∧
      parseM DCategory (assembleChunks (["category", "shoes"], [])) =
        .ok (some (withDefaults (flatten DCategory)
          [("tag", .vStr "Category"), ("slug", .vStr "shoes")]))) ∧
    (printM DUser
        [("address", .vObj [("city", .vStr "rome")]), ("tag", .vStr "User")] =
        some (assembleChunks (["user", "a", "rome"], [])) ∧
      parseM DUser (assembleChunks (["user", "a", "rome"], [])) =
        .ok (some (withDefaults (flatten DUser)
          [("address", .vObj [("city", .vStr "rome")]),
            ("tag", .vStr "User")]))) :=
  ⟨claim_C1 DCategory [("tag", .vStr "Category"), ("slug", .vStr "shoes")]
      ["category", "shoes"] [] rfl rfl (by decide) (by decide) (by decide)
      rfl rfl,
    claim_C1 DUser
      [("address", .vObj [("city", .vStr "rome")]), ("tag", .vStr "User")]
      ["user", "a", "rome"] [] rfl rfl (by decide) (by decide) (by decide)
      rfl rfl⟩

end Router
